import Mathlib

/-!
# Local copy propagation of the Gen instruction-selection backend

A shallow embedding of `backend/src/backend/gen_insn_selection_optimize.cpp`
(`CalculateElements` and `SelBasicBlockOptimizer`) together with theorems about it.

* 32-bit unsigned arithmetic is arithmetic on `Nat` reduced modulo `2 ^ 32`.
* Code that can abort or leave defined behaviour returns `Except Fault _`.
* The C++ code keeps references into the instructions (`ReplaceInfo::intermedia`,
  `ReplaceInfo::replacement`, the members of `toBeReplaceds`).  They are modelled as
  positions in the instruction store and are dereferenced in the current store, so that a
  write through one reference is seen through every other one.
-/

namespace gbe

/-! ## Data model -/

/-- Ways in which the code can stop without producing a result. -/
inductive Fault where
  /-- The assertion `assert(execWidth >= width)` of `CalculateElements` fails. -/
  | assertExecWidth
  /-- The assertion `assert(insn.opcode == SEL_OP_MOV)` fails. -/
  | assertOpcode
  /-- Integer division by zero. -/
  | divByZero
  /-- The shift `1 << n` with `n` of 32 or more, undefined in C++. -/
  | shiftCount
  /-- Access to an operand or an instruction that does not exist. -/
  | operandIndex
deriving DecidableEq, Repr

/-- Modelled from the spec: the register occurrence of §3 (`GenRegister`, declared in a header
that is not part of the sources).  `reg` is the virtual-register identity returned by
`reg()`; `vstride`, `width` and `hstride` are the region fields read by `vstride_size`,
`width_size` and `hstride_size`. -/
structure GenRegister where
  /-- The virtual register. -/
  reg : Nat
  /-- The data type. -/
  type : Nat
  /-- The register file. -/
  file : Nat
  /-- The sub-register offset in bytes. -/
  subnr : Nat
  /-- The quarter index. -/
  quarter : Nat
  /-- The vertical stride field. -/
  vstride : Nat
  /-- The row width field. -/
  width : Nat
  /-- The horizontal stride field. -/
  hstride : Nat
  /-- The absolute-value source modifier. -/
  absolute : Bool
  /-- The negation source modifier. -/
  negation : Bool
deriving DecidableEq, Repr

/-- Modelled from the spec: the execution-state record of §6 (`GenInstructionState`), with the
members the pass reads. -/
structure GenInstructionState where
  /-- The execution width. -/
  execWidth : Nat
  /-- Is 1 when the instruction ignores the lane mask. -/
  noMask : Nat
  /-- The predicate. -/
  predicate : Nat
deriving DecidableEq, Repr

/-- Modelled from the spec: the instruction of §6 (`SelectionInstruction`): opcode, execution
state, ordered destination and source occurrences and the two fixed-layout predicates
`isWrite()` and `isRead()`. -/
structure SelectionInstruction where
  /-- The opcode. -/
  opcode : Nat
  /-- The execution state. -/
  state : GenInstructionState
  /-- The destination occurrences, `dst(0)`, `dst(1)`, ... -/
  dstRegs : List GenRegister
  /-- The source occurrences, `src(0)`, `src(1)`, ... -/
  srcRegs : List GenRegister
  /-- The result of `isWrite()`. -/
  isWrite : Bool
  /-- The result of `isRead()`. -/
  isRead : Bool
deriving DecidableEq, Repr

/-- The declarations of the backend headers that the pass uses and the sources do not
contain.  Every definition below takes them as a parameter. -/
structure Target where
  /-- The size in bytes of a data type, `typeSize`. -/
  typeSize : Nat → Nat
  /-- The row width of an occurrence in elements, `GenRegister::width_size`. -/
  width_size : GenRegister → Nat
  /-- The vertical stride of an occurrence in elements, `GenRegister::vstride_size`. -/
  vstride_size : GenRegister → Nat
  /-- The horizontal stride of an occurrence in elements, `GenRegister::hstride_size`. -/
  hstride_size : GenRegister → Nat
  /-- Whether an occurrence is a 64-bit integer, `GenRegister::isint64`. -/
  isint64 : GenRegister → Bool
  /-- The occurrence that `GenRegister::propagateRegister(dst, src)` leaves in `dst`. -/
  propagateRegister : GenRegister → GenRegister → GenRegister
  /-- The opcode of a move. -/
  SEL_OP_MOV : Nat
  /-- The opcode of a bitwise and. -/
  SEL_OP_AND : Nat
  /-- The opcode of a byte swap. -/
  SEL_OP_BSWAP : Nat
  /-- The feature bit "the source modifiers of an AND are logical". -/
  SIOF_OP_AND_LOGICAL_SRCMOD : Nat
  /-- The feature bit "restriction on moves of long registers". -/
  SIOF_OP_MOV_LONG_REG_RESTRICT : Nat
  /-- The predicate of an unpredicated instruction. -/
  GEN_PREDICATE_NONE : Nat

/-- A value of type `uint32_t`. -/
def u32 (n : Nat) : Nat := n % 2 ^ 32

/-- The number of destinations, `dstNum`. -/
def SelectionInstruction.dstNum (insn : SelectionInstruction) : Nat := insn.dstRegs.length

/-- The number of sources, `srcNum`. -/
def SelectionInstruction.srcNum (insn : SelectionInstruction) : Nat := insn.srcRegs.length

/-- The destination `dst(i)`. -/
def SelectionInstruction.dst (insn : SelectionInstruction) (i : Nat) : Except Fault GenRegister :=
  match insn.dstRegs.get? i with
  | some r => .ok r
  | none => .error .operandIndex

/-- The source `src(i)`. -/
def SelectionInstruction.src (insn : SelectionInstruction) (i : Nat) : Except Fault GenRegister :=
  match insn.srcRegs.get? i with
  | some r => .ok r
  | none => .error .operandIndex

/-! ## The footprint calculator -/

/-- The inner loop of `CalculateElements`: `j` iterations remain in the row, `offsetInByte` is
the byte offset of the next element and `elements` the footprint so far. -/
def CalculateElements.row (elementSize hstride : Nat) :
    Nat → Nat → Nat → Except Fault Nat
  | 0, _, elements => .ok elements
  | j + 1, offsetInByte, elements =>
    if elementSize = 0 then .error .divByZero
    else
      let offsetInType := offsetInByte / elementSize
      if 32 ≤ offsetInType then .error .shiftCount
      else
        CalculateElements.row elementSize hstride j
          (u32 (offsetInByte + u32 (hstride * elementSize)))
          (elements ||| (1 <<< offsetInType))

/-- The outer loop of `CalculateElements`: `i` rows remain, `base` is the byte offset of the
next row. -/
def CalculateElements.rows (elementSize width vstride hstride : Nat) :
    Nat → Nat → Nat → Except Fault Nat
  | 0, _, elements => .ok elements
  | i + 1, base, elements =>
    match CalculateElements.row elementSize hstride width base elements with
    | .error e => .error e
    | .ok elements1 =>
      CalculateElements.rows elementSize width vstride hstride i
        (u32 (base + u32 (vstride * elementSize))) elements1

/-- The footprint of the occurrence `reg` at the execution width `execWidth`.  The assertion
is checked, as in a build with assertions (§7 of the specification: abort, do not continue). -/
def CalculateElements (T : Target) (reg : GenRegister) (execWidth : Nat) : Except Fault Nat :=
  let elementSize := u32 (T.typeSize reg.type)
  let width := u32 (T.width_size reg)
  if execWidth < width then .error .assertExecWidth
  else if width = 0 then .error .divByZero
  else
    let height := execWidth / width
    let vstride := u32 (T.vstride_size reg)
    let hstride := u32 (T.hstride_size reg)
    CalculateElements.rows elementSize width vstride hstride height (u32 reg.subnr) 0

/-! ## The basic-block optimizer -/

/-- The candidate of a move, `SelBasicBlockOptimizer::ReplaceInfo`.  The C++ members `insn`,
`intermedia` and `replacement` are references to the move, to its `dst(0)` and to its `src(0)`;
here `insn` is the position of the move and the two occurrences are read from the
instruction store (`intermedia`, `replacement` below).  The members of `toBeReplaceds` are
pointers to source occurrences, here pairs of an instruction position and a source index. -/
structure ReplaceInfo where
  /-- The position of the move. -/
  insn : Nat
  /-- The footprint of the intermediate. -/
  elements : Nat
  /-- The occurrences collected for rewriting. -/
  toBeReplaceds : List (Nat × Nat)
  /-- Whether the replacement was written after the move. -/
  replacementOverwritten : Bool
deriving DecidableEq, Repr

/-- The state of `SelBasicBlockOptimizer`.  `insns` holds every instruction of the block by
position; `bb.insnList.erase` only unlinks an instruction, whose storage stays readable and
writable through the references held by the candidates, so an erased instruction stays in
`insns` and its position is recorded in `erased`.  `replaceInfoMap` is a `std::map`, iterated
in increasing key order: it is kept as a list sorted by key. -/
structure SelBasicBlockOptimizer where
  /-- The instruction store. -/
  insns : List SelectionInstruction
  /-- The positions unlinked from the block. -/
  erased : List Nat
  /-- The candidate map. -/
  replaceInfoMap : List (Nat × ReplaceInfo)
  /-- Whether a replacement was done. -/
  optimized : Bool
deriving DecidableEq, Repr

/-- The instruction list of the block, `bb.insnList`: the instructions that are not erased,
in order. -/
def insnList (insns : List SelectionInstruction) (erased : List Nat) : List SelectionInstruction :=
  (insns.enum.filter (fun p => decide (p.1 ∉ erased))).map Prod.snd

/-- The lookup `replaceInfoMap.find(key)`. -/
def mapFind (key : Nat) : List (Nat × ReplaceInfo) → Option ReplaceInfo
  | [] => none
  | (k, info) :: rest => if k = key then some info else mapFind key rest

/-- The removal `replaceInfoMap.erase(pos)` of the entry with key `key`. -/
def mapErase (key : Nat) (m : List (Nat × ReplaceInfo)) : List (Nat × ReplaceInfo) :=
  m.filter (fun p => decide (p.1 ≠ key))

/-- The assignment `replaceInfoMap[key] = info`: the entry with that key is replaced, or a new
entry is inserted at its place in the key order. -/
def mapInsert (key : Nat) (info : ReplaceInfo) :
    List (Nat × ReplaceInfo) → List (Nat × ReplaceInfo)
  | [] => [(key, info)]
  | (k, i) :: rest =>
    if key < k then (key, info) :: (k, i) :: rest
    else if key = k then (key, info) :: rest
    else (k, i) :: mapInsert key info rest

/-- An update in place of the candidate stored under `key`. -/
def mapUpdate (key : Nat) (f : ReplaceInfo → ReplaceInfo) (m : List (Nat × ReplaceInfo)) :
    List (Nat × ReplaceInfo) :=
  m.map (fun p => if p.1 = key then (p.1, f p.2) else p)

/-- The instruction at a position of the store. -/
def getInsn (insns : List SelectionInstruction) (idx : Nat) : Except Fault SelectionInstruction :=
  match insns.get? idx with
  | some insn => .ok insn
  | none => .error .operandIndex

/-- The occurrence `info->intermedia`, the `dst(0)` of the move of the candidate. -/
def intermedia (insns : List SelectionInstruction) (info : ReplaceInfo) :
    Except Fault GenRegister :=
  match getInsn insns info.insn with
  | .ok insn => insn.dst 0
  | .error e => .error e

/-- The occurrence `info->replacement`, the `src(0)` of the move of the candidate, as it is
now. -/
def replacement (insns : List SelectionInstruction) (info : ReplaceInfo) :
    Except Fault GenRegister :=
  match getInsn insns info.insn with
  | .ok insn => insn.src 0
  | .error e => .error e

/-- The write `*reg = r` through a pointer `reg` to the source `p.2` of the instruction at
`p.1`. -/
def setSrc (insns : List SelectionInstruction) (p : Nat × Nat) (r : GenRegister) :
    List SelectionInstruction :=
  insns.modify (fun insn => { insn with srcRegs := insn.srcRegs.set p.2 r }) p.1

/-- The loop of `doReplacement` over `toBeReplaceds`.  Each step reads the replacement through
its reference.  A `std::set` of pointers is iterated in address order; no member of the set is
the `src(0)` of the candidate's own move, so the steps are independent and the order in which
the occurrences were collected is used. -/
def doReplacement.loop (T : Target) (info : ReplaceInfo) :
    List (Nat × Nat) → List SelectionInstruction → Except Fault (List SelectionInstruction)
  | [], insns => .ok insns
  | p :: rest, insns =>
    match getInsn insns p.1 with
    | .error e => .error e
    | .ok insn =>
      match insn.src p.2, replacement insns info with
      | .ok reg, .ok repl =>
        doReplacement.loop T info rest (setSrc insns p (T.propagateRegister reg repl))
      | .error e, _ => .error e
      | _, .error e => .error e

/-- The member `doReplacement`: every collected occurrence is redirected to the replacement,
the move is erased from the block. -/
def doReplacement (T : Target) (s : SelBasicBlockOptimizer) (info : ReplaceInfo) :
    Except Fault SelBasicBlockOptimizer :=
  match doReplacement.loop T info info.toBeReplaceds s.insns with
  | .error e => .error e
  | .ok insns => .ok { s with insns := insns, erased := info.insn :: s.erased, optimized := true }

/-- The loop of `cleanReplaceInfoMap` over the entries of the map, in key order. -/
def cleanReplaceInfoMap.loop (T : Target) :
    List (Nat × ReplaceInfo) → SelBasicBlockOptimizer → Except Fault SelBasicBlockOptimizer
  | [], s => .ok s
  | pair :: rest, s =>
    match doReplacement T s pair.2 with
    | .error e => .error e
    | .ok s1 => cleanReplaceInfoMap.loop T rest s1

/-- The member `cleanReplaceInfoMap`: every candidate left is applied, the map is cleared. -/
def cleanReplaceInfoMap (T : Target) (s : SelBasicBlockOptimizer) :
    Except Fault SelBasicBlockOptimizer :=
  match cleanReplaceInfoMap.loop T s.replaceInfoMap s with
  | .error e => .error e
  | .ok s1 => .ok { s1 with replaceInfoMap := [] }

/-- The assignment `info->replacementOverwritten = true`. -/
def markOverwritten (info : ReplaceInfo) : ReplaceInfo :=
  { info with replacementOverwritten := true }

/-- The loop of `removeFromReplaceInfoMap` over the entries of the map, in key order; it
returns at the first entry whose intermediate or replacement is the register written. -/
def removeFromReplaceInfoMap.loop (T : Target) (var : GenRegister) :
    List (Nat × ReplaceInfo) → SelBasicBlockOptimizer → Except Fault SelBasicBlockOptimizer
  | [], s => .ok s
  | (key, info) :: rest, s =>
    match intermedia s.insns info with
    | .error e => .error e
    | .ok im =>
      if im.reg = var.reg then
        if im.quarter = var.quarter ∧ im.subnr = var.subnr then
          match doReplacement T s info with
          | .error e => .error e
          | .ok s1 => .ok { s1 with replaceInfoMap := mapErase key s1.replaceInfoMap }
        else .ok { s with replaceInfoMap := mapErase key s.replaceInfoMap }
      else
        match replacement s.insns info with
        | .error e => .error e
        | .ok repl =>
          if repl.reg = var.reg then
            .ok { s with replaceInfoMap := mapUpdate key markOverwritten s.replaceInfoMap }
          else removeFromReplaceInfoMap.loop T var rest s

/-- The member `removeFromReplaceInfoMap`, called for a destination `var` that is written. -/
def removeFromReplaceInfoMap (T : Target) (s : SelBasicBlockOptimizer) (var : GenRegister) :
    Except Fault SelBasicBlockOptimizer :=
  removeFromReplaceInfoMap.loop T var s.replaceInfoMap s

/-- The constructor of `ReplaceInfo` for the move at position `idx`. -/
def ReplaceInfo.create (T : Target) (idx : Nat) (insn : SelectionInstruction)
    (intermedia : GenRegister) : Except Fault ReplaceInfo :=
  if insn.opcode ≠ T.SEL_OP_MOV then .error .assertOpcode
  else
    match CalculateElements T intermedia insn.state.execWidth with
    | .error e => .error e
    | .ok elements =>
      .ok { insn := idx, elements := elements, toBeReplaceds := [],
            replacementOverwritten := false }

/-- The member `addToReplaceInfoMap`, called for the move at position `idx`. -/
def addToReplaceInfoMap (T : Target) (liveout : List Nat) (s : SelBasicBlockOptimizer)
    (idx : Nat) : Except Fault SelBasicBlockOptimizer :=
  match getInsn s.insns idx with
  | .error e => .error e
  | .ok insn =>
    if insn.opcode ≠ T.SEL_OP_MOV then .error .assertOpcode
    else
      match insn.src 0, insn.dst 0 with
      | .ok src, .ok dst =>
        if src.type ≠ dst.type ∨ src.file ≠ dst.file then .ok s
        else if dst.reg ∈ liveout then .ok s
        else
          match ReplaceInfo.create T idx insn dst with
          | .error e => .error e
          | .ok info => .ok { s with replaceInfoMap := mapInsert dst.reg info s.replaceInfoMap }
      | .error e, _ => .error e
      | _, .error e => .error e

/-- The block of `CanBeReplaced` for `SIOF_OP_MOV_LONG_REG_RESTRICT`: the result is `true`
when the block returns `false` from `CanBeReplaced`.  `repl` is `info->replacement`. -/
def CanBeReplaced.longRegRestrict (T : Target) (features : Nat) (info : ReplaceInfo)
    (repl : GenRegister) (insn : SelectionInstruction) : Except Fault Bool :=
  if features &&& T.SIOF_OP_MOV_LONG_REG_RESTRICT ≠ 0 ∧ insn.opcode = T.SEL_OP_MOV then
    match insn.dst 0 with
    | .error e => .error e
    | .ok dst =>
      if T.isint64 dst ∧ ¬ T.isint64 repl then
        match CalculateElements T repl insn.state.execWidth with
        | .error e => .error e
        | .ok elements => .ok (decide (info.elements ≠ elements))
      else .ok false
  else .ok false

/-- The member `CanBeReplaced`: may the source occurrence `var` of the instruction `insn` be
redirected to the replacement of the candidate `info`?  The three references of the candidate
(`info->insn`, `info->intermedia`, `info->replacement`) are resolved first. -/
def CanBeReplaced (T : Target) (features : Nat) (insns : List SelectionInstruction)
    (info : ReplaceInfo) (insn : SelectionInstruction) (var : GenRegister) :
    Except Fault Bool :=
  match getInsn insns info.insn, intermedia insns info, replacement insns info with
  | .ok mov, .ok im, .ok repl =>
    if insn.opcode = T.SEL_OP_BSWAP then .ok false
    else if insn.isWrite ∨ insn.isRead then .ok false
    else if features &&& T.SIOF_OP_AND_LOGICAL_SRCMOD ≠ 0 ∧ insn.opcode = T.SEL_OP_AND ∧
        (repl.absolute ∨ repl.negation) then .ok false
    else
      match CanBeReplaced.longRegRestrict T features info repl insn with
      | .error e => .error e
      | .ok true => .ok false
      | .ok false =>
        if info.replacementOverwritten then .ok false
        else if mov.state.noMask = 0 ∧ insn.state.noMask = 1 then .ok false
        else if mov.state.predicate ≠ insn.state.predicate ∧
            mov.state.predicate ≠ T.GEN_PREDICATE_NONE then .ok false
        else if im.type = var.type ∧ im.quarter = var.quarter ∧ im.subnr = var.subnr then
          match CalculateElements T var insn.state.execWidth with
          | .error e => .error e
          | .ok elements => .ok (decide (info.elements = elements))
        else .ok false
  | .error e, _, _ => .error e
  | _, .error e, _ => .error e
  | _, _, .error e => .error e

/-- The insertion `info->toBeReplaceds.insert(&var)` into the set of collected occurrences. -/
def collect (p : Nat × Nat) (info : ReplaceInfo) : ReplaceInfo :=
  { info with toBeReplaceds :=
      if p ∈ info.toBeReplaceds then info.toBeReplaceds else info.toBeReplaceds ++ [p] }

/-- The member `changeInsideReplaceInfoMap`, called for the source `j` of the instruction at
position `idx`. -/
def changeInsideReplaceInfoMap (T : Target) (features : Nat) (s : SelBasicBlockOptimizer)
    (idx j : Nat) : Except Fault SelBasicBlockOptimizer :=
  match getInsn s.insns idx with
  | .error e => .error e
  | .ok insn =>
    match insn.src j with
    | .error e => .error e
    | .ok var =>
      match mapFind var.reg s.replaceInfoMap with
      | none => .ok s
      | some info =>
        match CanBeReplaced T features s.insns info insn var with
        | .error e => .error e
        | .ok true =>
          .ok { s with replaceInfoMap := mapUpdate var.reg (collect (idx, j)) s.replaceInfoMap }
        | .ok false => .ok { s with replaceInfoMap := mapErase var.reg s.replaceInfoMap }

/-- The loop over the sources of the instruction at position `idx`. -/
def scanSrcs (T : Target) (features : Nat) (idx : Nat) :
    List Nat → SelBasicBlockOptimizer → Except Fault SelBasicBlockOptimizer
  | [], s => .ok s
  | j :: rest, s =>
    match changeInsideReplaceInfoMap T features s idx j with
    | .error e => .error e
    | .ok s1 => scanSrcs T features idx rest s1

/-- The loop over the destinations of the instruction at position `idx`. -/
def scanDsts (T : Target) (idx : Nat) :
    List Nat → SelBasicBlockOptimizer → Except Fault SelBasicBlockOptimizer
  | [], s => .ok s
  | j :: rest, s =>
    match getInsn s.insns idx with
    | .error e => .error e
    | .ok insn =>
      match insn.dst j with
      | .error e => .error e
      | .ok var =>
        match removeFromReplaceInfoMap T s var with
        | .error e => .error e
        | .ok s1 => scanDsts T idx rest s1

/-- The body of the loop of `doLocalCopyPropagation` for the instruction at position `idx`. -/
def scanInsn (T : Target) (features : Nat) (liveout : List Nat) (s : SelBasicBlockOptimizer)
    (idx : Nat) : Except Fault SelBasicBlockOptimizer :=
  match getInsn s.insns idx with
  | .error e => .error e
  | .ok insn =>
    match scanSrcs T features idx (List.range insn.srcNum) s with
    | .error e => .error e
    | .ok s1 =>
      match scanDsts T idx (List.range insn.dstNum) s1 with
      | .error e => .error e
      | .ok s2 =>
        if insn.opcode = T.SEL_OP_MOV then addToReplaceInfoMap T liveout s2 idx
        else .ok s2

/-- The loop of `doLocalCopyPropagation` over the instructions of the block. -/
def scanBlock (T : Target) (features : Nat) (liveout : List Nat) :
    List Nat → SelBasicBlockOptimizer → Except Fault SelBasicBlockOptimizer
  | [], s => .ok s
  | idx :: rest, s =>
    match scanInsn T features liveout s idx with
    | .error e => .error e
    | .ok s1 => scanBlock T features liveout rest s1

/-- The member `doLocalCopyPropagation`.  The loop visits the instructions linked in the
block; an instruction erased during the scan always precedes the one being visited. -/
def doLocalCopyPropagation (T : Target) (features : Nat) (liveout : List Nat)
    (s : SelBasicBlockOptimizer) : Except Fault SelBasicBlockOptimizer :=
  match scanBlock T features liveout
      ((List.range s.insns.length).filter (fun i => decide (i ∉ s.erased))) s with
  | .error e => .error e
  | .ok s1 => cleanReplaceInfoMap T s1

/-- The constant `MaxTries`, the number of rounds. -/
def MaxTries : Nat := 1

/-- The loop of `run`, with `n` rounds left. -/
def run.loop (T : Target) (features : Nat) (liveout : List Nat) :
    Nat → SelBasicBlockOptimizer → Except Fault SelBasicBlockOptimizer
  | 0, s => .ok s
  | n + 1, s =>
    match doLocalCopyPropagation T features liveout { s with optimized := false } with
    | .error e => .error e
    | .ok s1 => if s1.optimized = false then .ok s1 else run.loop T features liveout n s1

/-- The optimizer on the state: `SelBasicBlockOptimizer::run`. -/
def runState (T : Target) (features : Nat) (liveout : List Nat) (bb : List SelectionInstruction) :
    Except Fault SelBasicBlockOptimizer :=
  run.loop T features liveout MaxTries
    { insns := bb, erased := [], replaceInfoMap := [], optimized := false }

/-- The block left by `SelBasicBlockOptimizer::run` on the block `bb`. -/
def run (T : Target) (features : Nat) (liveout : List Nat) (bb : List SelectionInstruction) :
    Except Fault (List SelectionInstruction) :=
  match runState T features liveout bb with
  | .error e => .error e
  | .ok s => .ok (insnList s.insns s.erased)

/-! ## An instance for worked examples -/

/-- Modelled from the spec: a target for worked examples.  The region fields hold the strides
and the row width in elements, the type field holds the element size in bytes, an occurrence
is a 64-bit integer when its elements have 8 bytes, and a redirection rewrites the
register-identity part of an occurrence (§4.4).  Opcode 0 is MOV, 1 is AND, 2 is BSWAP and 3
stands for ADD; the feature bits are 1 and 2; predicate 0 is "none". -/
def exampleTarget : Target where
  typeSize := fun t => t
  width_size := fun r => r.width
  vstride_size := fun r => r.vstride
  hstride_size := fun r => r.hstride
  isint64 := fun r => decide (r.type = 8)
  propagateRegister := fun dst src => { dst with reg := src.reg }
  SEL_OP_MOV := 0
  SEL_OP_AND := 1
  SEL_OP_BSWAP := 2
  SIOF_OP_AND_LOGICAL_SRCMOD := 1
  SIOF_OP_MOV_LONG_REG_RESTRICT := 2
  GEN_PREDICATE_NONE := 0

/-- A whole-register occurrence of the virtual register `r` for worked examples: 4-byte
elements, region `<8;8,1>`, no offset, no modifier. -/
def vreg (r : Nat) : GenRegister :=
  { reg := r, type := 4, file := 0, subnr := 0, quarter := 0, vstride := 8, width := 8,
    hstride := 1, absolute := false, negation := false }

/-- An instruction for worked examples: execution width 8, mask-respecting, no predicate, not
of fixed layout. -/
def mkInsn (opcode : Nat) (dsts srcs : List Nat) : SelectionInstruction :=
  { opcode := opcode, state := { execWidth := 8, noMask := 0, predicate := 0 },
    dstRegs := dsts.map vreg, srcRegs := srcs.map vreg, isWrite := false, isRead := false }

/-- The number of bits set in a 32-bit word. -/
def popcount (e : Nat) : Nat := ((Finset.range 32).filter (fun k => e.testBit k = true)).card

/-! ## Notions used in the statements -/

/-- What the pass keeps of an instruction: everything but the contents of its sources. -/
def SelectionInstruction.frame (insn : SelectionInstruction) :
    Nat × GenInstructionState × List GenRegister × Nat × Bool × Bool :=
  (insn.opcode, insn.state, insn.dstRegs, insn.srcNum, insn.isWrite, insn.isRead)

/-- The instruction at position `i` of the block `bb` is a move into a register that is not
live out of the block. -/
def IsLocalMove (T : Target) (liveout : List Nat) (bb : List SelectionInstruction) (i : Nat) :
    Prop :=
  ∃ mov d, bb[i]? = some mov ∧ mov.opcode = T.SEL_OP_MOV ∧ mov.dst 0 = .ok d ∧ d.reg ∉ liveout

/-- The instruction at position `i` of the block `bb`, if any, is not of fixed layout. -/
def NotFixed (bb : List SelectionInstruction) (i : Nat) : Prop :=
  ∀ insn : SelectionInstruction, bb[i]? = some insn → insn.isWrite = false ∧ insn.isRead = false

/-- The invariant of the scan of the block `bb`: the store differs from `bb` in the contents
of sources only, the instructions of fixed layout are as in `bb`, every erased instruction and
every move of a candidate is a move of `bb` into a register that is not live out, and no
collected occurrence belongs to an instruction of fixed layout. -/
structure Inv (T : Target) (liveout : List Nat) (bb : List SelectionInstruction)
    (s : SelBasicBlockOptimizer) : Prop where
  /-- The store differs from the block in the contents of sources only. -/
  frame : s.insns.map SelectionInstruction.frame = bb.map SelectionInstruction.frame
  /-- The instructions of fixed layout are unchanged. -/
  fixed : ∀ (i : Nat) (insn : SelectionInstruction), bb[i]? = some insn → (insn.isWrite = true ∨ insn.isRead = true) →
    s.insns[i]? = some insn
  /-- The erased instructions are moves into registers that are not live out. -/
  erased : ∀ i, i ∈ s.erased → IsLocalMove T liveout bb i
  /-- The candidates are moves into registers that are not live out, and they collect no
  occurrence of an instruction of fixed layout. -/
  cands : ∀ e, e ∈ s.replaceInfoMap →
    IsLocalMove T liveout bb e.2.insn ∧ ∀ p, p ∈ e.2.toBeReplaceds → NotFixed bb p.1

/-- Scenario A of the specification: `MOV r2 <- r1; ADD r3 <- r2, r4`. -/
def scenarioA : List SelectionInstruction := [mkInsn 0 [2] [1], mkInsn 3 [3] [2, 4]]

/-- No move of the instruction list `l` qualifies for a candidate: each one has a destination
that is live out, or a source and a destination of different type or register file. -/
def NoCandidate (T : Target) (liveout : List Nat) (l : List SelectionInstruction) : Prop :=
  ∀ insn, insn ∈ l → insn.opcode = T.SEL_OP_MOV →
    ∃ src dst, insn.src 0 = .ok src ∧ insn.dst 0 = .ok dst ∧
      (dst.reg ∈ liveout ∨ src.type ≠ dst.type ∨ src.file ≠ dst.file)

/-- The register-machine reading of an instruction: the source registers are read first, then
destination `k` receives `sem opcode values k`, a function of the opcode and of the values
read. -/
def execInsn (sem : Nat → List Int → Nat → Int) (st : Nat → Int) (insn : SelectionInstruction) :
    Nat → Int :=
  let vals := insn.srcRegs.map (fun r => st r.reg)
  insn.dstRegs.enum.foldl (fun st1 p => fun r => if r = p.2.reg then sem insn.opcode vals p.1 else st1 r) st

/-- The register-machine reading of a block. -/
def execBlock (sem : Nat → List Int → Nat → Int) (st : Nat → Int)
    (bb : List SelectionInstruction) : Nat → Int :=
  bb.foldl (execInsn sem) st

/-- An opcode semantics for worked examples: a move (opcode 0) copies its source, every other
opcode adds its sources. -/
def exampleSem (opcode : Nat) (vals : List Int) (_k : Nat) : Int :=
  if opcode = 0 then vals.headD 0 else vals.sum

/-- A block for worked examples: `MOV r5 <- r1; MOV r2 <- r5; ADD r3 <- r2, r4`. -/
def chainDown : List SelectionInstruction :=
  [mkInsn 0 [5] [1], mkInsn 0 [2] [5], mkInsn 3 [3] [2, 4]]

/-- The instruction `insn` made mask-ignoring. -/
def withNoMask (insn : SelectionInstruction) : SelectionInstruction :=
  { insn with state := { insn.state with noMask := 1 } }

/-- A block for worked examples: `MOV r2 <- r1; MOV r3 <- r2; ADD r9 <- r3, r4`, the second
move mask-ignoring. -/
def chainMasked : List SelectionInstruction :=
  [mkInsn 0 [2] [1], withNoMask (mkInsn 0 [3] [2]), mkInsn 3 [9] [3, 4]]

/-- The occurrence `-r1` for worked examples. -/
def negR1 : GenRegister := { vreg 1 with negation := true }

/-- The instruction `MOV r2 <- -r1` for worked examples. -/
def negMove : SelectionInstruction := { mkInsn 0 [2] [] with srcRegs := [negR1] }

/-- The instruction `AND r3 <- r2, r4` for worked examples. -/
def andUse : SelectionInstruction := mkInsn 1 [3] [2, 4]

/-- A block for worked examples: `MOV r2 <- -r1; AND r3 <- r2, r4`. -/
def negatedAnd : List SelectionInstruction := [negMove, andUse]

/-- An occurrence for worked examples: byte elements, region `<1;1,1>`, offset 20. -/
def byteRun : GenRegister :=
  { vreg 1 with type := 1, subnr := 20, vstride := 1, width := 1, hstride := 1 }

/-- An occurrence for worked examples: 4-byte elements, region `<1;1,1>`, no offset. -/
def dwordRun : GenRegister := { vreg 1 with vstride := 1, width := 1, hstride := 1 }

/-- An occurrence for worked examples: 4-byte elements, region `<1;1,0>`, no offset. -/
def rowBroadcast : GenRegister := { vreg 1 with vstride := 1, width := 1, hstride := 0 }

/-- An occurrence for worked examples: 4-byte elements, region `<0;1,0>`, no offset. -/
def scalar : GenRegister := { vreg 1 with vstride := 0, width := 1, hstride := 0 }

/-- A block for worked examples: `MOV r2 <- r1; WRITE r2, r4`, the second instruction of fixed
layout (opcode 4 stands for a write message). -/
def moveThenWrite : List SelectionInstruction :=
  [mkInsn 0 [2] [1], { mkInsn 4 [] [2, 4] with isWrite := true }]

/-- The state of the scan of a block `[mov, X]` that holds the single candidate of `mov`. -/
def pairState (mov X : SelectionInstruction) (key e : Nat) (tbr : List (Nat × Nat)) (ov : Bool) :
    SelBasicBlockOptimizer :=
  { insns := [mov, X], erased := [],
    replaceInfoMap := [(key, { insn := 0, elements := e, toBeReplaceds := tbr,
                               replacementOverwritten := ov })],
    optimized := false }

/-- The instruction `X` with the sources collected in `ps` redirected to `s`. -/
def redirect (T : Target) (s : GenRegister) (ps : List (Nat × Nat)) (X : SelectionInstruction) :
    SelectionInstruction :=
  { X with srcRegs :=
      X.srcRegs.enum.map (fun q => if (1, q.1) ∈ ps then T.propagateRegister q.2 s else q.2) }

/-- The consumer `I` of the move `mov` of `d` from `s`, whose reads of `d` pass the eligibility
check against the footprint `e` of `d`. -/
structure Consumer (T : Target) (features : Nat) (mov I : SelectionInstruction)
    (s d : GenRegister) (e : Nat) : Prop where
  /-- The move has the single source `s`. -/
  srcs : mov.srcRegs = [s]
  /-- The move has the single destination `d`. -/
  dsts : mov.dstRegs = [d]
  /-- The consumer is not a move. -/
  notMov : I.opcode ≠ T.SEL_OP_MOV
  /-- The consumer is not a byte swap. -/
  notBswap : I.opcode ≠ T.SEL_OP_BSWAP
  /-- The consumer is not a fixed-layout write. -/
  notWrite : I.isWrite = false
  /-- The consumer is not a fixed-layout read. -/
  notRead : I.isRead = false
  /-- The consumer does not write `d`. -/
  noWrite : ∀ r, r ∈ I.dstRegs → r.reg ≠ d.reg
  /-- The mask settings agree. -/
  mask : I.state.noMask = mov.state.noMask
  /-- The predicates agree. -/
  pred : I.state.predicate = mov.state.predicate
  /-- The sources that read `d` have its type, quarter, offset and footprint. -/
  reads : ∀ r, r ∈ I.srcRegs → r.reg = d.reg →
    r.type = d.type ∧ r.quarter = d.quarter ∧ r.subnr = d.subnr ∧
      CalculateElements T r I.state.execWidth = .ok e
  /-- Rule 3 of the eligibility check does not reject. -/
  srcmod : ¬ (features &&& T.SIOF_OP_AND_LOGICAL_SRCMOD ≠ 0 ∧ I.opcode = T.SEL_OP_AND ∧
    (s.absolute = true ∨ s.negation = true))

/-- A block for worked examples: `MOV r2 <- r1; MOV r3 <- r1; ADD r1 <- r7, r8;
ADD r9 <- r3, r4`, two copies of `r1` and then a write of `r1`. -/
def twoCopies : List SelectionInstruction :=
  [mkInsn 0 [2] [1], mkInsn 0 [3] [1], mkInsn 3 [1] [7, 8], mkInsn 3 [9] [3, 4]]

/-- The state of the scan of `twoCopies` after its two moves, with the flag `ov` on the
candidate of `r2`. -/
def twoCopiesState (ov : Bool) : SelBasicBlockOptimizer :=
  { insns := twoCopies, erased := [],
    replaceInfoMap :=
      [(2, { insn := 0, elements := 255, toBeReplaceds := [], replacementOverwritten := ov }),
       (3, { insn := 1, elements := 255, toBeReplaceds := [], replacementOverwritten := false })],
    optimized := false }

/-- A block for worked examples: `MOV r5 <- r1; MOV r2 <- r5; ADD r5 <- r7, r8;
ADD r9 <- r5, r4`, a copy of a copy and then a write of the first copy. -/
def staleKey : List SelectionInstruction :=
  [mkInsn 0 [5] [1], mkInsn 0 [2] [5], mkInsn 3 [5] [7, 8], mkInsn 3 [9] [5, 4]]

/-- The state of the scan of `staleKey` after its two moves, with the flag `ov` on the
candidate of `r2`. -/
def staleKeyState (ov : Bool) : SelBasicBlockOptimizer :=
  { insns := staleKey, erased := [],
    replaceInfoMap :=
      [(2, { insn := 1, elements := 255, toBeReplaceds := [], replacementOverwritten := ov }),
       (5, { insn := 0, elements := 255, toBeReplaceds := [(1, 0)],
             replacementOverwritten := false })],
    optimized := false }

/-- A whole-register occurrence of the virtual register `r` with rows of 16 elements: 4-byte
elements, region `<16;16,1>`. -/
def wideReg (r : Nat) : GenRegister := { vreg r with vstride := 16, width := 16 }

/-- A block for worked examples: a move of execution width 16, `MOV(16) r2 <- r1`, then a move
of execution width 8 into a 64-bit integer, `MOV(8) r6:Q <- r2`. -/
def wideThenLong : List SelectionInstruction :=
  [{ opcode := 0, state := { execWidth := 16, noMask := 0, predicate := 0 },
     dstRegs := [wideReg 2], srcRegs := [wideReg 1], isWrite := false, isRead := false },
   { opcode := 0, state := { execWidth := 8, noMask := 0, predicate := 0 },
     dstRegs := [{ vreg 6 with type := 8 }], srcRegs := [vreg 2], isWrite := false,
     isRead := false }]

/-- An occurrence for worked examples: byte elements, region `<32;8,4>`, no offset. -/
def byteRows : GenRegister := { vreg 1 with type := 1, vstride := 32, width := 8, hstride := 4 }

/-- An occurrence for worked examples: elements of `2 ^ 31` bytes, region `<0;4,1>`, no
offset. -/
def hugeElems : GenRegister :=
  { vreg 1 with type := 2 ^ 31, vstride := 0, width := 4, hstride := 1 }

/-- The state of the scan of the block `bb` that holds the single candidate of its first
instruction, under the key `key`. -/
def headState (bb : List SelectionInstruction) (key e : Nat) (tbr : List (Nat × Nat))
    (ov : Bool) : SelBasicBlockOptimizer :=
  { insns := bb, erased := [],
    replaceInfoMap := [(key, { insn := 0, elements := e, toBeReplaceds := tbr,
                               replacementOverwritten := ov })],
    optimized := false }

/-- Scenario E of the specification: `MOV r2 <- r1; MOV r6 <- r2`. -/
def scenarioE : List SelectionInstruction := [mkInsn 0 [2] [1], mkInsn 0 [6] [2]]

/-- Modelled from the spec: the target for worked examples with a redirection that hands the
register file of the replacement to the occurrence together with its register (§4.4: the
register-identity part of an occurrence and the physical fields it inherits from the
replacement); the type of the occurrence stays. -/
def fileTarget : Target :=
  { exampleTarget with
    propagateRegister := fun dst src => { dst with reg := src.reg, file := src.file } }

/-- A block for worked examples: `MOV r2 <- r1` in the register file 0, then the move
`MOV r2 <- r2` of `r2` onto itself, both operands in the register file 1. -/
def selfMove : List SelectionInstruction :=
  [mkInsn 0 [2] [1],
   { mkInsn 0 [] [] with
     dstRegs := [{ vreg 2 with file := 1 }], srcRegs := [{ vreg 2 with file := 1 }] }]

/-! ## The scan as a sequence of events -/

/-- One step of the scan of `doLocalCopyPropagation`: the call of `changeInsideReplaceInfoMap`
for source `j` of instruction `idx`, the call of `removeFromReplaceInfoMap` for destination
`j` of instruction `idx`, or the call of `addToReplaceInfoMap` for the move `idx`. -/
inductive Event where
  /-- The source `j` of instruction `idx` is looked up. -/
  | src (idx j : Nat)
  /-- The destination `j` of instruction `idx` is written. -/
  | dst (idx j : Nat)
  /-- The move `idx` is entered into the map. -/
  | add (idx : Nat)
deriving DecidableEq, Repr

/-- The position of the instruction of an event. -/
def Event.idx : Event → Nat
  | .src idx _ => idx
  | .dst idx _ => idx
  | .add idx => idx

/-- The effect of one event on the state. -/
def step (T : Target) (features : Nat) (liveout : List Nat) (s : SelBasicBlockOptimizer) :
    Event → Except Fault SelBasicBlockOptimizer
  | .src idx j => changeInsideReplaceInfoMap T features s idx j
  | .dst idx j =>
    match getInsn s.insns idx with
    | .error e => .error e
    | .ok insn =>
      match insn.dst j with
      | .error e => .error e
      | .ok var => removeFromReplaceInfoMap T s var
  | .add idx => addToReplaceInfoMap T liveout s idx

/-- The effect of a sequence of events. -/
def runEvents (T : Target) (features : Nat) (liveout : List Nat) :
    List Event → SelBasicBlockOptimizer → Except Fault SelBasicBlockOptimizer
  | [], s => .ok s
  | ev :: rest, s =>
    match step T features liveout s ev with
    | .error e => .error e
    | .ok s1 => runEvents T features liveout rest s1

/-- The events of the instruction `insn` at position `idx`, in the order of the loop body of
`doLocalCopyPropagation`: its sources, its destinations, and the entry into the map when it
is a move. -/
def eventsOf (T : Target) (idx : Nat) (insn : SelectionInstruction) : List Event :=
  (List.range insn.srcNum).map (Event.src idx) ++
    ((List.range insn.dstNum).map (Event.dst idx) ++
      (if insn.opcode = T.SEL_OP_MOV then [Event.add idx] else []))

/-- The events of the instructions `l`, the first of which is at position `k`. -/
def eventsFrom (T : Target) : Nat → List SelectionInstruction → List Event
  | _, [] => []
  | k, insn :: rest => eventsOf T k insn ++ eventsFrom T (k + 1) rest

/-- The events of the scan of the block `bb`. -/
def events (T : Target) (bb : List SelectionInstruction) : List Event := eventsFrom T 0 bb

/-- The state in which `run` starts on the block `bb`. -/
def initState (bb : List SelectionInstruction) : SelBasicBlockOptimizer :=
  { insns := bb, erased := [], replaceInfoMap := [], optimized := false }

/-- The source occurrence at the position `p` (instruction, source index) of a store. -/
def srcAt (insns : List SelectionInstruction) (p : Nat × Nat) : Option GenRegister :=
  match insns[p.1]? with
  | some insn => insn.srcRegs[p.2]?
  | none => none

/-- The invariant of the scan of the block `bb` after the events `pre`, on the candidates and
on the store: the keys of the map increase strictly; the key of a candidate is the register
of its intermediate; a candidate was entered by an event of `pre` and its move is not erased;
a collected occurrence was looked up by an event of `pre`, reads the register of the key and
is still as in `bb`; two candidates have different moves and share no collected occurrence;
a source that was not looked up yet is as in `bb`; an erased move was entered by an event of
`pre`. -/
structure TInv (T : Target) (liveout : List Nat) (bb : List SelectionInstruction)
    (pre : List Event) (s : SelBasicBlockOptimizer) : Prop where
  /-- The invariant `Inv`. -/
  inv : Inv T liveout bb s
  /-- The keys increase strictly. -/
  sorted : s.replaceInfoMap.Pairwise (fun a b => a.1 < b.1)
  /-- The key of a candidate is the register of its intermediate. -/
  key : ∀ e, e ∈ s.replaceInfoMap →
    ∃ mov d, bb[e.2.insn]? = some mov ∧ mov.dst 0 = .ok d ∧ d.reg = e.1
  /-- A candidate was entered by an event of `pre`. -/
  created : ∀ e, e ∈ s.replaceInfoMap → Event.add e.2.insn ∈ pre
  /-- The move of a candidate is not erased. -/
  alive : ∀ e, e ∈ s.replaceInfoMap → e.2.insn ∉ s.erased
  /-- A collected occurrence was looked up, reads the key and is as in `bb`. -/
  collected : ∀ e, e ∈ s.replaceInfoMap → ∀ p, p ∈ e.2.toBeReplaceds →
    Event.src p.1 p.2 ∈ pre ∧ srcAt s.insns p = srcAt bb p ∧
      ∃ r, srcAt bb p = some r ∧ r.reg = e.1
  /-- Two candidates have different moves and share no collected occurrence. -/
  distinct : s.replaceInfoMap.Pairwise
    (fun a b => a.2.insn ≠ b.2.insn ∧ ∀ p, p ∈ a.2.toBeReplaceds → p ∉ b.2.toBeReplaceds)
  /-- A source that was not looked up yet is as in `bb`. -/
  unscanned : ∀ i j, Event.src i j ∉ pre → srcAt s.insns (i, j) = srcAt bb (i, j)
  /-- An erased move was entered by an event of `pre`. -/
  erasedCreated : ∀ i, i ∈ s.erased → Event.add i ∈ pre

/-- An operand occurrence of the block: source or destination `idx` of the instruction at
position `insn`. -/
inductive Occurrence where
  /-- A source occurrence. -/
  | src (insn idx : Nat)
  /-- A destination occurrence. -/
  | dst (insn idx : Nat)
deriving DecidableEq, Repr

/-- The occurrence that `info->intermedia` refers to. -/
def ReplaceInfo.intermediaOcc (info : ReplaceInfo) : Occurrence := .dst info.insn 0

/-- The occurrence that `info->replacement` refers to. -/
def ReplaceInfo.replacementOcc (info : ReplaceInfo) : Occurrence := .src info.insn 0

/-- The occurrences that the members of `info->toBeReplaceds` point to. -/
def ReplaceInfo.collectedOccs (info : ReplaceInfo) : List Occurrence :=
  info.toBeReplaceds.map (fun p => Occurrence.src p.1 p.2)

/-- The occurrences that a candidate refers to. -/
def ReplaceInfo.references (info : ReplaceInfo) : List Occurrence :=
  info.intermediaOcc :: info.replacementOcc :: info.collectedOccs

/-- A block for worked examples: `MOV r2 <- r1; MOV r3 <- r2`. -/
def chainUp : List SelectionInstruction := [mkInsn 0 [2] [1], mkInsn 0 [3] [2]]

/-- The candidate of the move `m` with the collected occurrences `ps` is out of the map for
good: the move is not erased, no candidate of the map is a candidate of `m` or holds an
occurrence of `ps`, and the occurrences of `ps` are as in the block `bb`. -/
def Discarded (bb : List SelectionInstruction) (m : Nat) (ps : List (Nat × Nat))
    (s : SelBasicBlockOptimizer) : Prop :=
  m ∉ s.erased ∧
  (∀ e, e ∈ s.replaceInfoMap → e.2.insn ≠ m ∧ ∀ p, p ∈ ps → p ∉ e.2.toBeReplaceds) ∧
  ∀ p, p ∈ ps → srcAt s.insns p = srcAt bb p

/-- Scenario D of the specification: `MOV r2 <- r1; ADD r3 <- r2, r4`, the ADD
mask-ignoring. -/
def scenarioD : List SelectionInstruction :=
  [mkInsn 0 [2] [1], withNoMask (mkInsn 3 [3] [2, 4])]

/-- A source of the store that differs from the block `bb` after the events `pre` read, in
`bb`, a register that a destination of `pre` writes, at its own instruction or later. -/
def Touched (bb : List SelectionInstruction) (pre : List Event) (s : SelBasicBlockOptimizer) :
    Prop :=
  ∀ p, srcAt s.insns p ≠ srcAt bb p →
    ∃ i j b dv r, Event.dst i j ∈ pre ∧ p.1 ≤ i ∧ bb[i]? = some b ∧ b.dst j = .ok dv ∧
      srcAt bb p = some r ∧ dv.reg = r.reg

/-- The instruction at position `i` of the block `bb` was entered into the map as a candidate:
when the scan reached the end of the instruction, the store held a source 0 of the same type
and register file as the destination 0. -/
def Created (T : Target) (features : Nat) (liveout : List Nat) (bb : List SelectionInstruction)
    (i : Nat) : Prop :=
  ∃ pre post s mov src dst, events T bb = pre ++ Event.add i :: post ∧
    runEvents T features liveout pre (initState bb) = .ok s ∧
    bb[i]? = some mov ∧ srcAt s.insns (i, 0) = some src ∧ mov.dst 0 = .ok dst ∧
    src.type = dst.type ∧ src.file = dst.file

/-- A redirection leaves the type and the register file of the occurrence as they are. -/
def KeepsTypeAndFile (T : Target) : Prop :=
  ∀ a b, (T.propagateRegister a b).type = a.type ∧ (T.propagateRegister a b).file = a.file

/-- The instruction writes the register that its source 0 reads. -/
def WritesOwnSource (insn : SelectionInstruction) : Prop :=
  ∃ r0 dv, insn.src 0 = .ok r0 ∧ dv ∈ insn.dstRegs ∧ dv.reg = r0.reg

/-- The invariant of the scan on the history of the store and of the candidates. -/
def Hist (T : Target) (features : Nat) (liveout : List Nat) (bb : List SelectionInstruction)
    (pre : List Event) (s : SelBasicBlockOptimizer) : Prop :=
  runEvents T features liveout pre (initState bb) = .ok s ∧ Touched bb pre s ∧
    (∀ e, e ∈ s.replaceInfoMap → Created T features liveout bb e.2.insn) ∧
    ∀ i, i ∈ s.erased → Created T features liveout bb i

/-- The map of `s` holds, under the key `key`, a candidate of the move at position `m` that
collected no occurrence. -/
def Pending (key m : Nat) (s : SelBasicBlockOptimizer) : Prop :=
  ∃ info, (key, info) ∈ s.replaceInfoMap ∧ info.insn = m ∧ info.toBeReplaceds = []

/-- Scenario C of the specification: `MOV r2 <- r1; MOV r1 <- r5; ADD r3 <- r2, r4`. -/
def scenarioC : List SelectionInstruction :=
  [mkInsn 0 [2] [1], mkInsn 0 [1] [5], mkInsn 3 [3] [2, 4]]

/-! ## Theorems about the footprint calculator -/

theorem u32_of_lt {n : Nat} (h : n < 2 ^ 32) : u32 n = n := Nat.mod_eq_of_lt h

/-- The bits set by one row. -/
theorem CalculateElements.row_spec (es hs : Nat) (hes : 0 < es) :
    ∀ (j off el : Nat), (∀ t, t < j → (off + t * (hs * es)) / es < 32) →
      off + j * (hs * es) < 2 ^ 32 →
      ∃ e, CalculateElements.row es hs j off el = .ok e ∧
        ∀ k, e.testBit k = true ↔
          (el.testBit k = true ∨ ∃ t, t < j ∧ k = (off + t * (hs * es)) / es) := by
  intro j
  induction j with
  | zero =>
    intro off el _ _
    exact ⟨el, rfl, fun k => by simp⟩
  | succ j ih =>
    intro off el hb hw
    have h0 : off / es < 32 := by simpa using hb 0 (Nat.succ_pos j)
    have hb1 : ∀ t, t < j → (off + hs * es + t * (hs * es)) / es < 32 := by
      intro t ht
      have := hb (t + 1) (Nat.succ_lt_succ ht)
      have e1 : off + (t + 1) * (hs * es) = off + hs * es + t * (hs * es) := by ring
      rwa [e1] at this
    have hw1 : off + hs * es + j * (hs * es) < 2 ^ 32 := by
      have e1 : off + (j + 1) * (hs * es) = off + hs * es + j * (hs * es) := by ring
      rwa [e1] at hw
    have hoff : off + hs * es < 2 ^ 32 := Nat.lt_of_le_of_lt (Nat.le_add_right _ _) hw1
    have hstep : hs * es < 2 ^ 32 := Nat.lt_of_le_of_lt (Nat.le_add_left _ _) hoff
    obtain ⟨e, he, hbits⟩ := ih (off + hs * es) (el ||| (1 <<< (off / es))) hb1 hw1
    refine ⟨e, ?_, ?_⟩
    · simp only [CalculateElements.row, Nat.ne_of_gt hes, if_false, Nat.not_le.mpr h0,
        u32_of_lt hstep, u32_of_lt hoff]
      exact he
    · intro k
      rw [hbits k, Nat.testBit_or, Nat.one_shiftLeft, Nat.testBit_two_pow]
      constructor
      · rintro (h | ⟨t, ht, rfl⟩)
        · simp only [Bool.or_eq_true, decide_eq_true_eq] at h
          rcases h with h | h
          · exact Or.inl h
          · exact Or.inr ⟨0, Nat.succ_pos j, by simp [h]⟩
        · refine Or.inr ⟨t + 1, Nat.succ_lt_succ ht, ?_⟩
          congr 1; ring
      · rintro (h | ⟨t, ht, rfl⟩)
        · exact Or.inl (by simp [h])
        · cases t with
          | zero => exact Or.inl (by simp)
          | succ t =>
            refine Or.inr ⟨t, Nat.lt_of_succ_lt_succ ht, ?_⟩
            congr 1; ring

/-- The bits set by the rows. -/
theorem CalculateElements.rows_spec (es w vs hs : Nat) (hes : 0 < es) :
    ∀ (i base el : Nat),
      (∀ r t, r < i → t < w → (base + r * (vs * es) + t * (hs * es)) / es < 32) →
      base + i * (vs * es) + w * (hs * es) < 2 ^ 32 →
      ∃ e, CalculateElements.rows es w vs hs i base el = .ok e ∧
        ∀ k, e.testBit k = true ↔
          (el.testBit k = true ∨
            ∃ r t, r < i ∧ t < w ∧ k = (base + r * (vs * es) + t * (hs * es)) / es) := by
  intro i
  induction i with
  | zero =>
    intro base el _ _
    exact ⟨el, rfl, fun k => by simp⟩
  | succ i ih =>
    intro base el hb hw
    have hrowb : ∀ t, t < w → (base + t * (hs * es)) / es < 32 := by
      intro t ht
      simpa using hb 0 t (Nat.succ_pos i) ht
    have hw0 : base + vs * es + i * (vs * es) + w * (hs * es) < 2 ^ 32 := by
      have e1 : base + (i + 1) * (vs * es) + w * (hs * es)
          = base + vs * es + i * (vs * es) + w * (hs * es) := by ring
      rwa [e1] at hw
    have hroww : base + w * (hs * es) < 2 ^ 32 := by omega
    obtain ⟨e1, he1, hbits1⟩ := CalculateElements.row_spec es hs hes w base el hrowb hroww
    have hbase : base + vs * es < 2 ^ 32 := by omega
    have hstep : vs * es < 2 ^ 32 := by omega
    have hb1 : ∀ r t, r < i → t < w →
        (base + vs * es + r * (vs * es) + t * (hs * es)) / es < 32 := by
      intro r t hr ht
      have := hb (r + 1) t (Nat.succ_lt_succ hr) ht
      have e1 : base + (r + 1) * (vs * es) + t * (hs * es)
          = base + vs * es + r * (vs * es) + t * (hs * es) := by ring
      rwa [e1] at this
    have hw1 : base + vs * es + i * (vs * es) + w * (hs * es) < 2 ^ 32 := by
      have e1 : base + (i + 1) * (vs * es) + w * (hs * es)
          = base + vs * es + i * (vs * es) + w * (hs * es) := by ring
      rwa [e1] at hw
    obtain ⟨e, he, hbits⟩ := ih (base + vs * es) e1 hb1 hw1
    refine ⟨e, ?_, ?_⟩
    · simp only [CalculateElements.rows, he1, u32_of_lt hstep, u32_of_lt hbase]
      exact he
    · intro k
      rw [hbits k, hbits1 k]
      constructor
      · rintro ((h | ⟨t, ht, rfl⟩) | ⟨r, t, hr, ht, rfl⟩)
        · exact Or.inl h
        · exact Or.inr ⟨0, t, Nat.succ_pos i, ht, by simp⟩
        · refine Or.inr ⟨r + 1, t, Nat.succ_lt_succ hr, ht, ?_⟩
          congr 1; ring
      · rintro (h | ⟨r, t, hr, ht, rfl⟩)
        · exact Or.inl (Or.inl h)
        · cases r with
          | zero => exact Or.inl (Or.inr ⟨t, ht, by simp⟩)
          | succ r =>
            refine Or.inr ⟨r, t, Nat.lt_of_succ_lt_succ hr, ht, ?_⟩
            congr 1; ring


/-- The bits of a footprint, when no byte offset wraps and no element index reaches 32. -/
theorem CalculateElements_spec (T : Target) (reg : GenRegister) (n : Nat)
    (hes : 0 < T.typeSize reg.type) (hes32 : T.typeSize reg.type < 2 ^ 32)
    (hw : 0 < T.width_size reg) (hw32 : T.width_size reg < 2 ^ 32) (hn : T.width_size reg ≤ n)
    (hfit : ∀ r t, r < n / T.width_size reg → t < T.width_size reg →
      (reg.subnr + r * (T.vstride_size reg * T.typeSize reg.type)
        + t * (T.hstride_size reg * T.typeSize reg.type)) / T.typeSize reg.type < 32)
    (hwrap : reg.subnr + n / T.width_size reg * (T.vstride_size reg * T.typeSize reg.type)
      + T.width_size reg * (T.hstride_size reg * T.typeSize reg.type) < 2 ^ 32) :
    ∃ e, CalculateElements T reg n = .ok e ∧
      ∀ k, e.testBit k = true ↔
        ∃ r t, r < n / T.width_size reg ∧ t < T.width_size reg ∧
          k = (reg.subnr + r * (T.vstride_size reg * T.typeSize reg.type)
            + t * (T.hstride_size reg * T.typeSize reg.type)) / T.typeSize reg.type := by
  have hh : 0 < n / T.width_size reg := Nat.div_pos hn hw
  have hsub : reg.subnr < 2 ^ 32 := by omega
  have hvs : T.vstride_size reg < 2 ^ 32 := by
    have h1 : T.vstride_size reg * T.typeSize reg.type < 2 ^ 32 := by
      have : T.vstride_size reg * T.typeSize reg.type
          ≤ n / T.width_size reg * (T.vstride_size reg * T.typeSize reg.type) :=
        Nat.le_mul_of_pos_left _ hh
      omega
    exact Nat.lt_of_le_of_lt (Nat.le_mul_of_pos_right _ hes) h1
  have hhs : T.hstride_size reg < 2 ^ 32 := by
    have h1 : T.hstride_size reg * T.typeSize reg.type < 2 ^ 32 := by
      have : T.hstride_size reg * T.typeSize reg.type
          ≤ T.width_size reg * (T.hstride_size reg * T.typeSize reg.type) :=
        Nat.le_mul_of_pos_left _ hw
      omega
    exact Nat.lt_of_le_of_lt (Nat.le_mul_of_pos_right _ hes) h1
  obtain ⟨e, he, hbits⟩ := CalculateElements.rows_spec (T.typeSize reg.type) (T.width_size reg)
    (T.vstride_size reg) (T.hstride_size reg) hes (n / T.width_size reg) reg.subnr 0 hfit hwrap
  refine ⟨e, ?_, ?_⟩
  · simp only [CalculateElements, u32_of_lt hes32, u32_of_lt hw32, u32_of_lt hvs, u32_of_lt hhs,
      u32_of_lt hsub, Nat.not_lt.mpr hn, if_false, Nat.ne_of_gt hw]
    exact he
  · intro k
    rw [hbits k]
    simp

/-- C7 (amended): for an occurrence with row width 1, vertical stride 1 and horizontal stride
1, a non-zero element size below `2 ^ 26` and an execution width `n ≥ 1` with
`subnr / elementSize + n ≤ 32`, the footprint is defined, its set bits are exactly the positions
`subnr / elementSize, ..., subnr / elementSize + n - 1`, and there are `n` of them. -/
theorem CalculateElements_contiguous (T : Target) (reg : GenRegister) (n : Nat)
    (hw : T.width_size reg = 1) (hv : T.vstride_size reg = 1) (hh : T.hstride_size reg = 1)
    (hes : 0 < T.typeSize reg.type) (hn : 1 ≤ n)
    (hfit : reg.subnr / T.typeSize reg.type + n ≤ 32) (hsz : T.typeSize reg.type < 2 ^ 26) :
    ∃ e, CalculateElements T reg n = .ok e ∧
      (∀ k, e.testBit k = true ↔
        (reg.subnr / T.typeSize reg.type ≤ k ∧ k < reg.subnr / T.typeSize reg.type + n)) ∧
      popcount e = n := by
  have hidx : ∀ r, (reg.subnr + r * (1 * T.typeSize reg.type)
      + 0 * (1 * T.typeSize reg.type)) / T.typeSize reg.type
        = reg.subnr / T.typeSize reg.type + r := by
    intro r
    rw [Nat.zero_mul, Nat.add_zero, Nat.one_mul, Nat.add_mul_div_right _ _ hes]
  have hsub : reg.subnr < T.typeSize reg.type * (reg.subnr / T.typeSize reg.type + 1) :=
    Nat.lt_mul_div_succ _ hes
  have hbound : reg.subnr + (n + 1) * T.typeSize reg.type < 2 ^ 32 := by
    have h1 : T.typeSize reg.type * (reg.subnr / T.typeSize reg.type + 1)
        + (n + 1) * T.typeSize reg.type
        = (reg.subnr / T.typeSize reg.type + n + 2) * T.typeSize reg.type := by ring
    have h2 : (reg.subnr / T.typeSize reg.type + n + 2) * T.typeSize reg.type
        ≤ 34 * T.typeSize reg.type := Nat.mul_le_mul_right _ (by omega)
    omega
  obtain ⟨e, he, hbits⟩ := CalculateElements_spec T reg n hes (by omega) (by omega) (by omega)
    (by omega)
    (by
      intro r t hr ht
      rw [hw] at hr ht
      rw [hv, hh]
      have ht0 : t = 0 := by omega
      subst ht0
      rw [hidx r]
      rw [Nat.div_one] at hr
      omega)
    (by
      rw [hw, hv, hh, Nat.div_one]
      have : reg.subnr + n * (1 * T.typeSize reg.type) + 1 * (1 * T.typeSize reg.type)
          = reg.subnr + (n + 1) * T.typeSize reg.type := by ring
      omega)
  have hchar : ∀ k, e.testBit k = true ↔
      (reg.subnr / T.typeSize reg.type ≤ k ∧ k < reg.subnr / T.typeSize reg.type + n) := by
    intro k
    rw [hbits k, hw, hv, hh, Nat.div_one]
    constructor
    · rintro ⟨r, t, hr, ht, rfl⟩
      have ht0 : t = 0 := by omega
      subst ht0
      rw [hidx r]
      omega
    · rintro ⟨h1, h2⟩
      refine ⟨k - reg.subnr / T.typeSize reg.type, 0, by omega, by omega, ?_⟩
      rw [hidx]
      omega
  refine ⟨e, he, hchar, ?_⟩
  have hset : (Finset.range 32).filter (fun k => e.testBit k = true)
      = Finset.Ico (reg.subnr / T.typeSize reg.type) (reg.subnr / T.typeSize reg.type + n) := by
    ext k
    simp only [Finset.mem_filter, Finset.mem_range, Finset.mem_Ico, hchar k]
    omega
  rw [popcount, hset, Nat.card_Ico]
  omega

/-- C8 (amended): for an occurrence whose horizontal and vertical strides are both 0, with a
non-zero element size and row width, `subnr / elementSize < 32` and an execution width that is
at least the row width, the footprint is defined and has exactly one bit set, the one at
`subnr / elementSize`. -/
theorem CalculateElements_broadcast (T : Target) (reg : GenRegister) (n : Nat)
    (hh : T.hstride_size reg = 0) (hv : T.vstride_size reg = 0)
    (hn : T.width_size reg ≤ n) (hw : 0 < T.width_size reg) (hw32 : T.width_size reg < 2 ^ 32)
    (hes : 0 < T.typeSize reg.type) (hes32 : T.typeSize reg.type < 2 ^ 32)
    (hsub : reg.subnr < 2 ^ 32) (hfit : reg.subnr / T.typeSize reg.type < 32) :
    ∃ e, CalculateElements T reg n = .ok e ∧
      (∀ k, e.testBit k = true ↔ k = reg.subnr / T.typeSize reg.type) ∧ popcount e = 1 := by
  obtain ⟨e, he, hbits⟩ := CalculateElements_spec T reg n hes hes32 hw hw32 hn
    (by intro r t _ _; simpa [hh, hv] using hfit)
    (by simpa [hh, hv] using hsub)
  have hchar : ∀ k, e.testBit k = true ↔ k = reg.subnr / T.typeSize reg.type := by
    intro k
    rw [hbits k]
    simp only [hh, hv, Nat.zero_mul, Nat.mul_zero, Nat.add_zero]
    constructor
    · rintro ⟨_, _, _, _, rfl⟩; rfl
    · intro h
      exact ⟨0, 0, Nat.div_pos hn hw, hw, h⟩
  refine ⟨e, he, hchar, ?_⟩
  have hset : (Finset.range 32).filter (fun k => e.testBit k = true)
      = {reg.subnr / T.typeSize reg.type} := by
    ext k
    simp only [Finset.mem_filter, Finset.mem_range, Finset.mem_singleton, hchar k]
    omega
  rw [popcount, hset, Finset.card_singleton]


/-- C7 (counterexample): for byte elements at offset 20 with row width 1 and strides 1, at
execution width 16, the claim asks for the bits 20 to 35; the computation shifts by 32 and
returns no footprint, and no 32-bit word has those bits. -/
theorem CalculateElements_contiguous_counterexample :
    exampleTarget.width_size byteRun = 1 ∧ exampleTarget.vstride_size byteRun = 1 ∧
    exampleTarget.hstride_size byteRun = 1 ∧ exampleTarget.typeSize byteRun.type ≠ 0 ∧
    CalculateElements exampleTarget byteRun 16 = .error .shiftCount ∧
    (¬ ∃ e, CalculateElements exampleTarget byteRun 16 = .ok e ∧
      ∀ k, e.testBit k = true ↔
        (byteRun.subnr / exampleTarget.typeSize byteRun.type ≤ k ∧
          k < byteRun.subnr / exampleTarget.typeSize byteRun.type + 16)) ∧
    (¬ ∃ e, e < 2 ^ 32 ∧
      ∀ k, e.testBit k = true ↔
        (byteRun.subnr / exampleTarget.typeSize byteRun.type ≤ k ∧
          k < byteRun.subnr / exampleTarget.typeSize byteRun.type + 16)) := by
  refine ⟨rfl, rfl, rfl, by decide, rfl, ?_, ?_⟩
  · rintro ⟨e, he, _⟩
    have h : CalculateElements exampleTarget byteRun 16 = .error .shiftCount := rfl
    rw [h] at he
    cases he
  · rintro ⟨e, he, hbits⟩
    have h32 : e.testBit 32 = true := (hbits 32).mpr (by decide)
    rw [Nat.testBit_lt_two_pow he] at h32
    cases h32

theorem CalculateElements_contiguous_witness :
    exampleTarget.width_size dwordRun = 1 ∧ exampleTarget.vstride_size dwordRun = 1 ∧
    exampleTarget.hstride_size dwordRun = 1 ∧ 0 < exampleTarget.typeSize dwordRun.type ∧
    1 ≤ 8 ∧ dwordRun.subnr / exampleTarget.typeSize dwordRun.type + 8 ≤ 32 ∧
    exampleTarget.typeSize dwordRun.type < 2 ^ 26 ∧
    ∃ e, CalculateElements exampleTarget dwordRun 8 = .ok e ∧
      (∀ k, e.testBit k = true ↔
        (dwordRun.subnr / exampleTarget.typeSize dwordRun.type ≤ k ∧
          k < dwordRun.subnr / exampleTarget.typeSize dwordRun.type + 8)) ∧
      popcount e = 8 :=
  ⟨rfl, rfl, rfl, by decide, by decide, by decide, by decide,
    CalculateElements_contiguous exampleTarget dwordRun 8 rfl rfl rfl (by decide) (by decide)
      (by decide) (by decide)⟩

/-- C8 (counterexample): an occurrence with horizontal stride 0, row width 1 and vertical
stride 1 has, at execution width 8, the footprint 255 with 8 bits set. -/
theorem CalculateElements_broadcast_counterexample :
    exampleTarget.hstride_size rowBroadcast = 0 ∧ exampleTarget.width_size rowBroadcast ≤ 8 ∧
    CalculateElements exampleTarget rowBroadcast 8 = .ok 255 ∧ popcount 255 = 8 ∧
    ¬ ∃ e, CalculateElements exampleTarget rowBroadcast 8 = .ok e ∧ popcount e = 1 := by
  refine ⟨rfl, by decide, rfl, by decide, ?_⟩
  rintro ⟨e, he, hp⟩
  have h : CalculateElements exampleTarget rowBroadcast 8 = .ok 255 := rfl
  rw [h] at he
  cases he
  revert hp
  decide

theorem CalculateElements_broadcast_witness :
    exampleTarget.hstride_size scalar = 0 ∧ exampleTarget.vstride_size scalar = 0 ∧
    exampleTarget.width_size scalar ≤ 16 ∧ 0 < exampleTarget.width_size scalar ∧
    exampleTarget.width_size scalar < 2 ^ 32 ∧ 0 < exampleTarget.typeSize scalar.type ∧
    exampleTarget.typeSize scalar.type < 2 ^ 32 ∧ scalar.subnr < 2 ^ 32 ∧
    scalar.subnr / exampleTarget.typeSize scalar.type < 32 ∧
    ∃ e, CalculateElements exampleTarget scalar 16 = .ok e ∧
      (∀ k, e.testBit k = true ↔ k = scalar.subnr / exampleTarget.typeSize scalar.type) ∧
      popcount e = 1 :=
  ⟨rfl, rfl, by decide, by decide, by decide, by decide, by decide, by decide, by decide,
    CalculateElements_broadcast exampleTarget scalar 16 rfl rfl (by decide) (by decide)
      (by decide) (by decide) (by decide) (by decide) (by decide)⟩


/-! ## Theorems about the eligibility check -/

/-- When the long-register block lets the check go on. -/
theorem CanBeReplaced.longRegRestrict_eq_false (T : Target) (features : Nat) (info : ReplaceInfo)
    (repl : GenRegister) (insn : SelectionInstruction)
    (hdst : insn.opcode = T.SEL_OP_MOV → ∃ d, insn.dst 0 = .ok d) :
    CanBeReplaced.longRegRestrict T features info repl insn = .ok false ↔
      ¬ (features &&& T.SIOF_OP_MOV_LONG_REG_RESTRICT ≠ 0 ∧ insn.opcode = T.SEL_OP_MOV ∧
          ∃ d, insn.dst 0 = .ok d ∧ T.isint64 d = true ∧ T.isint64 repl = false ∧
            CalculateElements T repl insn.state.execWidth ≠ .ok info.elements) := by
  unfold CanBeReplaced.longRegRestrict
  by_cases hc : features &&& T.SIOF_OP_MOV_LONG_REG_RESTRICT ≠ 0 ∧ insn.opcode = T.SEL_OP_MOV
  · obtain ⟨d, hd⟩ := hdst hc.2
    rw [if_pos hc]
    simp only [hd]
    by_cases hi : T.isint64 d = true ∧ ¬ T.isint64 repl = true
    · rw [if_pos hi]
      cases hce : CalculateElements T repl insn.state.execWidth with
      | error e =>
        simp only [reduceCtorEq, false_iff, not_not]
        exact ⟨hc.1, hc.2, d, rfl, hi.1, by simpa using hi.2, by simp⟩
      | ok el =>
        simp only [Except.ok.injEq, decide_eq_false_iff_not, not_not]
        constructor
        · rintro h ⟨_, _, d', hd', _, _, hne⟩
          exact hne (by rw [h])
        · intro h
          by_contra hne
          exact h ⟨hc.1, hc.2, d, rfl, hi.1, by simpa using hi.2, fun h' => hne (by cases h'; rfl)⟩
    · rw [if_neg hi]
      simp only [true_iff]
      rintro ⟨_, _, d', hd', h1, h2, _⟩
      cases hd'
      exact hi ⟨h1, by simp [h2]⟩
  · rw [if_neg hc]
    simp only [true_iff]
    rintro ⟨h1, h2, _⟩
    exact hc ⟨h1, h2⟩

/-- The eligibility check accepts exactly when its eight rules hold. -/
theorem CanBeReplaced_eq_true_iff (T : Target) (features : Nat) (insns : List SelectionInstruction)
    (info : ReplaceInfo) (insn : SelectionInstruction) (var : GenRegister)
    (mov : SelectionInstruction) (im repl : GenRegister)
    (hmov : getInsn insns info.insn = .ok mov) (him : intermedia insns info = .ok im)
    (hrepl : replacement insns info = .ok repl)
    (hdst : insn.opcode = T.SEL_OP_MOV → ∃ d, insn.dst 0 = .ok d) :
    CanBeReplaced T features insns info insn var = .ok true ↔
      (insn.opcode ≠ T.SEL_OP_BSWAP ∧
       (insn.isWrite = false ∧ insn.isRead = false) ∧
       ¬ (features &&& T.SIOF_OP_AND_LOGICAL_SRCMOD ≠ 0 ∧ insn.opcode = T.SEL_OP_AND ∧
          (repl.absolute = true ∨ repl.negation = true)) ∧
       ¬ (features &&& T.SIOF_OP_MOV_LONG_REG_RESTRICT ≠ 0 ∧ insn.opcode = T.SEL_OP_MOV ∧
          ∃ d, insn.dst 0 = .ok d ∧ T.isint64 d = true ∧ T.isint64 repl = false ∧
            CalculateElements T repl insn.state.execWidth ≠ .ok info.elements) ∧
       info.replacementOverwritten = false ∧
       ¬ (mov.state.noMask = 0 ∧ insn.state.noMask = 1) ∧
       ¬ (mov.state.predicate ≠ insn.state.predicate ∧
          mov.state.predicate ≠ T.GEN_PREDICATE_NONE) ∧
       (var.type = im.type ∧ var.quarter = im.quarter ∧ var.subnr = im.subnr ∧
          CalculateElements T var insn.state.execWidth = .ok info.elements)) := by
  have hne : (Except.ok false : Except Fault Bool) ≠ .ok true := by intro h; cases h
  have hL := CanBeReplaced.longRegRestrict_eq_false T features info repl insn hdst
  unfold CanBeReplaced
  simp only [hmov, him, hrepl]
  by_cases h1 : insn.opcode = T.SEL_OP_BSWAP
  · rw [if_pos h1]
    exact ⟨fun h => absurd h hne, fun h => absurd h1 h.1⟩
  by_cases h2 : insn.isWrite = true ∨ insn.isRead = true
  · rw [if_neg h1, if_pos h2]
    refine ⟨fun h => absurd h hne, fun h => ?_⟩
    rcases h2 with h2 | h2
    · rw [h.2.1.1] at h2; cases h2
    · rw [h.2.1.2] at h2; cases h2
  have h2' : insn.isWrite = false ∧ insn.isRead = false := by
    rcases hw : insn.isWrite <;> rcases hr : insn.isRead <;> simp_all
  by_cases h3 : features &&& T.SIOF_OP_AND_LOGICAL_SRCMOD ≠ 0 ∧ insn.opcode = T.SEL_OP_AND ∧
      (repl.absolute = true ∨ repl.negation = true)
  · rw [if_neg h1, if_neg h2, if_pos h3]
    exact ⟨fun h => absurd h hne, fun h => absurd h3 h.2.2.1⟩
  rw [if_neg h1, if_neg h2, if_neg h3]
  cases hLv : CanBeReplaced.longRegRestrict T features info repl insn with
  | error e =>
    rw [hLv] at hL
    refine ⟨fun h => (by cases h), fun h => ?_⟩
    have := hL.mpr h.2.2.2.1
    cases this
  | ok b =>
    rw [hLv] at hL
    cases b with
    | true =>
      refine ⟨fun h => absurd h hne, fun h => ?_⟩
      have := hL.mpr h.2.2.2.1
      cases this
    | false =>
      have h4 := hL.mp rfl
      simp only []
      by_cases h5 : info.replacementOverwritten = true
      · rw [if_pos h5]
        refine ⟨fun h => absurd h hne, fun h => ?_⟩
        rw [h.2.2.2.2.1] at h5; cases h5
      have h5' : info.replacementOverwritten = false := by simpa using h5
      by_cases h6 : mov.state.noMask = 0 ∧ insn.state.noMask = 1
      · rw [if_neg h5, if_pos h6]
        exact ⟨fun h => absurd h hne, fun h => absurd h6 h.2.2.2.2.2.1⟩
      by_cases h7 : mov.state.predicate ≠ insn.state.predicate ∧
          mov.state.predicate ≠ T.GEN_PREDICATE_NONE
      · rw [if_neg h5, if_neg h6, if_pos h7]
        exact ⟨fun h => absurd h hne, fun h => absurd h7 h.2.2.2.2.2.2.1⟩
      rw [if_neg h5, if_neg h6, if_neg h7]
      by_cases h8 : im.type = var.type ∧ im.quarter = var.quarter ∧ im.subnr = var.subnr
      · rw [if_pos h8]
        cases hce : CalculateElements T var insn.state.execWidth with
        | error e =>
          refine ⟨fun h => (by cases h), fun h => ?_⟩
          have := h.2.2.2.2.2.2.2.2.2.2
          cases this
        | ok el =>
          simp only [Except.ok.injEq, decide_eq_true_eq]
          constructor
          · intro h
            exact ⟨h1, h2', h3, h4, h5', h6, h7, h8.1.symm, h8.2.1.symm, h8.2.2.symm, h.symm⟩
          · intro h
            exact h.2.2.2.2.2.2.2.2.2.2.symm
      · rw [if_neg h8]
        refine ⟨fun h => absurd h hne, fun h => ?_⟩
        exact absurd ⟨h.2.2.2.2.2.2.2.1.symm, h.2.2.2.2.2.2.2.2.1.symm,
          h.2.2.2.2.2.2.2.2.2.1.symm⟩ h8
/-- C3: `CanBeReplaced` returns `true` if and only if the eight rules hold: (1) the opcode of
`insn` is not BSWAP; (2) `insn` is neither `isWrite` nor `isRead`; (3) not (the AND feature bit
is set, `insn` is an AND and the replacement carries absolute or negation); (4) not (the
long-register bit is set, `insn` is a move whose destination is a 64-bit integer, the
replacement is not one, and the footprint of the replacement at the execution width of `insn`
is not the stored footprint); (5) the replacement is not marked overwritten; (6) not (the move
has `noMask = 0` and `insn` has `noMask = 1`); (7) not (the predicates of the move and of
`insn` differ and the one of the move is not `GEN_PREDICATE_NONE`); (8) type, quarter and
`subnr` of `var` are those of the intermediate and the footprint of `var` at the execution
width of `insn` is the stored footprint.  Here `mov`, `im` and `repl` are the move of the
candidate and its two occurrences, and a consuming move has a destination. -/
theorem CanBeReplaced_iff (T : Target) (features : Nat) (insns : List SelectionInstruction)
    (info : ReplaceInfo) (insn : SelectionInstruction) (var : GenRegister)
    (mov : SelectionInstruction) (im repl : GenRegister)
    (hmov : getInsn insns info.insn = .ok mov) (him : intermedia insns info = .ok im)
    (hrepl : replacement insns info = .ok repl)
    (hdst : insn.opcode = T.SEL_OP_MOV → ∃ d, insn.dst 0 = .ok d) :
    CanBeReplaced T features insns info insn var = .ok true ↔
      (insn.opcode ≠ T.SEL_OP_BSWAP ∧
       (insn.isWrite = false ∧ insn.isRead = false) ∧
       ¬ (features &&& T.SIOF_OP_AND_LOGICAL_SRCMOD ≠ 0 ∧ insn.opcode = T.SEL_OP_AND ∧
          (repl.absolute = true ∨ repl.negation = true)) ∧
       ¬ (features &&& T.SIOF_OP_MOV_LONG_REG_RESTRICT ≠ 0 ∧ insn.opcode = T.SEL_OP_MOV ∧
          ∃ d, insn.dst 0 = .ok d ∧ T.isint64 d = true ∧ T.isint64 repl = false ∧
            CalculateElements T repl insn.state.execWidth ≠ .ok info.elements) ∧
       info.replacementOverwritten = false ∧
       ¬ (mov.state.noMask = 0 ∧ insn.state.noMask = 1) ∧
       ¬ (mov.state.predicate ≠ insn.state.predicate ∧
          mov.state.predicate ≠ T.GEN_PREDICATE_NONE) ∧
       (var.type = im.type ∧ var.quarter = im.quarter ∧ var.subnr = im.subnr ∧
          CalculateElements T var insn.state.execWidth = .ok info.elements)) :=
  CanBeReplaced_eq_true_iff T features insns info insn var mov im repl hmov him hrepl hdst

/-- Scenario A of the specification: the read of `r2` by the ADD is eligible. -/
theorem CanBeReplaced_iff_witness :
    getInsn scenarioA 0 = .ok (mkInsn 0 [2] [1]) ∧
    intermedia scenarioA
      { insn := 0, elements := 255, toBeReplaceds := [], replacementOverwritten := false }
      = .ok (vreg 2) ∧
    replacement scenarioA
      { insn := 0, elements := 255, toBeReplaceds := [], replacementOverwritten := false }
      = .ok (vreg 1) ∧
    CanBeReplaced exampleTarget 0 scenarioA
      { insn := 0, elements := 255, toBeReplaceds := [], replacementOverwritten := false }
      (mkInsn 3 [3] [2, 4]) (vreg 2) = .ok true :=
  ⟨rfl, rfl, rfl, ((CanBeReplaced_iff exampleTarget 0 scenarioA
      { insn := 0, elements := 255, toBeReplaceds := [], replacementOverwritten := false }
      (mkInsn 3 [3] [2, 4]) (vreg 2) (mkInsn 0 [2] [1]) (vreg 2) (vreg 1) rfl rfl rfl
      (fun h => absurd h (by decide))).mpr
    ⟨by decide, ⟨rfl, rfl⟩, by decide, fun h => absurd h.1 (by decide), rfl, by decide,
      by decide, rfl, rfl, rfl, rfl⟩)⟩

/-! ## The invariant of the scan -/

theorem getInsn_eq_ok {l : List SelectionInstruction} {i : Nat} {a : SelectionInstruction} :
    getInsn l i = .ok a ↔ l[i]? = some a := by
  unfold getInsn
  rw [List.get?_eq_getElem?]
  cases l[i]? with
  | none => simp
  | some b => simp

theorem SelectionInstruction.dst_eq_ok {insn : SelectionInstruction} {j : Nat} {r : GenRegister} :
    insn.dst j = .ok r ↔ insn.dstRegs[j]? = some r := by
  unfold SelectionInstruction.dst
  rw [List.get?_eq_getElem?]
  cases insn.dstRegs[j]? with
  | none => simp
  | some b => simp

theorem SelectionInstruction.src_eq_ok {insn : SelectionInstruction} {j : Nat} {r : GenRegister} :
    insn.src j = .ok r ↔ insn.srcRegs[j]? = some r := by
  unfold SelectionInstruction.src
  rw [List.get?_eq_getElem?]
  cases insn.srcRegs[j]? with
  | none => simp
  | some b => simp

theorem getElem?_setSrc (insns : List SelectionInstruction) (p : Nat × Nat) (r : GenRegister)
    (i : Nat) :
    (setSrc insns p r)[i]? =
      (insns[i]?).map (fun a => if p.1 = i then { a with srcRegs := a.srcRegs.set p.2 r } else a) := by
  unfold setSrc
  rw [List.getElem?_modify]
  rfl

theorem getElem?_setSrc_of_ne (insns : List SelectionInstruction) (p : Nat × Nat)
    (r : GenRegister) (i : Nat) (h : p.1 ≠ i) : (setSrc insns p r)[i]? = insns[i]? := by
  rw [getElem?_setSrc]
  cases insns[i]? with
  | none => rfl
  | some a => simp [h]

theorem map_frame_setSrc (insns : List SelectionInstruction) (p : Nat × Nat) (r : GenRegister) :
    (setSrc insns p r).map SelectionInstruction.frame = insns.map SelectionInstruction.frame := by
  apply List.ext_getElem?
  intro i
  rw [List.getElem?_map, List.getElem?_map, getElem?_setSrc]
  cases insns[i]? with
  | none => rfl
  | some a =>
    by_cases h : p.1 = i
    · simp [h, SelectionInstruction.frame, SelectionInstruction.srcNum]
    · simp [h]

theorem doReplacement_loop_spec (T : Target) (info : ReplaceInfo) :
    ∀ (ps : List (Nat × Nat)) (insns insns1 : List SelectionInstruction),
      doReplacement.loop T info ps insns = .ok insns1 →
      insns1.map SelectionInstruction.frame = insns.map SelectionInstruction.frame ∧
      ∀ i, (∀ p, p ∈ ps → p.1 ≠ i) → insns1[i]? = insns[i]? := by
  intro ps
  induction ps with
  | nil =>
    intro insns insns1 h
    simp only [doReplacement.loop, Except.ok.injEq] at h
    subst h
    exact ⟨rfl, fun _ _ => rfl⟩
  | cons p rest ih =>
    intro insns insns1 h
    unfold doReplacement.loop at h
    cases hg : getInsn insns p.1 with
    | error e => simp [hg] at h
    | ok insn =>
      simp only [hg] at h
      cases hs : insn.src p.2 with
      | error e => simp [hs] at h
      | ok reg =>
        cases hr : replacement insns info with
        | error e => simp [hs, hr] at h
        | ok repl =>
          simp only [hs, hr] at h
          obtain ⟨h1, h2⟩ := ih _ _ h
          refine ⟨by rw [h1, map_frame_setSrc], fun i hi => ?_⟩
          rw [h2 i (fun q hq => hi q (List.mem_cons_of_mem _ hq)),
            getElem?_setSrc_of_ne _ _ _ _ (hi p (List.mem_cons_self _ _))]

theorem doReplacement_spec (T : Target) (s s1 : SelBasicBlockOptimizer) (info : ReplaceInfo)
    (h : doReplacement T s info = .ok s1) :
    s1.replaceInfoMap = s.replaceInfoMap ∧ s1.erased = info.insn :: s.erased ∧
    s1.insns.map SelectionInstruction.frame = s.insns.map SelectionInstruction.frame ∧
    ∀ i, (∀ p, p ∈ info.toBeReplaceds → p.1 ≠ i) → s1.insns[i]? = s.insns[i]? := by
  unfold doReplacement at h
  cases hl : doReplacement.loop T info info.toBeReplaceds s.insns with
  | error e => simp [hl] at h
  | ok insns1 =>
    simp only [hl, Except.ok.injEq] at h
    subst h
    obtain ⟨h1, h2⟩ := doReplacement_loop_spec T info _ _ _ hl
    exact ⟨rfl, rfl, h1, h2⟩

theorem Inv.doReplacement {T : Target} {liveout : List Nat} {bb : List SelectionInstruction}
    {s s1 : SelBasicBlockOptimizer} {info : ReplaceInfo} (hinv : Inv T liveout bb s)
    (hmov : IsLocalMove T liveout bb info.insn)
    (hnf : ∀ p, p ∈ info.toBeReplaceds → NotFixed bb p.1)
    (h : doReplacement T s info = .ok s1) : Inv T liveout bb s1 := by
  obtain ⟨hm, he, hf, hi⟩ := doReplacement_spec T s s1 info h
  refine ⟨by rw [hf, hinv.frame], ?_, ?_, ?_⟩
  · intro i insn hbb hfix
    rw [hi i, hinv.fixed i insn hbb hfix]
    intro p hp hpi
    have := hnf p hp insn (by rw [hpi]; exact hbb)
    rcases hfix with hfix | hfix
    · rw [this.1] at hfix; cases hfix
    · rw [this.2] at hfix; cases hfix
  · intro i hi'
    rw [he] at hi'
    rcases List.mem_cons.mp hi' with rfl | hi'
    · exact hmov
    · exact hinv.erased i hi'
  · intro e he'
    rw [hm] at he'
    exact hinv.cands e he'

theorem mem_mapErase {e : Nat × ReplaceInfo} {k : Nat} {m : List (Nat × ReplaceInfo)}
    (h : e ∈ mapErase k m) : e ∈ m :=
  (List.mem_filter.mp h).1

theorem mem_mapUpdate {e : Nat × ReplaceInfo} {k : Nat} {f : ReplaceInfo → ReplaceInfo}
    {m : List (Nat × ReplaceInfo)} (h : e ∈ mapUpdate k f m) :
    e ∈ m ∨ ∃ e0, e0 ∈ m ∧ e0.1 = k ∧ e = (e0.1, f e0.2) := by
  unfold mapUpdate at h
  obtain ⟨e0, he0, rfl⟩ := List.mem_map.mp h
  by_cases hk : e0.1 = k
  · exact Or.inr ⟨e0, he0, hk, by simp [hk]⟩
  · exact Or.inl (by simpa [hk] using he0)

theorem mem_mapInsert {e : Nat × ReplaceInfo} {k : Nat} {info : ReplaceInfo} :
    ∀ {m : List (Nat × ReplaceInfo)}, e ∈ mapInsert k info m → e = (k, info) ∨ e ∈ m := by
  intro m
  induction m with
  | nil =>
    intro h
    simp only [mapInsert, List.mem_singleton] at h
    exact Or.inl h
  | cons hd tl ih =>
    intro h
    obtain ⟨k0, i0⟩ := hd
    unfold mapInsert at h
    by_cases h1 : k < k0
    · rw [if_pos h1] at h
      rcases List.mem_cons.mp h with h | h
      · exact Or.inl h
      · exact Or.inr h
    · rw [if_neg h1] at h
      by_cases h2 : k = k0
      · rw [if_pos h2] at h
        rcases List.mem_cons.mp h with h | h
        · exact Or.inl h
        · exact Or.inr (List.mem_cons_of_mem _ h)
      · rw [if_neg h2] at h
        rcases List.mem_cons.mp h with h | h
        · exact Or.inr (h ▸ List.mem_cons_self _ _)
        · rcases ih h with h | h
          · exact Or.inl h
          · exact Or.inr (List.mem_cons_of_mem _ h)

theorem mapFind_mem {k : Nat} {info : ReplaceInfo} :
    ∀ {m : List (Nat × ReplaceInfo)}, mapFind k m = some info → (k, info) ∈ m := by
  intro m
  induction m with
  | nil => intro h; simp [mapFind] at h
  | cons hd tl ih =>
    intro h
    obtain ⟨k0, i0⟩ := hd
    unfold mapFind at h
    by_cases h1 : k0 = k
    · rw [if_pos h1] at h
      cases h
      subst h1
      exact List.mem_cons_self _ _
    · rw [if_neg h1] at h
      exact List.mem_cons_of_mem _ (ih h)

theorem Inv.withMap {T : Target} {liveout : List Nat} {bb : List SelectionInstruction}
    {s : SelBasicBlockOptimizer} (hinv : Inv T liveout bb s) (m : List (Nat × ReplaceInfo))
    (hm : ∀ e, e ∈ m →
      IsLocalMove T liveout bb e.2.insn ∧ ∀ p, p ∈ e.2.toBeReplaceds → NotFixed bb p.1) :
    Inv T liveout bb { s with replaceInfoMap := m } :=
  ⟨hinv.frame, hinv.fixed, hinv.erased, hm⟩

theorem Inv.getElem? {T : Target} {liveout : List Nat} {bb : List SelectionInstruction}
    {s : SelBasicBlockOptimizer} (hinv : Inv T liveout bb s) {i : Nat}
    {a : SelectionInstruction} (h : s.insns[i]? = some a) :
    ∃ b, bb[i]? = some b ∧ b.frame = a.frame := by
  have h1 : (s.insns.map SelectionInstruction.frame)[i]? = some a.frame := by
    rw [List.getElem?_map, h]; rfl
  rw [hinv.frame, List.getElem?_map] at h1
  cases hb : bb[i]? with
  | none => rw [hb] at h1; cases h1
  | some b =>
    rw [hb] at h1
    exact ⟨b, rfl, by simpa using h1⟩

theorem cleanReplaceInfoMap_loop_inv {T : Target} {liveout : List Nat}
    {bb : List SelectionInstruction} :
    ∀ (l : List (Nat × ReplaceInfo)) (s s1 : SelBasicBlockOptimizer),
      (∀ e, e ∈ l →
        IsLocalMove T liveout bb e.2.insn ∧ ∀ p, p ∈ e.2.toBeReplaceds → NotFixed bb p.1) →
      Inv T liveout bb s → cleanReplaceInfoMap.loop T l s = .ok s1 → Inv T liveout bb s1 := by
  intro l
  induction l with
  | nil =>
    intro s s1 _ hinv h
    simp only [cleanReplaceInfoMap.loop, Except.ok.injEq] at h
    exact h ▸ hinv
  | cons pair rest ih =>
    intro s s1 hl hinv h
    unfold cleanReplaceInfoMap.loop at h
    cases hd : doReplacement T s pair.2 with
    | error e => simp [hd] at h
    | ok s2 =>
      simp only [hd] at h
      have hp := hl pair (List.mem_cons_self _ _)
      exact ih s2 s1 (fun e he => hl e (List.mem_cons_of_mem _ he))
        (hinv.doReplacement hp.1 hp.2 hd) h

theorem Inv.cleanReplaceInfoMap {T : Target} {liveout : List Nat}
    {bb : List SelectionInstruction} {s s1 : SelBasicBlockOptimizer}
    (hinv : Inv T liveout bb s) (h : cleanReplaceInfoMap T s = .ok s1) :
    Inv T liveout bb s1 := by
  unfold gbe.cleanReplaceInfoMap at h
  cases hl : cleanReplaceInfoMap.loop T s.replaceInfoMap s with
  | error e => simp [hl] at h
  | ok s2 =>
    simp only [hl, Except.ok.injEq] at h
    subst h
    exact (cleanReplaceInfoMap_loop_inv _ _ _ hinv.cands hinv hl).withMap []
      (fun e he => absurd he (List.not_mem_nil e))

theorem removeFromReplaceInfoMap_loop_inv {T : Target} {liveout : List Nat}
    {bb : List SelectionInstruction} (var : GenRegister) :
    ∀ (l : List (Nat × ReplaceInfo)) (s s1 : SelBasicBlockOptimizer),
      (∀ e, e ∈ l → e ∈ s.replaceInfoMap) →
      Inv T liveout bb s → removeFromReplaceInfoMap.loop T var l s = .ok s1 →
      Inv T liveout bb s1 := by
  intro l
  induction l with
  | nil =>
    intro s s1 _ hinv h
    simp only [removeFromReplaceInfoMap.loop, Except.ok.injEq] at h
    exact h ▸ hinv
  | cons hd rest ih =>
    intro s s1 hl hinv h
    obtain ⟨key, info⟩ := hd
    have hmem := hl (key, info) (List.mem_cons_self _ _)
    have hc := hinv.cands _ hmem
    unfold removeFromReplaceInfoMap.loop at h
    cases him : intermedia s.insns info with
    | error e => simp [him] at h
    | ok im =>
      simp only [him] at h
      by_cases h1 : im.reg = var.reg
      · rw [if_pos h1] at h
        by_cases h2 : im.quarter = var.quarter ∧ im.subnr = var.subnr
        · rw [if_pos h2] at h
          cases hd : doReplacement T s info with
          | error e => simp [hd] at h
          | ok s2 =>
            simp only [hd, Except.ok.injEq] at h
            subst h
            have hinv2 := hinv.doReplacement hc.1 hc.2 hd
            exact hinv2.withMap _ (fun e he => hinv2.cands e (mem_mapErase he))
        · rw [if_neg h2] at h
          simp only [Except.ok.injEq] at h
          subst h
          exact hinv.withMap _ (fun e he => hinv.cands e (mem_mapErase he))
      · rw [if_neg h1] at h
        cases hr : replacement s.insns info with
        | error e => simp [hr] at h
        | ok repl =>
          simp only [hr] at h
          by_cases h3 : repl.reg = var.reg
          · rw [if_pos h3] at h
            simp only [Except.ok.injEq] at h
            subst h
            refine hinv.withMap _ (fun e he => ?_)
            rcases mem_mapUpdate he with he | ⟨e0, he0, _, rfl⟩
            · exact hinv.cands e he
            · exact hinv.cands e0 he0
          · rw [if_neg h3] at h
            exact ih s s1 (fun e he => hl e (List.mem_cons_of_mem _ he)) hinv h

theorem Inv.removeFromReplaceInfoMap {T : Target} {liveout : List Nat}
    {bb : List SelectionInstruction} {s s1 : SelBasicBlockOptimizer} {var : GenRegister}
    (hinv : Inv T liveout bb s) (h : removeFromReplaceInfoMap T s var = .ok s1) :
    Inv T liveout bb s1 :=
  removeFromReplaceInfoMap_loop_inv var _ _ _ (fun _ he => he) hinv h

theorem Inv.addToReplaceInfoMap {T : Target} {liveout : List Nat}
    {bb : List SelectionInstruction} {s s1 : SelBasicBlockOptimizer} {idx : Nat}
    (hinv : Inv T liveout bb s) (h : addToReplaceInfoMap T liveout s idx = .ok s1) :
    Inv T liveout bb s1 := by
  unfold gbe.addToReplaceInfoMap at h
  cases hg : getInsn s.insns idx with
  | error e => simp [hg] at h
  | ok insn =>
    simp only [hg] at h
    by_cases hop : insn.opcode ≠ T.SEL_OP_MOV
    · rw [if_pos hop] at h; cases h
    rw [if_neg hop] at h
    cases hs : insn.src 0 with
    | error e => simp [hs] at h
    | ok src =>
      cases hd : insn.dst 0 with
      | error e => simp [hs, hd] at h
      | ok dst =>
        simp only [hs, hd] at h
        by_cases h1 : src.type ≠ dst.type ∨ src.file ≠ dst.file
        · rw [if_pos h1] at h
          cases h; exact hinv
        rw [if_neg h1] at h
        by_cases h2 : dst.reg ∈ liveout
        · rw [if_pos h2] at h
          cases h; exact hinv
        rw [if_neg h2] at h
        cases hc : ReplaceInfo.create T idx insn dst with
        | error e => simp [hc] at h
        | ok info =>
          simp only [hc, Except.ok.injEq] at h
          subst h
          refine hinv.withMap _ (fun e he => ?_)
          rcases mem_mapInsert he with rfl | he
          · unfold ReplaceInfo.create at hc
            rw [if_neg hop] at hc
            cases hce : CalculateElements T dst insn.state.execWidth with
            | error e => simp [hce] at hc
            | ok el =>
              simp only [hce, Except.ok.injEq] at hc
              subst hc
              obtain ⟨b, hb, hfr⟩ := hinv.getElem? (getInsn_eq_ok.mp hg)
              simp only [SelectionInstruction.frame, Prod.mk.injEq] at hfr
              refine ⟨⟨b, dst, hb, by rw [hfr.1]; exact not_not.mp hop, ?_, h2⟩,
                fun p hp => absurd hp (List.not_mem_nil p)⟩
              rw [SelectionInstruction.dst_eq_ok, hfr.2.2.1]
              exact SelectionInstruction.dst_eq_ok.mp hd
          · exact hinv.cands e he

theorem CanBeReplaced_notFixed {T : Target} {features : Nat} {insns : List SelectionInstruction}
    {info : ReplaceInfo} {insn : SelectionInstruction} {var : GenRegister}
    (h : CanBeReplaced T features insns info insn var = .ok true) :
    insn.isWrite = false ∧ insn.isRead = false := by
  unfold CanBeReplaced at h
  split at h
  · by_cases h1 : insn.opcode = T.SEL_OP_BSWAP
    · rw [if_pos h1] at h; cases h
    rw [if_neg h1] at h
    by_cases h2 : insn.isWrite = true ∨ insn.isRead = true
    · rw [if_pos h2] at h; cases h
    rcases hw : insn.isWrite <;> rcases hr : insn.isRead <;> simp_all
  · cases h
  · cases h
  · cases h

theorem Inv.changeInsideReplaceInfoMap {T : Target} {features : Nat} {liveout : List Nat}
    {bb : List SelectionInstruction} {s s1 : SelBasicBlockOptimizer} {idx j : Nat}
    (hinv : Inv T liveout bb s) (h : changeInsideReplaceInfoMap T features s idx j = .ok s1) :
    Inv T liveout bb s1 := by
  unfold gbe.changeInsideReplaceInfoMap at h
  cases hg : getInsn s.insns idx with
  | error e => simp [hg] at h
  | ok insn =>
    simp only [hg] at h
    cases hs : insn.src j with
    | error e => simp [hs] at h
    | ok var =>
      simp only [hs] at h
      cases hf : mapFind var.reg s.replaceInfoMap with
      | none =>
        simp only [hf, Except.ok.injEq] at h
        exact h ▸ hinv
      | some info =>
        simp only [hf] at h
        cases hc : CanBeReplaced T features s.insns info insn var with
        | error e => simp [hc] at h
        | ok b =>
          cases b with
          | false =>
            simp only [hc, Except.ok.injEq] at h
            subst h
            exact hinv.withMap _ (fun e he => hinv.cands e (mem_mapErase he))
          | true =>
            simp only [hc, Except.ok.injEq] at h
            subst h
            refine hinv.withMap _ (fun e he => ?_)
            rcases mem_mapUpdate he with he | ⟨e0, he0, _, rfl⟩
            · exact hinv.cands e he
            · refine ⟨(hinv.cands e0 he0).1, fun p hp => ?_⟩
              have hp' : p ∈ e0.2.toBeReplaceds ∨ p = (idx, j) := by
                simp only [collect] at hp
                by_cases hm : (idx, j) ∈ e0.2.toBeReplaceds
                · rw [if_pos hm] at hp; exact Or.inl hp
                · rw [if_neg hm] at hp
                  rcases List.mem_append.mp hp with hp | hp
                  · exact Or.inl hp
                  · exact Or.inr (List.mem_singleton.mp hp)
              rcases hp' with hp' | rfl
              · exact (hinv.cands e0 he0).2 p hp'
              · intro b hb
                obtain ⟨b', hb', hfr⟩ := hinv.getElem? (getInsn_eq_ok.mp hg)
                have hbb : b' = b := by
                  have : some b' = some b := by rw [← hb', ← hb]
                  exact Option.some.inj this
                subst hbb
                simp only [SelectionInstruction.frame, Prod.mk.injEq] at hfr
                have := CanBeReplaced_notFixed hc
                rw [hfr.2.2.2.2.1, hfr.2.2.2.2.2]
                exact this


theorem scanSrcs_inv {T : Target} {features : Nat} {liveout : List Nat}
    {bb : List SelectionInstruction} (idx : Nat) :
    ∀ (l : List Nat) (s s1 : SelBasicBlockOptimizer),
      Inv T liveout bb s → scanSrcs T features idx l s = .ok s1 → Inv T liveout bb s1 := by
  intro l
  induction l with
  | nil =>
    intro s s1 hinv h
    simp only [scanSrcs, Except.ok.injEq] at h
    exact h ▸ hinv
  | cons j rest ih =>
    intro s s1 hinv h
    unfold scanSrcs at h
    cases hc : changeInsideReplaceInfoMap T features s idx j with
    | error e => simp [hc] at h
    | ok s2 =>
      simp only [hc] at h
      exact ih s2 s1 (hinv.changeInsideReplaceInfoMap hc) h

theorem scanDsts_inv {T : Target} {liveout : List Nat} {bb : List SelectionInstruction}
    (idx : Nat) :
    ∀ (l : List Nat) (s s1 : SelBasicBlockOptimizer),
      Inv T liveout bb s → scanDsts T idx l s = .ok s1 → Inv T liveout bb s1 := by
  intro l
  induction l with
  | nil =>
    intro s s1 hinv h
    simp only [scanDsts, Except.ok.injEq] at h
    exact h ▸ hinv
  | cons j rest ih =>
    intro s s1 hinv h
    unfold scanDsts at h
    cases hg : getInsn s.insns idx with
    | error e => simp [hg] at h
    | ok insn =>
      simp only [hg] at h
      cases hd : insn.dst j with
      | error e => simp [hd] at h
      | ok var =>
        simp only [hd] at h
        cases hr : removeFromReplaceInfoMap T s var with
        | error e => simp [hr] at h
        | ok s2 =>
          simp only [hr] at h
          exact ih s2 s1 (hinv.removeFromReplaceInfoMap hr) h

theorem Inv.scanInsn {T : Target} {features : Nat} {liveout : List Nat}
    {bb : List SelectionInstruction} {s s1 : SelBasicBlockOptimizer} {idx : Nat}
    (hinv : Inv T liveout bb s) (h : scanInsn T features liveout s idx = .ok s1) :
    Inv T liveout bb s1 := by
  unfold gbe.scanInsn at h
  cases hg : getInsn s.insns idx with
  | error e => simp [hg] at h
  | ok insn =>
    simp only [hg] at h
    cases h1 : scanSrcs T features idx (List.range insn.srcNum) s with
    | error e => simp [h1] at h
    | ok s2 =>
      simp only [h1] at h
      cases h2 : scanDsts T idx (List.range insn.dstNum) s2 with
      | error e => simp [h2] at h
      | ok s3 =>
        simp only [h2] at h
        have hinv3 := scanDsts_inv idx _ _ _ (scanSrcs_inv idx _ _ _ hinv h1) h2
        by_cases hop : insn.opcode = T.SEL_OP_MOV
        · rw [if_pos hop] at h
          exact hinv3.addToReplaceInfoMap h
        · rw [if_neg hop] at h
          cases h; exact hinv3

theorem scanBlock_inv {T : Target} {features : Nat} {liveout : List Nat}
    {bb : List SelectionInstruction} :
    ∀ (l : List Nat) (s s1 : SelBasicBlockOptimizer),
      Inv T liveout bb s → scanBlock T features liveout l s = .ok s1 → Inv T liveout bb s1 := by
  intro l
  induction l with
  | nil =>
    intro s s1 hinv h
    simp only [scanBlock, Except.ok.injEq] at h
    exact h ▸ hinv
  | cons j rest ih =>
    intro s s1 hinv h
    unfold scanBlock at h
    cases hc : scanInsn T features liveout s j with
    | error e => simp [hc] at h
    | ok s2 =>
      simp only [hc] at h
      exact ih s2 s1 (hinv.scanInsn hc) h

theorem Inv.doLocalCopyPropagation {T : Target} {features : Nat} {liveout : List Nat}
    {bb : List SelectionInstruction} {s s1 : SelBasicBlockOptimizer}
    (hinv : Inv T liveout bb s) (h : doLocalCopyPropagation T features liveout s = .ok s1) :
    Inv T liveout bb s1 := by
  unfold gbe.doLocalCopyPropagation at h
  cases hc : scanBlock T features liveout
      ((List.range s.insns.length).filter (fun i => decide (i ∉ s.erased))) s with
  | error e => rw [hc] at h; cases h
  | ok s2 =>
    simp only [hc] at h
    exact (scanBlock_inv _ _ _ hinv hc).cleanReplaceInfoMap h

theorem run_loop_inv {T : Target} {features : Nat} {liveout : List Nat}
    {bb : List SelectionInstruction} :
    ∀ (n : Nat) (s s1 : SelBasicBlockOptimizer),
      Inv T liveout bb s → run.loop T features liveout n s = .ok s1 → Inv T liveout bb s1 := by
  intro n
  induction n with
  | zero =>
    intro s s1 hinv h
    simp only [run.loop, Except.ok.injEq] at h
    exact h ▸ hinv
  | succ n ih =>
    intro s s1 hinv h
    unfold run.loop at h
    have hinv0 : Inv T liveout bb { s with optimized := false } :=
      ⟨hinv.frame, hinv.fixed, hinv.erased, hinv.cands⟩
    cases hc : doLocalCopyPropagation T features liveout { s with optimized := false } with
    | error e => simp [hc] at h
    | ok s2 =>
      simp only [hc] at h
      have hinv2 := hinv0.doLocalCopyPropagation hc
      by_cases ho : s2.optimized = false
      · rw [if_pos ho] at h
        cases h; exact hinv2
      · rw [if_neg ho] at h
        exact ih s2 s1 hinv2 h

/-- The invariant holds in the state that `run` leaves. -/
theorem runState_inv {T : Target} {features : Nat} {liveout : List Nat}
    {bb : List SelectionInstruction} {s : SelBasicBlockOptimizer}
    (h : runState T features liveout bb = .ok s) : Inv T liveout bb s := by
  refine run_loop_inv MaxTries _ s ⟨rfl, fun _ _ hb _ => hb, ?_, ?_⟩ h
  · intro i hi; cases hi
  · intro e he; cases he

theorem run_eq_ok {T : Target} {features : Nat} {liveout : List Nat}
    {bb out : List SelectionInstruction} (h : run T features liveout bb = .ok out) :
    ∃ s, runState T features liveout bb = .ok s ∧ out = insnList s.insns s.erased := by
  unfold run at h
  cases hs : runState T features liveout bb with
  | error e => simp [hs] at h
  | ok s =>
    simp only [hs, Except.ok.injEq] at h
    exact ⟨s, rfl, h.symm⟩

theorem insnList_sublist (insns : List SelectionInstruction) (erased : List Nat) :
    List.Sublist (insnList insns erased) insns := by
  unfold insnList
  have h := (List.filter_sublist (p := fun p : Nat × SelectionInstruction => decide (p.1 ∉ erased))
    insns.enum).map Prod.snd
  rwa [List.enum_map_snd] at h

theorem mem_insnList {insns : List SelectionInstruction} {erased : List Nat} {i : Nat}
    {a : SelectionInstruction} (h : insns[i]? = some a) (he : i ∉ erased) :
    a ∈ insnList insns erased := by
  unfold insnList
  refine List.mem_map.mpr ⟨(i, a), List.mem_filter.mpr ⟨?_, by simpa using he⟩, rfl⟩
  exact List.mk_mem_enum_iff_getElem?.mpr h

/-! ## What the pass keeps -/

theorem Inv.getElem?_store {T : Target} {liveout : List Nat} {bb : List SelectionInstruction}
    {s : SelBasicBlockOptimizer} (hinv : Inv T liveout bb s) {i : Nat}
    {b : SelectionInstruction} (h : bb[i]? = some b) :
    ∃ a, s.insns[i]? = some a ∧ a.frame = b.frame := by
  have h1 : (bb.map SelectionInstruction.frame)[i]? = some b.frame := by
    rw [List.getElem?_map, h]; rfl
  rw [← hinv.frame, List.getElem?_map] at h1
  cases ha : s.insns[i]? with
  | none => rw [ha] at h1; cases h1
  | some a =>
    rw [ha] at h1
    exact ⟨a, rfl, by simpa using h1⟩

/-- C2: a move of the input block whose destination register is live out of the block is not
erased by `run`: its position is still linked in the block that `run` leaves, and the
instruction there differs from the move in the contents of its sources at most. -/
theorem run_keeps_liveout_moves (T : Target) (features : Nat) (liveout : List Nat)
    (bb out : List SelectionInstruction) (i : Nat) (mov : SelectionInstruction)
    (d : GenRegister) (hmov : bb[i]? = some mov) (_hop : mov.opcode = T.SEL_OP_MOV)
    (hd : mov.dst 0 = .ok d) (hlive : d.reg ∈ liveout)
    (hrun : run T features liveout bb = .ok out) :
    ∃ s, runState T features liveout bb = .ok s ∧ out = insnList s.insns s.erased ∧
      i ∉ s.erased ∧
      ∃ mov1, s.insns[i]? = some mov1 ∧ mov1.frame = mov.frame ∧ mov1 ∈ out := by
  obtain ⟨s, hs, hout⟩ := run_eq_ok hrun
  have hinv := runState_inv hs
  have hne : i ∉ s.erased := by
    intro hi
    obtain ⟨mov0, d0, h0, _, hd0, hl0⟩ := hinv.erased i hi
    rw [hmov] at h0
    cases h0
    rw [hd] at hd0
    cases hd0
    exact hl0 hlive
  obtain ⟨mov1, h1, hfr⟩ := hinv.getElem?_store hmov
  exact ⟨s, hs, hout, hne, mov1, h1, hfr, hout ▸ mem_insnList h1 hne⟩

theorem run_keeps_liveout_moves_witness :
    scenarioA[0]? = some (mkInsn 0 [2] [1]) ∧ run exampleTarget 0 [2, 3] scenarioA = .ok scenarioA ∧
    ∃ s, runState exampleTarget 0 [2, 3] scenarioA = .ok s ∧
      scenarioA = insnList s.insns s.erased ∧ 0 ∉ s.erased ∧
      ∃ mov1, s.insns[0]? = some mov1 ∧ mov1.frame = (mkInsn 0 [2] [1]).frame ∧
        mov1 ∈ scenarioA :=
  ⟨rfl, rfl, run_keeps_liveout_moves exampleTarget 0 [2, 3] scenarioA scenarioA 0
    (mkInsn 0 [2] [1]) (vreg 2) rfl rfl rfl (by decide) rfl⟩

/-- C4: an instruction of the input block for which `isWrite()` or `isRead()` holds is the
same instruction, with the same source occurrences, in the state that `run` leaves, and it
is in the output block unless its position was erased. -/
theorem run_keeps_fixed_layout (T : Target) (features : Nat) (liveout : List Nat)
    (bb out : List SelectionInstruction) (i : Nat) (insn : SelectionInstruction)
    (hinsn : bb[i]? = some insn) (hfix : insn.isWrite = true ∨ insn.isRead = true)
    (hrun : run T features liveout bb = .ok out) :
    ∃ s, runState T features liveout bb = .ok s ∧ out = insnList s.insns s.erased ∧
      s.insns[i]? = some insn ∧ (i ∉ s.erased → insn ∈ out) := by
  obtain ⟨s, hs, hout⟩ := run_eq_ok hrun
  have hinv := runState_inv hs
  have h1 := hinv.fixed i insn hinsn hfix
  exact ⟨s, hs, hout, h1, fun hne => hout ▸ mem_insnList h1 hne⟩

theorem run_keeps_fixed_layout_witness :
    moveThenWrite[1]? = some { mkInsn 4 [] [2, 4] with isWrite := true } ∧
    run exampleTarget 0 [] moveThenWrite = .ok moveThenWrite ∧
    ∃ s, runState exampleTarget 0 [] moveThenWrite = .ok s ∧
      moveThenWrite = insnList s.insns s.erased ∧
      s.insns[1]? = some { mkInsn 4 [] [2, 4] with isWrite := true } ∧
      (1 ∉ s.erased → { mkInsn 4 [] [2, 4] with isWrite := true } ∈ moveThenWrite) :=
  ⟨rfl, rfl, run_keeps_fixed_layout exampleTarget 0 [] moveThenWrite moveThenWrite 1
    { mkInsn 4 [] [2, 4] with isWrite := true } rfl (Or.inl rfl) rfl⟩

/-- C6: the block that `run` leaves is the input block with some positions dropped, and the
instructions kept differ from the ones of the input in the contents of their sources at
most: opcode, execution state, destinations and number of sources are unchanged. -/
theorem run_sublist_frame (T : Target) (features : Nat) (liveout : List Nat)
    (bb out : List SelectionInstruction) (hrun : run T features liveout bb = .ok out) :
    List.Sublist (out.map SelectionInstruction.frame) (bb.map SelectionInstruction.frame) ∧
    ∃ s, runState T features liveout bb = .ok s ∧ out = insnList s.insns s.erased ∧
      s.insns.map SelectionInstruction.frame = bb.map SelectionInstruction.frame := by
  obtain ⟨s, hs, hout⟩ := run_eq_ok hrun
  have hinv := runState_inv hs
  refine ⟨?_, s, hs, hout, hinv.frame⟩
  rw [← hinv.frame, hout]
  exact (insnList_sublist s.insns s.erased).map _


theorem run_sublist_frame_witness :
    run exampleTarget 0 [3] scenarioA = .ok [mkInsn 3 [3] [1, 4]] ∧
    List.Sublist ([mkInsn 3 [3] [1, 4]].map SelectionInstruction.frame)
      (scenarioA.map SelectionInstruction.frame) ∧
    ∃ s, runState exampleTarget 0 [3] scenarioA = .ok s ∧
      [mkInsn 3 [3] [1, 4]] = insnList s.insns s.erased ∧
      s.insns.map SelectionInstruction.frame = scenarioA.map SelectionInstruction.frame :=
  ⟨rfl, run_sublist_frame exampleTarget 0 [3] scenarioA [mkInsn 3 [3] [1, 4]] rfl⟩
/-! ## Blocks without candidates -/

theorem getInsn_ok_of_getElem? {l : List SelectionInstruction} {i : Nat} {a : SelectionInstruction}
    (h : l[i]? = some a) : getInsn l i = .ok a := by
  unfold getInsn
  rw [List.get?_eq_getElem?, h]

theorem SelectionInstruction.src_ok_of_getElem? {insn : SelectionInstruction} {j : Nat}
    {r : GenRegister} (h : insn.srcRegs[j]? = some r) : insn.src j = .ok r := by
  unfold SelectionInstruction.src
  rw [List.get?_eq_getElem?, h]

theorem SelectionInstruction.dst_ok_of_getElem? {insn : SelectionInstruction} {j : Nat}
    {r : GenRegister} (h : insn.dstRegs[j]? = some r) : insn.dst j = .ok r := by
  unfold SelectionInstruction.dst
  rw [List.get?_eq_getElem?, h]

theorem scanSrcs_of_empty {T : Target} {features : Nat} {s : SelBasicBlockOptimizer} {idx : Nat}
    {insn : SelectionInstruction} (hmap : s.replaceInfoMap = [])
    (hi : s.insns[idx]? = some insn) :
    ∀ (l : List Nat), (∀ j, j ∈ l → j < insn.srcNum) → scanSrcs T features idx l s = .ok s := by
  intro l
  induction l with
  | nil => intro _; rfl
  | cons j rest ih =>
    intro hl
    have hj : j < insn.srcRegs.length := hl j (List.mem_cons_self _ _)
    have hc : changeInsideReplaceInfoMap T features s idx j = .ok s := by
      unfold changeInsideReplaceInfoMap
      rw [getInsn_ok_of_getElem? hi]
      simp only []
      rw [SelectionInstruction.src_ok_of_getElem? (List.getElem?_eq_getElem hj)]
      simp only [hmap, mapFind]
    unfold scanSrcs
    rw [hc]
    exact ih (fun j hj => hl j (List.mem_cons_of_mem _ hj))

theorem scanDsts_of_empty {T : Target} {s : SelBasicBlockOptimizer} {idx : Nat}
    {insn : SelectionInstruction} (hmap : s.replaceInfoMap = [])
    (hi : s.insns[idx]? = some insn) :
    ∀ (l : List Nat), (∀ j, j ∈ l → j < insn.dstNum) → scanDsts T idx l s = .ok s := by
  intro l
  induction l with
  | nil => intro _; rfl
  | cons j rest ih =>
    intro hl
    have hj : j < insn.dstRegs.length := hl j (List.mem_cons_self _ _)
    unfold scanDsts
    rw [getInsn_ok_of_getElem? hi]
    simp only []
    rw [SelectionInstruction.dst_ok_of_getElem? (List.getElem?_eq_getElem hj)]
    simp only [removeFromReplaceInfoMap, hmap, removeFromReplaceInfoMap.loop]
    exact ih (fun j hj => hl j (List.mem_cons_of_mem _ hj))

theorem scanInsn_of_empty {T : Target} {features : Nat} {liveout : List Nat}
    {s : SelBasicBlockOptimizer} {idx : Nat} {insn : SelectionInstruction}
    (hmap : s.replaceInfoMap = []) (hi : s.insns[idx]? = some insn)
    (hno : insn.opcode = T.SEL_OP_MOV →
      ∃ src dst, insn.src 0 = .ok src ∧ insn.dst 0 = .ok dst ∧
        (dst.reg ∈ liveout ∨ src.type ≠ dst.type ∨ src.file ≠ dst.file)) :
    scanInsn T features liveout s idx = .ok s := by
  unfold scanInsn
  rw [getInsn_ok_of_getElem? hi]
  simp only []
  rw [scanSrcs_of_empty hmap hi _ (fun j hj => List.mem_range.mp hj)]
  simp only []
  rw [scanDsts_of_empty hmap hi _ (fun j hj => List.mem_range.mp hj)]
  simp only []
  by_cases hop : insn.opcode = T.SEL_OP_MOV
  · rw [if_pos hop]
    obtain ⟨src, dst, hs, hd, hc⟩ := hno hop
    unfold addToReplaceInfoMap
    rw [getInsn_ok_of_getElem? hi]
    simp only [hop, ne_eq, not_true_eq_false, if_false, hs, hd]
    by_cases h1 : src.type ≠ dst.type ∨ src.file ≠ dst.file
    · rw [if_pos h1]
    · rw [if_neg h1]
      rcases hc with hc | hc | hc
      · rw [if_pos hc]
      · exact absurd (Or.inl hc) h1
      · exact absurd (Or.inr hc) h1
  · rw [if_neg hop]

theorem scanBlock_of_empty {T : Target} {features : Nat} {liveout : List Nat}
    {s : SelBasicBlockOptimizer} (hmap : s.replaceInfoMap = [])
    (hno : NoCandidate T liveout s.insns) :
    ∀ (l : List Nat), (∀ j, j ∈ l → j < s.insns.length) →
      scanBlock T features liveout l s = .ok s := by
  intro l
  induction l with
  | nil => intro _; rfl
  | cons j rest ih =>
    intro hl
    have hj : j < s.insns.length := hl j (List.mem_cons_self _ _)
    unfold scanBlock
    rw [scanInsn_of_empty hmap (List.getElem?_eq_getElem hj)
      (hno _ (List.getElem_mem hj))]
    exact ih (fun j hj => hl j (List.mem_cons_of_mem _ hj))

theorem insnList_nil (insns : List SelectionInstruction) : insnList insns [] = insns := by
  unfold insnList
  simp [List.enum_map_snd]

/-- A block none of whose moves qualifies for a candidate is left as it is. -/
theorem run_of_noCandidate {T : Target} {features : Nat} {liveout : List Nat}
    {bb : List SelectionInstruction} (hno : NoCandidate T liveout bb) :
    run T features liveout bb = .ok bb := by
  have hscan := @scanBlock_of_empty T features liveout
    { insns := bb, erased := [], replaceInfoMap := [], optimized := false } rfl hno
    ((List.range bb.length).filter (fun i => decide (i ∉ ([] : List Nat))))
    (fun j hj => List.mem_range.mp (List.mem_filter.mp hj).1)
  unfold run runState MaxTries run.loop doLocalCopyPropagation
  simp only []
  rw [hscan]
  simp only [cleanReplaceInfoMap, cleanReplaceInfoMap.loop, if_true, insnList_nil]


/-- C10: a block in which every move has a destination that is live out, or a source and a
destination that differ in type or in register file, is returned unchanged by `run`. -/
theorem run_unchanged_without_candidates (T : Target) (features : Nat) (liveout : List Nat)
    (bb : List SelectionInstruction)
    (h : ∀ insn, insn ∈ bb → insn.opcode = T.SEL_OP_MOV →
      ∃ src dst, insn.src 0 = .ok src ∧ insn.dst 0 = .ok dst ∧
        (dst.reg ∈ liveout ∨ src.type ≠ dst.type ∨ src.file ≠ dst.file)) :
    run T features liveout bb = .ok bb :=
  run_of_noCandidate h

theorem run_unchanged_without_candidates_witness :
    (∀ insn, insn ∈ scenarioA → insn.opcode = exampleTarget.SEL_OP_MOV →
      ∃ src dst, insn.src 0 = .ok src ∧ insn.dst 0 = .ok dst ∧
        (dst.reg ∈ [2, 3] ∨ src.type ≠ dst.type ∨ src.file ≠ dst.file)) ∧
    run exampleTarget 0 [2, 3] scenarioA = .ok scenarioA :=
  have h : ∀ insn, insn ∈ scenarioA → insn.opcode = exampleTarget.SEL_OP_MOV →
      ∃ src dst, insn.src 0 = .ok src ∧ insn.dst 0 = .ok dst ∧
        (dst.reg ∈ [2, 3] ∨ src.type ≠ dst.type ∨ src.file ≠ dst.file) := by
    intro insn hmem hop
    simp only [scenarioA, List.mem_cons, List.mem_singleton, List.not_mem_nil, or_false] at hmem
    rcases hmem with rfl | rfl
    · exact ⟨vreg 1, vreg 2, rfl, rfl, Or.inl (by decide)⟩
    · exact absurd hop (by decide)
  ⟨h, run_unchanged_without_candidates exampleTarget 0 [2, 3] scenarioA h⟩

/-- C5 (counterexample): on `MOV r2 <- r1; MOV r3 <- r2 (mask-ignoring); ADD r9 <- r3, r4` with
`r9` live out, the first run leaves `MOV r2 <- r1; ADD r9 <- r2, r4` and a second run deletes
the remaining move and leaves `ADD r9 <- r1, r4`. -/
theorem run_not_idempotent :
    run exampleTarget 0 [9] chainMasked = .ok [mkInsn 0 [2] [1], mkInsn 3 [9] [2, 4]] ∧
    run exampleTarget 0 [9] [mkInsn 0 [2] [1], mkInsn 3 [9] [2, 4]] = .ok [mkInsn 3 [9] [1, 4]] ∧
    ¬ (∀ out, run exampleTarget 0 [9] chainMasked = .ok out →
        run exampleTarget 0 [9] out = .ok out) := by
  refine ⟨rfl, rfl, fun h => ?_⟩
  have h1 := h [mkInsn 0 [2] [1], mkInsn 3 [9] [2, 4]] rfl
  have h2 : run exampleTarget 0 [9] [mkInsn 0 [2] [1], mkInsn 3 [9] [2, 4]]
      = .ok [mkInsn 3 [9] [1, 4]] := rfl
  rw [h2] at h1
  simp at h1

/-- C1 (failing input): on `MOV r5 <- r1; MOV r2 <- r5; ADD r3 <- r2, r4` with `r3` live out,
`run` leaves `ADD r3 <- r5, r4`; with register `r` holding the value `r` at entry, the
original block ends with 5 in `r3` and the block left by `run` ends with 9. -/
theorem run_changes_liveout_value :
    run exampleTarget 0 [3] chainDown = .ok [mkInsn 3 [3] [5, 4]] ∧
    execBlock exampleSem (fun r => (r : Int)) chainDown 3 = 5 ∧
    execBlock exampleSem (fun r => (r : Int)) [mkInsn 3 [3] [5, 4]] 3 = 9 := by
  refine ⟨rfl, ?_, ?_⟩ <;> decide

/-! ## A move followed by its consumer -/


theorem redirect_nil (T : Target) (s : GenRegister) (X : SelectionInstruction) :
    redirect T s [] X = X := by
  unfold redirect
  simp [List.enum_map_snd]

theorem redirect_cons (T : Target) (s : GenRegister) (p : Nat × Nat) (rest : List (Nat × Nat))
    (X : SelectionInstruction) (reg : GenRegister) (hp1 : p.1 = 1)
    (hreg : X.srcRegs[p.2]? = some reg) (hnot : p ∉ rest) :
    redirect T s rest { X with srcRegs := X.srcRegs.set p.2 (T.propagateRegister reg s) }
      = redirect T s (p :: rest) X := by
  unfold redirect
  simp only [SelectionInstruction.mk.injEq, true_and, and_true]
  apply List.ext_getElem?
  intro t
  simp only [List.getElem?_map, List.getElem?_enum, List.getElem?_set]
  by_cases ht : p.2 = t
  · subst ht
    have hlt : p.2 < X.srcRegs.length := by
      by_contra hge
      rw [List.getElem?_eq_none (Nat.le_of_not_lt hge)] at hreg
      cases hreg
    have hmem : ((1, p.2) : Nat × Nat) = p := by
      rw [← hp1]
    simp [hlt, hreg, hmem, hnot]
  · have hne : ((1, t) : Nat × Nat) ≠ p := by
      intro h
      apply ht
      rw [← h]
    cases hx : X.srcRegs[t]? with
    | none => simp [ht, hx]
    | some r => simp [ht, hx, hne]

theorem doReplacement_loop_pair (T : Target) (mov : SelectionInstruction) (s : GenRegister)
    (info : ReplaceInfo) (hinfo : info.insn = 0) (hs : mov.src 0 = .ok s) :
    ∀ (ps : List (Nat × Nat)) (X : SelectionInstruction), ps.Nodup →
      (∀ p, p ∈ ps → p.1 = 1 ∧ p.2 < X.srcRegs.length) →
      doReplacement.loop T info ps [mov, X] = .ok [mov, redirect T s ps X] := by
  intro ps
  induction ps with
  | nil =>
    intro X _ _
    rw [redirect_nil]
    rfl
  | cons p rest ih =>
    intro X hnd hps
    obtain ⟨hp1, hp2⟩ := hps p (List.mem_cons_self _ _)
    have hreg : X.srcRegs[p.2]? = some (X.srcRegs[p.2]) := List.getElem?_eq_getElem hp2
    have hg : getInsn [mov, X] p.1 = .ok X := by rw [hp1]; rfl
    have hr : replacement [mov, X] info = .ok s := by
      unfold replacement
      rw [hinfo]
      exact hs
    have hset : setSrc [mov, X] p (T.propagateRegister (X.srcRegs[p.2]) s)
        = [mov, { X with srcRegs := X.srcRegs.set p.2 (T.propagateRegister (X.srcRegs[p.2]) s) }] := by
      unfold setSrc
      rw [hp1]
      rfl
    unfold doReplacement.loop
    rw [hg]
    simp only []
    rw [SelectionInstruction.src_ok_of_getElem? hreg, hr]
    simp only []
    rw [hset, ih _ (List.nodup_cons.mp hnd).2
      (fun q hq => by
        have := hps q (List.mem_cons_of_mem _ hq)
        simpa using this),
      redirect_cons T s p rest X _ hp1 hreg (List.nodup_cons.mp hnd).1]

theorem Consumer.canBeReplaced {T : Target} {features : Nat} {mov I : SelectionInstruction}
    {s d : GenRegister} {e : Nat} (h : Consumer T features mov I s d e)
    (tbr : List (Nat × Nat)) (r : GenRegister) (hr : r ∈ I.srcRegs) (hrd : r.reg = d.reg) :
    CanBeReplaced T features [mov, I]
      { insn := 0, elements := e, toBeReplaceds := tbr, replacementOverwritten := false } I r
      = .ok true := by
  have hs : mov.src 0 = .ok s := by
    unfold SelectionInstruction.src; rw [h.srcs]; rfl
  have hd : mov.dst 0 = .ok d := by
    unfold SelectionInstruction.dst; rw [h.dsts]; rfl
  obtain ⟨h1, h2, h3, h4⟩ := h.reads r hr hrd
  refine (CanBeReplaced_eq_true_iff T features [mov, I]
    { insn := 0, elements := e, toBeReplaceds := tbr, replacementOverwritten := false }
    I r mov d s rfl hd hs
    (fun hmov => absurd hmov h.notMov)).mpr
    ⟨h.notBswap, ⟨h.notWrite, h.notRead⟩, h.srcmod, fun hc => h.notMov hc.2.1, rfl, ?_, ?_,
      h1, h2, h3, h4⟩
  · rintro ⟨hm0, hm1⟩
    rw [h.mask, hm0] at hm1
    cases hm1
  · rintro ⟨hp, _⟩
    exact hp h.pred.symm

theorem Consumer.scanSrcs {T : Target} {features : Nat} {mov I : SelectionInstruction}
    {s d : GenRegister} {e : Nat} (h : Consumer T features mov I s d e) :
    ∀ (k j : Nat) (tbr : List (Nat × Nat)), j + k = I.srcRegs.length → tbr.Nodup →
      (∀ p, p ∈ tbr ↔ (p.1 = 1 ∧ p.2 < j ∧ ∃ r, I.srcRegs[p.2]? = some r ∧ r.reg = d.reg)) →
      ∃ tbr1, scanSrcs T features 1 (List.range' j k) (pairState mov I d.reg e tbr false)
          = .ok (pairState mov I d.reg e tbr1 false) ∧ tbr1.Nodup ∧
        (∀ p, p ∈ tbr1 ↔
          (p.1 = 1 ∧ p.2 < j + k ∧ ∃ r, I.srcRegs[p.2]? = some r ∧ r.reg = d.reg)) := by
  intro k
  induction k with
  | zero =>
    intro j tbr _ hnd hmem
    exact ⟨tbr, rfl, hnd, by simpa using hmem⟩
  | succ k ih =>
    intro j tbr hlen hnd hmem
    have hj : j < I.srcRegs.length := by omega
    have hreg : I.srcRegs[j]? = some (I.srcRegs[j]) := List.getElem?_eq_getElem hj
    have hnew : ((1, j) : Nat × Nat) ∉ tbr := by
      intro hin
      have := ((hmem _).mp hin).2.1
      exact Nat.lt_irrefl _ this
    -- the state after source `j`
    have hstep : ∃ tbr2, changeInsideReplaceInfoMap T features
          (pairState mov I d.reg e tbr false) 1 j = .ok (pairState mov I d.reg e tbr2 false) ∧
        tbr2.Nodup ∧
        (∀ p, p ∈ tbr2 ↔
          (p.1 = 1 ∧ p.2 < j + 1 ∧ ∃ r, I.srcRegs[p.2]? = some r ∧ r.reg = d.reg)) := by
      unfold changeInsideReplaceInfoMap
      have hg : getInsn (pairState mov I d.reg e tbr false).insns 1 = .ok I := rfl
      rw [hg]
      simp only []
      rw [SelectionInstruction.src_ok_of_getElem? hreg]
      simp only []
      by_cases hrd : d.reg = (I.srcRegs[j]).reg
      · have hfind : mapFind (I.srcRegs[j]).reg (pairState mov I d.reg e tbr false).replaceInfoMap
            = some { insn := 0, elements := e, toBeReplaceds := tbr,
                     replacementOverwritten := false } := by
          simp only [pairState, mapFind, hrd, if_true]
        rw [hfind]
        simp only []
        have hcan := h.canBeReplaced tbr (I.srcRegs[j]) (List.getElem_mem hj) hrd.symm
        have hcan' : CanBeReplaced T features (pairState mov I d.reg e tbr false).insns
            { insn := 0, elements := e, toBeReplaceds := tbr, replacementOverwritten := false }
            I (I.srcRegs[j]) = .ok true := hcan
        rw [hcan']
        simp only []
        refine ⟨tbr ++ [(1, j)], ?_, ?_, ?_⟩
        · simp only [pairState, mapUpdate, collect, hrd, List.map_cons, List.map_nil, if_true,
            if_neg hnew]
        · exact List.Nodup.append hnd (List.nodup_singleton _)
            (by
              intro p hp1 hp2
              rw [List.mem_singleton] at hp2
              subst hp2
              exact hnew hp1)
        · intro p
          rw [List.mem_append, List.mem_singleton, hmem p]
          constructor
          · rintro (⟨h1, h2, h3⟩ | rfl)
            · exact ⟨h1, Nat.lt_succ_of_lt h2, h3⟩
            · exact ⟨rfl, Nat.lt_succ_self _, I.srcRegs[j], hreg, hrd.symm⟩
          · rintro ⟨h1, h2, h3⟩
            by_cases hlt : p.2 < j
            · exact Or.inl ⟨h1, hlt, h3⟩
            · right
              have : p.2 = j := by omega
              exact Prod.ext h1 this
      · have hfind : mapFind (I.srcRegs[j]).reg (pairState mov I d.reg e tbr false).replaceInfoMap
            = none := by
          simp only [pairState, mapFind, hrd, if_false]
        rw [hfind]
        refine ⟨tbr, rfl, hnd, ?_⟩
        intro p
        rw [hmem p]
        constructor
        · rintro ⟨h1, h2, h3⟩
          exact ⟨h1, Nat.lt_succ_of_lt h2, h3⟩
        · rintro ⟨h1, h2, r, hr1, hr2⟩
          refine ⟨h1, ?_, r, hr1, hr2⟩
          by_contra hge
          have : p.2 = j := by omega
          rw [this, hreg] at hr1
          cases hr1
          exact hrd hr2.symm
    obtain ⟨tbr2, hc, hnd2, hmem2⟩ := hstep
    obtain ⟨tbr1, hrest, hnd1, hmem1⟩ := ih (j + 1) tbr2 (by omega) hnd2 hmem2
    refine ⟨tbr1, ?_, hnd1, ?_⟩
    · rw [List.range'_succ]
      unfold gbe.scanSrcs
      rw [hc]
      exact hrest
    · intro p
      rw [hmem1 p]
      have : j + 1 + k = j + (k + 1) := by omega
      rw [this]

theorem Consumer.scanDsts {T : Target} {features : Nat} {mov I : SelectionInstruction}
    {s d : GenRegister} {e : Nat} (h : Consumer T features mov I s d e)
    (tbr : List (Nat × Nat)) :
    ∀ (l : List Nat) (ov : Bool), (∀ j, j ∈ l → j < I.dstRegs.length) →
      ∃ ov1, scanDsts T 1 l (pairState mov I d.reg e tbr ov)
        = .ok (pairState mov I d.reg e tbr ov1) := by
  intro l
  induction l with
  | nil => intro ov _; exact ⟨ov, rfl⟩
  | cons j rest ih =>
    intro ov hl
    have hj : j < I.dstRegs.length := hl j (List.mem_cons_self _ _)
    have hreg : I.dstRegs[j]? = some (I.dstRegs[j]) := List.getElem?_eq_getElem hj
    have hne : d.reg ≠ (I.dstRegs[j]).reg := fun hc => h.noWrite _ (List.getElem_mem hj) hc.symm
    have hs : mov.src 0 = .ok s := by
      unfold SelectionInstruction.src; rw [h.srcs]; rfl
    have hd : mov.dst 0 = .ok d := by
      unfold SelectionInstruction.dst; rw [h.dsts]; rfl
    have hstep : ∃ ov2, removeFromReplaceInfoMap T (pairState mov I d.reg e tbr ov)
        (I.dstRegs[j]) = .ok (pairState mov I d.reg e tbr ov2) := by
      have him : intermedia (pairState mov I d.reg e tbr ov).insns
          { insn := 0, elements := e, toBeReplaceds := tbr, replacementOverwritten := ov }
          = .ok d := hd
      have hrp : replacement (pairState mov I d.reg e tbr ov).insns
          { insn := 0, elements := e, toBeReplaceds := tbr, replacementOverwritten := ov }
          = .ok s := hs
      unfold removeFromReplaceInfoMap
      simp only [pairState] at him hrp ⊢
      unfold removeFromReplaceInfoMap.loop
      rw [him]
      simp only []
      rw [if_neg hne, hrp]
      simp only []
      by_cases hov : s.reg = (I.dstRegs[j]).reg
      · rw [if_pos hov]
        exact ⟨true, by simp [mapUpdate, markOverwritten]⟩
      · rw [if_neg hov]
        exact ⟨ov, rfl⟩
    obtain ⟨ov2, hc⟩ := hstep
    obtain ⟨ov1, hrest⟩ := ih ov2 (fun j hj => hl j (List.mem_cons_of_mem _ hj))
    refine ⟨ov1, ?_⟩
    unfold gbe.scanDsts
    have hg : getInsn (pairState mov I d.reg e tbr ov).insns 1 = .ok I := rfl
    rw [hg]
    simp only []
    rw [SelectionInstruction.dst_ok_of_getElem? hreg]
    simp only []
    rw [hc]
    exact hrest

theorem Consumer.redirect_eq {T : Target} {I : SelectionInstruction} {s d : GenRegister}
    (tbr : List (Nat × Nat))
    (hmem : ∀ p, p ∈ tbr ↔
      (p.1 = 1 ∧ p.2 < I.srcRegs.length ∧ ∃ r, I.srcRegs[p.2]? = some r ∧ r.reg = d.reg)) :
    redirect T s tbr I =
      { I with srcRegs :=
          I.srcRegs.map (fun r => if r.reg = d.reg then T.propagateRegister r s else r) } := by
  unfold redirect
  simp only [SelectionInstruction.mk.injEq, true_and, and_true]
  apply List.ext_getElem?
  intro t
  simp only [List.getElem?_map, List.getElem?_enum]
  cases hx : I.srcRegs[t]? with
  | none => rfl
  | some r =>
    have hlt : t < I.srcRegs.length := by
      by_contra hge
      rw [List.getElem?_eq_none (Nat.le_of_not_lt hge)] at hx
      cases hx
    have hiff : ((1, t) : Nat × Nat) ∈ tbr ↔ r.reg = d.reg := by
      rw [hmem]
      constructor
      · rintro ⟨_, _, r1, hr1, hr2⟩
        simp only at hr1
        rw [hx] at hr1
        cases hr1
        exact hr2
      · intro hr
        exact ⟨rfl, hlt, r, hx, hr⟩
    by_cases hr : r.reg = d.reg
    · simp [hr, hiff.mpr hr]
    · simp [hr, mt hiff.mp hr]

theorem Consumer.run {T : Target} {features : Nat} {liveout : List Nat}
    {mov I : SelectionInstruction} {s d : GenRegister} {e : Nat}
    (h : Consumer T features mov I s d e) (hop : mov.opcode = T.SEL_OP_MOV)
    (hty : s.type = d.type) (hfile : s.file = d.file) (hlive : d.reg ∉ liveout)
    (hfoot : CalculateElements T d mov.state.execWidth = .ok e) :
    run T features liveout [mov, I] =
      .ok [{ I with srcRegs :=
        I.srcRegs.map (fun r => if r.reg = d.reg then T.propagateRegister r s else r) }] := by
  have hs : mov.src 0 = .ok s := by
    unfold SelectionInstruction.src; rw [h.srcs]; rfl
  have hd : mov.dst 0 = .ok d := by
    unfold SelectionInstruction.dst; rw [h.dsts]; rfl
  -- the move
  have hA : scanInsn T features liveout
      { insns := [mov, I], erased := [], replaceInfoMap := [], optimized := false } 0
      = .ok (pairState mov I d.reg e [] false) := by
    unfold scanInsn
    have hg : getInsn [mov, I] 0 = .ok mov := rfl
    simp only [hg]
    rw [@scanSrcs_of_empty T features
      { insns := [mov, I], erased := [], replaceInfoMap := [], optimized := false } 0 mov rfl rfl _
      (fun j hj => List.mem_range.mp hj)]
    simp only []
    rw [@scanDsts_of_empty T
      { insns := [mov, I], erased := [], replaceInfoMap := [], optimized := false } 0 mov rfl rfl _
      (fun j hj => List.mem_range.mp hj)]
    simp only [hop, if_true]
    unfold addToReplaceInfoMap
    simp only [hg, hop, ne_eq, not_true_eq_false, if_false, hs, hd, hty, hfile, or_self,
      if_neg hlive, ReplaceInfo.create, hfoot, mapInsert, pairState]
  -- the consumer
  obtain ⟨tbr, hB1, hnd, hmem⟩ := h.scanSrcs I.srcRegs.length 0 [] (Nat.zero_add _)
    List.nodup_nil (by intro p; simp)
  rw [← List.range_eq_range'] at hB1
  simp only [Nat.zero_add] at hmem
  obtain ⟨ov, hB2⟩ := h.scanDsts tbr (List.range I.dstRegs.length) false
    (fun j hj => List.mem_range.mp hj)
  have hB : scanInsn T features liveout (pairState mov I d.reg e [] false) 1
      = .ok (pairState mov I d.reg e tbr ov) := by
    unfold scanInsn
    have hg : getInsn (pairState mov I d.reg e [] false).insns 1 = .ok I := rfl
    rw [hg]
    simp only [SelectionInstruction.srcNum, SelectionInstruction.dstNum, hB1, hB2,
      if_neg h.notMov]
  -- the flush
  have hloop := doReplacement_loop_pair T mov s
    { insn := 0, elements := e, toBeReplaceds := tbr, replacementOverwritten := ov } rfl hs
    tbr I hnd (fun p hp => ⟨((hmem p).mp hp).1, by simpa using ((hmem p).mp hp).2.1⟩)
  have hC : cleanReplaceInfoMap T (pairState mov I d.reg e tbr ov)
      = .ok { insns := [mov, redirect T s tbr I], erased := [0], replaceInfoMap := [],
              optimized := true } := by
    unfold cleanReplaceInfoMap
    simp only [pairState, cleanReplaceInfoMap.loop, doReplacement, hloop]
  have hscan : scanBlock T features liveout [0, 1]
      { insns := [mov, I], erased := [], replaceInfoMap := [], optimized := false }
      = .ok (pairState mov I d.reg e tbr ov) := by
    simp only [scanBlock, hA, hB]
  have hrange : (List.range ([mov, I] : List SelectionInstruction).length).filter
      (fun i => decide (i ∉ ([] : List Nat))) = [0, 1] := rfl
  have hrun : runState T features liveout [mov, I]
      = .ok { insns := [mov, redirect T s tbr I], erased := [0], replaceInfoMap := [],
              optimized := true } := by
    unfold runState MaxTries run.loop doLocalCopyPropagation
    simp only []
    rw [hrange, hscan]
    simp only [hC]
    rfl
  unfold gbe.run
  rw [hrun]
  simp only []
  have hlist : insnList [mov, redirect T s tbr I] [0] = [redirect T s tbr I] := by
    simp [insnList, List.enum, List.enumFrom]
  rw [hlist, Consumer.redirect_eq tbr hmem]


/-- C9 (amended): for a block `[MOV d <- s; I]` in which `s` and `d` share type and register
file, `d` is not live out, `I` is not a move, not a byte swap and not of fixed layout, `I`
does not write `d`, the mask and predicate settings of `I` are those of the move, every source
of `I` that reads `d` has the type, quarter, offset and footprint of `d`, and rule 3 does not
apply (not: the AND feature bit is set, `I` is an AND and `s` carries absolute or negation),
`run` returns the block `[I']`, where `I'` is `I` with each source that reads `d` redirected
to `s`. -/
theorem run_move_then_consumer (T : Target) (features : Nat) (liveout : List Nat)
    (mov I : SelectionInstruction) (s d : GenRegister) (e : Nat)
    (hop : mov.opcode = T.SEL_OP_MOV) (hsrcs : mov.srcRegs = [s]) (hdsts : mov.dstRegs = [d])
    (hty : s.type = d.type) (hfile : s.file = d.file) (hlive : d.reg ∉ liveout)
    (hI1 : I.opcode ≠ T.SEL_OP_MOV) (hI2 : I.opcode ≠ T.SEL_OP_BSWAP)
    (hI3 : I.isWrite = false) (hI4 : I.isRead = false)
    (hwr : ∀ r, r ∈ I.dstRegs → r.reg ≠ d.reg)
    (hmask : I.state.noMask = mov.state.noMask)
    (hpred : I.state.predicate = mov.state.predicate)
    (hfoot : CalculateElements T d mov.state.execWidth = .ok e)
    (hreads : ∀ r, r ∈ I.srcRegs → r.reg = d.reg →
      r.type = d.type ∧ r.quarter = d.quarter ∧ r.subnr = d.subnr ∧
        CalculateElements T r I.state.execWidth = .ok e)
    (hmod : ¬ (features &&& T.SIOF_OP_AND_LOGICAL_SRCMOD ≠ 0 ∧ I.opcode = T.SEL_OP_AND ∧
      (s.absolute = true ∨ s.negation = true))) :
    run T features liveout [mov, I] =
      .ok [{ I with srcRegs :=
        I.srcRegs.map (fun r => if r.reg = d.reg then T.propagateRegister r s else r) }] :=
  Consumer.run ⟨hsrcs, hdsts, hI1, hI2, hI3, hI4, hwr, hmask, hpred, hreads, hmod⟩ hop hty hfile
    hlive hfoot

/-- Scenario A of the specification as an instance of `run_move_then_consumer`. -/
theorem run_move_then_consumer_witness :
    run exampleTarget 0 [3] [mkInsn 0 [2] [1], mkInsn 3 [3] [2, 4]] =
      .ok [{ mkInsn 3 [3] [2, 4] with srcRegs :=
        ((mkInsn 3 [3] [2, 4]).srcRegs.map
          (fun r => if r.reg = 2 then exampleTarget.propagateRegister r (vreg 1) else r)) }] :=
  run_move_then_consumer exampleTarget 0 [3] (mkInsn 0 [2] [1]) (mkInsn 3 [3] [2, 4])
    (vreg 1) (vreg 2) 255 rfl rfl rfl rfl rfl (by decide) (by decide) (by decide) rfl rfl
    (by decide) rfl rfl rfl
    (by
      intro r hr hrd
      simp only [mkInsn, List.map_cons, List.map_nil, List.mem_cons, List.mem_singleton,
        List.not_mem_nil, or_false] at hr
      rcases hr with rfl | rfl
      · exact ⟨rfl, rfl, rfl, rfl⟩
      · exact absurd hrd (by decide))
    (fun h => absurd h.1 (by decide))

/-- C9 (counterexample): with the AND feature bit set, the block `MOV r2 <- -r1; AND r3 <- r2, r4`
meets the conditions of the claim, and `run` returns it unchanged: rule 3 rejects the read of
`r2`, the move is kept and the AND still reads `r2`. -/
theorem run_move_then_consumer_counterexample :
    negMove.opcode = exampleTarget.SEL_OP_MOV ∧ negMove.srcRegs = [negR1] ∧
    negMove.dstRegs = [vreg 2] ∧ negR1.type = (vreg 2).type ∧ negR1.file = (vreg 2).file ∧
    (vreg 2).reg ∉ [3] ∧
    andUse.opcode ≠ exampleTarget.SEL_OP_MOV ∧ andUse.opcode ≠ exampleTarget.SEL_OP_BSWAP ∧
    andUse.isWrite = false ∧ andUse.isRead = false ∧
    (∀ r, r ∈ andUse.dstRegs → r.reg ≠ (vreg 2).reg) ∧
    andUse.state.noMask = negMove.state.noMask ∧
    andUse.state.predicate = negMove.state.predicate ∧
    CalculateElements exampleTarget (vreg 2) negMove.state.execWidth = .ok 255 ∧
    (∀ r, r ∈ andUse.srcRegs → r.reg = (vreg 2).reg →
      r.type = (vreg 2).type ∧ r.quarter = (vreg 2).quarter ∧ r.subnr = (vreg 2).subnr ∧
        CalculateElements exampleTarget r andUse.state.execWidth = .ok 255) ∧
    run exampleTarget 1 [3] [negMove, andUse] = .ok [negMove, andUse] ∧
    run exampleTarget 1 [3] [negMove, andUse] ≠
      .ok [{ andUse with srcRegs :=
        (andUse.srcRegs.map
          (fun r => if r.reg = 2 then exampleTarget.propagateRegister r negR1 else r)) }] := by
  refine ⟨rfl, rfl, rfl, rfl, rfl, by decide, by decide, by decide, rfl, rfl, by decide, rfl,
    rfl, rfl, ?_, rfl, ?_⟩
  · intro r hr hrd
    simp only [andUse, mkInsn, List.map_cons, List.map_nil, List.mem_cons, List.mem_singleton,
      List.not_mem_nil, or_false] at hr
    rcases hr with rfl | rfl
    · exact ⟨rfl, rfl, rfl, rfl⟩
    · exact absurd hrd (by decide)
  · have h : run exampleTarget 1 [3] [negMove, andUse] = .ok [negMove, andUse] := rfl
    rw [h]
    intro hc
    have hlen := congrArg (fun r => match r with
      | Except.ok l => List.length l
      | Except.error _ => 0) hc
    simp at hlen

/-! ## The scan as a sequence of events: theorems -/

theorem runEvents_append (T : Target) (features : Nat) (liveout : List Nat) :
    ∀ (a b : List Event) (s s2 : SelBasicBlockOptimizer),
      runEvents T features liveout (a ++ b) s = .ok s2 ↔
        ∃ s1, runEvents T features liveout a s = .ok s1 ∧
          runEvents T features liveout b s1 = .ok s2 := by
  intro a
  induction a with
  | nil =>
    intro b s s2
    simp [runEvents]
  | cons ev rest ih =>
    intro b s s2
    simp only [List.cons_append, runEvents]
    cases hs : step T features liveout s ev with
    | error e => simp
    | ok s1 => simpa using ih b s1 s2

theorem runEvents_singleton (T : Target) (features : Nat) (liveout : List Nat) (ev : Event)
    (s : SelBasicBlockOptimizer) :
    runEvents T features liveout [ev] s = step T features liveout s ev := by
  simp only [runEvents]
  cases step T features liveout s ev <;> rfl

theorem scanSrcs_eq_runEvents (T : Target) (features : Nat) (liveout : List Nat) (idx : Nat) :
    ∀ (l : List Nat) (s : SelBasicBlockOptimizer),
      scanSrcs T features idx l s = runEvents T features liveout (l.map (Event.src idx)) s := by
  intro l
  induction l with
  | nil => intro s; rfl
  | cons j rest ih =>
    intro s
    simp only [scanSrcs, List.map_cons, runEvents, step]
    cases changeInsideReplaceInfoMap T features s idx j with
    | error e => rfl
    | ok s1 => exact ih s1

theorem scanDsts_eq_runEvents (T : Target) (features : Nat) (liveout : List Nat) (idx : Nat) :
    ∀ (l : List Nat) (s : SelBasicBlockOptimizer),
      scanDsts T idx l s = runEvents T features liveout (l.map (Event.dst idx)) s := by
  intro l
  induction l with
  | nil => intro s; rfl
  | cons j rest ih =>
    intro s
    simp only [scanDsts, List.map_cons, runEvents, step]
    cases getInsn s.insns idx with
    | error e => rfl
    | ok insn =>
      simp only []
      cases insn.dst j with
      | error e => rfl
      | ok var =>
        simp only []
        cases removeFromReplaceInfoMap T s var with
        | error e => rfl
        | ok s1 => exact ih s1

/-- The events of a sequence that fails or succeeds as a whole. -/
theorem runEvents_append_eq (T : Target) (features : Nat) (liveout : List Nat) :
    ∀ (a b : List Event) (s : SelBasicBlockOptimizer),
      runEvents T features liveout (a ++ b) s =
        match runEvents T features liveout a s with
        | .error e => .error e
        | .ok s1 => runEvents T features liveout b s1 := by
  intro a
  induction a with
  | nil => intro b s; rfl
  | cons ev rest ih =>
    intro b s
    simp only [List.cons_append, runEvents]
    cases step T features liveout s ev with
    | error e => rfl
    | ok s1 => exact ih b s1

theorem scanInsn_eq_runEvents (T : Target) (features : Nat) (liveout : List Nat)
    (s : SelBasicBlockOptimizer) (idx : Nat) (insn : SelectionInstruction)
    (h : getInsn s.insns idx = .ok insn) :
    scanInsn T features liveout s idx = runEvents T features liveout (eventsOf T idx insn) s := by
  unfold scanInsn eventsOf
  rw [h]
  simp only []
  rw [runEvents_append_eq, ← scanSrcs_eq_runEvents]
  cases scanSrcs T features idx (List.range insn.srcNum) s with
  | error e => rfl
  | ok s1 =>
    simp only []
    rw [runEvents_append_eq, ← scanDsts_eq_runEvents]
    cases scanDsts T idx (List.range insn.dstNum) s1 with
    | error e => rfl
    | ok s2 =>
      simp only []
      by_cases hop : insn.opcode = T.SEL_OP_MOV
      · rw [if_pos hop, if_pos hop, runEvents_singleton]
        rfl
      · rw [if_neg hop, if_neg hop]
        rfl

theorem eventsOf_congr (T : Target) (idx : Nat) (a b : SelectionInstruction)
    (h : a.frame = b.frame) : eventsOf T idx a = eventsOf T idx b := by
  simp only [SelectionInstruction.frame, Prod.mk.injEq] at h
  obtain ⟨h1, _, h3, h4, _, _⟩ := h
  unfold eventsOf SelectionInstruction.dstNum
  rw [h1, h3, h4]

theorem scanBlock_eq_runEvents {T : Target} {features : Nat} {liveout : List Nat}
    {bb : List SelectionInstruction} :
    ∀ (l : List SelectionInstruction) (k : Nat) (s : SelBasicBlockOptimizer),
      Inv T liveout bb s → bb.drop k = l →
      scanBlock T features liveout (List.range' k l.length) s
        = runEvents T features liveout (eventsFrom T k l) s := by
  intro l
  induction l with
  | nil => intro k s _ _; rfl
  | cons insn rest ih =>
    intro k s hinv hdrop
    have hk : bb[k]? = some insn := by
      have := congrArg (fun l => l[0]?) hdrop
      simpa using this
    obtain ⟨a, ha, hfr⟩ := hinv.getElem?_store hk
    have hdrop1 : bb.drop (k + 1) = rest := by
      have := congrArg List.tail hdrop
      simpa using this
    simp only [List.length_cons, List.range'_succ, scanBlock, eventsFrom]
    rw [scanInsn_eq_runEvents T features liveout s k a (getInsn_ok_of_getElem? ha),
      eventsOf_congr T k a insn hfr, runEvents_append_eq]
    cases hs : runEvents T features liveout (eventsOf T k insn) s with
    | error e => rfl
    | ok s1 =>
      simp only []
      have hinv1 : Inv T liveout bb s1 := by
        have h1 : scanInsn T features liveout s k = .ok s1 := by
          rw [scanInsn_eq_runEvents T features liveout s k a (getInsn_ok_of_getElem? ha),
            eventsOf_congr T k a insn hfr, hs]
        exact hinv.scanInsn h1
      exact ih (k + 1) s1 hinv1 hdrop1

theorem Inv.init (T : Target) (liveout : List Nat) (bb : List SelectionInstruction) :
    Inv T liveout bb (initState bb) :=
  ⟨rfl, fun _ _ hb _ => hb, fun i hi => (by cases hi), fun e he => (by cases he)⟩

/-- The scan is the sequence of its events followed by the flush. -/
theorem runState_eq_ok_iff (T : Target) (features : Nat) (liveout : List Nat)
    (bb : List SelectionInstruction) (s : SelBasicBlockOptimizer) :
    runState T features liveout bb = .ok s ↔
      ∃ s1, runEvents T features liveout (events T bb) (initState bb) = .ok s1 ∧
        cleanReplaceInfoMap T s1 = .ok s := by
  have hfilter : (List.range bb.length).filter (fun i => decide (i ∉ ([] : List Nat)))
      = List.range' 0 bb.length := by
    simp [List.range_eq_range']
  have hscan : scanBlock T features liveout
      ((List.range bb.length).filter (fun i => decide (i ∉ ([] : List Nat))))
      { insns := bb, erased := [], replaceInfoMap := [], optimized := false }
      = runEvents T features liveout (eventsFrom T 0 bb) (initState bb) := by
    rw [hfilter]
    exact scanBlock_eq_runEvents bb 0 (initState bb) (Inv.init T liveout bb) rfl
  unfold runState MaxTries run.loop doLocalCopyPropagation
  simp only [hscan]
  unfold events
  cases runEvents T features liveout (eventsFrom T 0 bb) (initState bb) with
  | error e => simp
  | ok s1 =>
    simp only [Except.ok.injEq, exists_eq_left']
    cases hc : cleanReplaceInfoMap T s1 with
    | error e => simp
    | ok s2 =>
      simp only [run.loop]
      by_cases ho : s2.optimized = false
      · simp [ho]
      · simp [ho]


theorem mem_eventsOf {T : Target} {idx : Nat} {insn : SelectionInstruction} {ev : Event} :
    ev ∈ eventsOf T idx insn ↔
      (∃ j, j < insn.srcNum ∧ ev = Event.src idx j) ∨
      (∃ j, j < insn.dstNum ∧ ev = Event.dst idx j) ∨
      (insn.opcode = T.SEL_OP_MOV ∧ ev = Event.add idx) := by
  unfold eventsOf
  simp only [List.mem_append, List.mem_map, List.mem_range]
  constructor
  · rintro (⟨j, hj, rfl⟩ | ⟨j, hj, rfl⟩ | h)
    · exact Or.inl ⟨j, hj, rfl⟩
    · exact Or.inr (Or.inl ⟨j, hj, rfl⟩)
    · by_cases hop : insn.opcode = T.SEL_OP_MOV
      · rw [if_pos hop, List.mem_singleton] at h
        exact Or.inr (Or.inr ⟨hop, h⟩)
      · rw [if_neg hop] at h
        cases h
  · rintro (⟨j, hj, rfl⟩ | ⟨j, hj, rfl⟩ | ⟨hop, rfl⟩)
    · exact Or.inl ⟨j, hj, rfl⟩
    · exact Or.inr (Or.inl ⟨j, hj, rfl⟩)
    · right; right
      rw [if_pos hop]
      exact List.mem_singleton.mpr rfl

theorem idx_of_mem_eventsOf {T : Target} {idx : Nat} {insn : SelectionInstruction} {ev : Event}
    (h : ev ∈ eventsOf T idx insn) : ev.idx = idx := by
  rcases mem_eventsOf.mp h with ⟨j, _, rfl⟩ | ⟨j, _, rfl⟩ | ⟨_, rfl⟩ <;> rfl

theorem nodup_eventsOf (T : Target) (idx : Nat) (insn : SelectionInstruction) :
    (eventsOf T idx insn).Nodup := by
  unfold eventsOf
  have h1 : ((List.range insn.srcNum).map (Event.src idx)).Nodup :=
    (List.nodup_range _).map (fun a b h => by cases h; rfl)
  have h2 : ((List.range insn.dstNum).map (Event.dst idx)).Nodup :=
    (List.nodup_range _).map (fun a b h => by cases h; rfl)
  have h3 : (if insn.opcode = T.SEL_OP_MOV then [Event.add idx] else []).Nodup := by
    by_cases hop : insn.opcode = T.SEL_OP_MOV
    · rw [if_pos hop]; exact List.nodup_singleton _
    · rw [if_neg hop]; exact List.nodup_nil
  refine List.Nodup.append h1 (List.Nodup.append h2 h3 ?_) ?_
  · intro ev hd ha
    obtain ⟨j, _, rfl⟩ := List.mem_map.mp hd
    by_cases hop : insn.opcode = T.SEL_OP_MOV
    · rw [if_pos hop, List.mem_singleton] at ha; cases ha
    · rw [if_neg hop] at ha; cases ha
  · intro ev hs hr
    obtain ⟨j, _, rfl⟩ := List.mem_map.mp hs
    rcases List.mem_append.mp hr with hd | ha
    · obtain ⟨j1, _, h⟩ := List.mem_map.mp hd
      cases h
    · by_cases hop : insn.opcode = T.SEL_OP_MOV
      · rw [if_pos hop, List.mem_singleton] at ha; cases ha
      · rw [if_neg hop] at ha; cases ha

theorem le_idx_of_mem_eventsFrom {T : Target} {ev : Event} :
    ∀ (l : List SelectionInstruction) (k : Nat), ev ∈ eventsFrom T k l → k ≤ ev.idx := by
  intro l
  induction l with
  | nil => intro k h; cases h
  | cons insn rest ih =>
    intro k h
    simp only [eventsFrom, List.mem_append] at h
    rcases h with h | h
    · rw [idx_of_mem_eventsOf h]
    · exact Nat.le_of_succ_le (ih (k + 1) h)

theorem nodup_eventsFrom (T : Target) :
    ∀ (l : List SelectionInstruction) (k : Nat), (eventsFrom T k l).Nodup := by
  intro l
  induction l with
  | nil => intro k; exact List.nodup_nil
  | cons insn rest ih =>
    intro k
    simp only [eventsFrom]
    refine List.Nodup.append (nodup_eventsOf T k insn) (ih (k + 1)) ?_
    intro ev h1 h2
    have e1 := idx_of_mem_eventsOf h1
    have e2 := le_idx_of_mem_eventsFrom rest (k + 1) h2
    omega

theorem nodup_events (T : Target) (bb : List SelectionInstruction) : (events T bb).Nodup :=
  nodup_eventsFrom T bb 0

theorem eventsFrom_append (T : Target) :
    ∀ (l1 l2 : List SelectionInstruction) (k : Nat),
      eventsFrom T k (l1 ++ l2) = eventsFrom T k l1 ++ eventsFrom T (k + l1.length) l2 := by
  intro l1
  induction l1 with
  | nil => intro l2 k; simp [eventsFrom]
  | cons insn rest ih =>
    intro l2 k
    have hk : k + 1 + rest.length = k + (rest.length + 1) := by omega
    show eventsOf T k insn ++ eventsFrom T (k + 1) (rest ++ l2) = _
    rw [ih l2 (k + 1), hk]
    simp only [eventsFrom, List.append_assoc, List.length_cons]

/-- The events of a block around the instruction at position `m`. -/
theorem events_split (T : Target) (bb : List SelectionInstruction) (m : Nat)
    (insn : SelectionInstruction) (h : bb[m]? = some insn) :
    events T bb = eventsFrom T 0 (bb.take m) ++
      (eventsOf T m insn ++ eventsFrom T (m + 1) (bb.drop (m + 1))) := by
  have hlt : m < bb.length := by
    by_contra hge
    rw [List.getElem?_eq_none (Nat.le_of_not_lt hge)] at h
    cases h
  have hbb : bb = bb.take m ++ insn :: bb.drop (m + 1) := by
    have hd : bb.drop m = insn :: bb.drop (m + 1) := by
      rw [List.drop_eq_getElem_cons hlt]
      congr 1
      have := List.getElem?_eq_getElem hlt
      rw [this] at h
      exact Option.some.inj h
    rw [← hd, List.take_append_drop]
  have hlen : (bb.take m).length = m := by
    rw [List.length_take]; omega
  unfold events
  conv_lhs => rw [hbb]
  rw [eventsFrom_append, hlen, Nat.zero_add]
  simp only [eventsFrom]


theorem srcAt_eq_some_iff {insns : List SelectionInstruction} {p : Nat × Nat} {r : GenRegister} :
    srcAt insns p = some r ↔ ∃ insn, insns[p.1]? = some insn ∧ insn.srcRegs[p.2]? = some r := by
  unfold srcAt
  cases insns[p.1]? with
  | none => simp
  | some insn => simp

theorem srcAt_of_getInsn {insns : List SelectionInstruction} {idx j : Nat}
    {insn : SelectionInstruction} {r : GenRegister} (h1 : getInsn insns idx = .ok insn)
    (h2 : insn.src j = .ok r) : srcAt insns (idx, j) = some r :=
  srcAt_eq_some_iff.mpr ⟨insn, getInsn_eq_ok.mp h1, SelectionInstruction.src_eq_ok.mp h2⟩

theorem srcAt_setSrc_of_ne (insns : List SelectionInstruction) (p q : Nat × Nat)
    (r : GenRegister) (h : q ≠ p) : srcAt (setSrc insns p r) q = srcAt insns q := by
  unfold srcAt
  rw [getElem?_setSrc]
  cases hq : insns[q.1]? with
  | none => rfl
  | some insn =>
    simp only [Option.map_some']
    by_cases h1 : p.1 = q.1
    · rw [if_pos h1]
      have h2 : p.2 ≠ q.2 := by
        intro h2
        exact h (Prod.ext h1.symm h2.symm)
      simp only [List.getElem?_set, if_neg h2]
    · rw [if_neg h1]

theorem doReplacement_loop_srcAt (T : Target) (info : ReplaceInfo) :
    ∀ (ps : List (Nat × Nat)) (insns insns1 : List SelectionInstruction),
      doReplacement.loop T info ps insns = .ok insns1 →
      ∀ q, q ∉ ps → srcAt insns1 q = srcAt insns q := by
  intro ps
  induction ps with
  | nil =>
    intro insns insns1 h q _
    simp only [doReplacement.loop, Except.ok.injEq] at h
    rw [h]
  | cons p rest ih =>
    intro insns insns1 h q hq
    unfold doReplacement.loop at h
    cases hg : getInsn insns p.1 with
    | error e => simp [hg] at h
    | ok insn =>
      simp only [hg] at h
      cases hs : insn.src p.2 with
      | error e => simp [hs] at h
      | ok reg =>
        cases hr : replacement insns info with
        | error e => simp [hs, hr] at h
        | ok repl =>
          simp only [hs, hr] at h
          rw [ih _ _ h q (fun hm => hq (List.mem_cons_of_mem _ hm)),
            srcAt_setSrc_of_ne _ _ _ _ (fun hm => hq (by rw [hm]; exact List.mem_cons_self _ _))]

theorem doReplacement_srcAt (T : Target) (s s1 : SelBasicBlockOptimizer) (info : ReplaceInfo)
    (h : doReplacement T s info = .ok s1) :
    ∀ q, q ∉ info.toBeReplaceds → srcAt s1.insns q = srcAt s.insns q := by
  unfold doReplacement at h
  cases hl : doReplacement.loop T info info.toBeReplaceds s.insns with
  | error e => simp [hl] at h
  | ok insns1 =>
    simp only [hl, Except.ok.injEq] at h
    subst h
    exact doReplacement_loop_srcAt T info _ _ _ hl

theorem sorted_mapErase {m : List (Nat × ReplaceInfo)} (k : Nat)
    (h : m.Pairwise (fun a b => a.1 < b.1)) : (mapErase k m).Pairwise (fun a b => a.1 < b.1) :=
  h.sublist (List.filter_sublist _)

theorem mem_mapErase_iff {e : Nat × ReplaceInfo} {k : Nat} {m : List (Nat × ReplaceInfo)} :
    e ∈ mapErase k m ↔ e ∈ m ∧ e.1 ≠ k := by
  unfold mapErase
  simp [List.mem_filter]

theorem sorted_mapUpdate {m : List (Nat × ReplaceInfo)} (k : Nat) (f : ReplaceInfo → ReplaceInfo)
    (h : m.Pairwise (fun a b => a.1 < b.1)) :
    (mapUpdate k f m).Pairwise (fun a b => a.1 < b.1) := by
  unfold mapUpdate
  refine List.Pairwise.map _ (fun a b hab => ?_) h
  by_cases ha : a.1 = k <;> by_cases hb : b.1 = k <;> simp [ha, hb] <;> omega

theorem sorted_mapInsert (k : Nat) (info : ReplaceInfo) :
    ∀ {m : List (Nat × ReplaceInfo)}, m.Pairwise (fun a b => a.1 < b.1) →
      (mapInsert k info m).Pairwise (fun a b => a.1 < b.1) := by
  intro m
  induction m with
  | nil => intro _; simp [mapInsert]
  | cons hd tl ih =>
    intro h
    obtain ⟨k0, i0⟩ := hd
    have htl := (List.pairwise_cons.mp h).2
    have hhd := (List.pairwise_cons.mp h).1
    unfold mapInsert
    by_cases h1 : k < k0
    · rw [if_pos h1]
      refine List.pairwise_cons.mpr ⟨?_, h⟩
      intro e he
      rcases List.mem_cons.mp he with rfl | he
      · exact h1
      · exact Nat.lt_trans h1 (hhd e he)
    · rw [if_neg h1]
      by_cases h2 : k = k0
      · rw [if_pos h2]
        refine List.pairwise_cons.mpr ⟨?_, htl⟩
        intro e he
        rw [h2]
        exact hhd e he
      · rw [if_neg h2]
        refine List.pairwise_cons.mpr ⟨?_, ih htl⟩
        intro e he
        rcases mem_mapInsert he with rfl | he
        · show k0 < k
          omega
        · exact hhd e he

/-- Two entries of the map under different keys are related by a symmetric relation that holds
pairwise. -/
theorem distinct_of_mem {m : List (Nat × ReplaceInfo)}
    (h : m.Pairwise
      (fun a b => a.2.insn ≠ b.2.insn ∧ ∀ p, p ∈ a.2.toBeReplaceds → p ∉ b.2.toBeReplaceds))
    {a b : Nat × ReplaceInfo} (ha : a ∈ m) (hb : b ∈ m) (hab : a ≠ b) :
    a.2.insn ≠ b.2.insn ∧ ∀ p, p ∈ a.2.toBeReplaceds → p ∉ b.2.toBeReplaceds := by
  refine List.Pairwise.forall (R := fun a b : Nat × ReplaceInfo =>
    a.2.insn ≠ b.2.insn ∧ ∀ p, p ∈ a.2.toBeReplaceds → p ∉ b.2.toBeReplaceds)
    ?_ h ha hb hab
  intro x y hxy
  exact ⟨fun hc => hxy.1 hc.symm, fun p hp hq => hxy.2 p hq hp⟩


theorem TInv.initial (T : Target) (liveout : List Nat) (bb : List SelectionInstruction) :
    TInv T liveout bb [] (initState bb) where
  inv := Inv.init T liveout bb
  sorted := List.Pairwise.nil
  key := fun e he => by cases he
  created := fun e he => by cases he
  alive := fun e he => by cases he
  collected := fun e he => by cases he
  distinct := List.Pairwise.nil
  unscanned := fun _ _ _ => rfl
  erasedCreated := fun i hi => by cases hi

theorem TInv.mono {T : Target} {liveout : List Nat} {bb : List SelectionInstruction}
    {pre : List Event} {s : SelBasicBlockOptimizer} (h : TInv T liveout bb pre s)
    (l : List Event) : TInv T liveout bb (pre ++ l) s where
  inv := h.inv
  sorted := h.sorted
  key := h.key
  created := fun e he => List.mem_append_left _ (h.created e he)
  alive := h.alive
  collected := fun e he p hp =>
    ⟨List.mem_append_left _ (h.collected e he p hp).1, (h.collected e he p hp).2⟩
  distinct := h.distinct
  unscanned := fun i j hij => h.unscanned i j (fun hm => hij (List.mem_append_left _ hm))
  erasedCreated := fun i hi => List.mem_append_left _ (h.erasedCreated i hi)

theorem TInv.erase {T : Target} {liveout : List Nat} {bb : List SelectionInstruction}
    {pre : List Event} {s : SelBasicBlockOptimizer} (h : TInv T liveout bb pre s) (k : Nat) :
    TInv T liveout bb pre { s with replaceInfoMap := mapErase k s.replaceInfoMap } where
  inv := h.inv.withMap _ (fun e he => h.inv.cands e (mem_mapErase he))
  sorted := sorted_mapErase k h.sorted
  key := fun e he => h.key e (mem_mapErase he)
  created := fun e he => h.created e (mem_mapErase he)
  alive := fun e he => h.alive e (mem_mapErase he)
  collected := fun e he => h.collected e (mem_mapErase he)
  distinct := h.distinct.sublist (List.filter_sublist _)
  unscanned := h.unscanned
  erasedCreated := h.erasedCreated

theorem TInv.mark {T : Target} {liveout : List Nat} {bb : List SelectionInstruction}
    {pre : List Event} {s : SelBasicBlockOptimizer} (h : TInv T liveout bb pre s) (k : Nat) :
    TInv T liveout bb pre
      { s with replaceInfoMap := mapUpdate k markOverwritten s.replaceInfoMap } := by
  have hmem : ∀ e, e ∈ mapUpdate k markOverwritten s.replaceInfoMap →
      ∃ e0, e0 ∈ s.replaceInfoMap ∧ e.1 = e0.1 ∧ e.2.insn = e0.2.insn ∧
        e.2.toBeReplaceds = e0.2.toBeReplaceds := by
    intro e he
    rcases mem_mapUpdate he with he | ⟨e0, he0, _, rfl⟩
    · exact ⟨e, he, rfl, rfl, rfl⟩
    · exact ⟨e0, he0, rfl, rfl, rfl⟩
  refine ⟨h.inv.withMap _ (fun e he => ?_), sorted_mapUpdate k _ h.sorted, ?_, ?_, ?_, ?_, ?_,
    h.unscanned, h.erasedCreated⟩
  · obtain ⟨e0, he0, _, h2, h3⟩ := hmem e he
    rw [h2, h3]
    exact h.inv.cands e0 he0
  · intro e he
    obtain ⟨e0, he0, h1, h2, _⟩ := hmem e he
    rw [h1, h2]
    exact h.key e0 he0
  · intro e he
    obtain ⟨e0, he0, _, h2, _⟩ := hmem e he
    rw [h2]
    exact h.created e0 he0
  · intro e he
    obtain ⟨e0, he0, _, h2, _⟩ := hmem e he
    rw [h2]
    exact h.alive e0 he0
  · intro e he
    obtain ⟨e0, he0, h1, _, h3⟩ := hmem e he
    rw [h1, h3]
    exact h.collected e0 he0
  · unfold mapUpdate
    refine List.Pairwise.map _ (fun a b hab => ?_) h.distinct
    by_cases ha : a.1 = k <;> by_cases hb : b.1 = k <;>
      simp only [ha, hb, if_true, if_false, markOverwritten] <;> exact hab

theorem TInv.applied {T : Target} {liveout : List Nat} {bb : List SelectionInstruction}
    {pre : List Event} {s s1 : SelBasicBlockOptimizer} (h : TInv T liveout bb pre s)
    (e : Nat × ReplaceInfo) (he : e ∈ s.replaceInfoMap)
    (hd : doReplacement T s e.2 = .ok s1) :
    TInv T liveout bb pre { s1 with replaceInfoMap := mapErase e.1 s1.replaceInfoMap } := by
  obtain ⟨hm, her, _, _⟩ := doReplacement_spec T s s1 e.2 hd
  have hsrc := doReplacement_srcAt T s s1 e.2 hd
  have hc := h.inv.cands e he
  have hinv1 : Inv T liveout bb s1 := h.inv.doReplacement hc.1 hc.2 hd
  have hsub : ∀ x, x ∈ mapErase e.1 s1.replaceInfoMap → x ∈ s.replaceInfoMap ∧ x ≠ e := by
    intro x hx
    rw [hm] at hx
    obtain ⟨hx1, hx2⟩ := mem_mapErase_iff.mp hx
    exact ⟨hx1, fun hxe => hx2 (by rw [hxe])⟩
  refine ⟨hinv1.withMap _ (fun x hx => hinv1.cands x (mem_mapErase hx)), ?_, ?_, ?_, ?_, ?_, ?_,
    ?_, ?_⟩
  · rw [hm]; exact sorted_mapErase _ h.sorted
  · intro x hx; exact h.key x (hsub x hx).1
  · intro x hx; exact h.created x (hsub x hx).1
  · intro x hx
    obtain ⟨hx1, hx2⟩ := hsub x hx
    show x.2.insn ∉ s1.erased
    rw [her]
    intro hmem
    rcases List.mem_cons.mp hmem with hmem | hmem
    · exact (distinct_of_mem h.distinct hx1 he hx2).1 hmem
    · exact h.alive x hx1 hmem
  · intro x hx p hp
    obtain ⟨hx1, hx2⟩ := hsub x hx
    obtain ⟨c1, c2, c3⟩ := h.collected x hx1 p hp
    refine ⟨c1, ?_, c3⟩
    show srcAt s1.insns p = srcAt bb p
    rw [hsrc p ((distinct_of_mem h.distinct hx1 he hx2).2 p hp), c2]
  · show (mapErase e.1 s1.replaceInfoMap).Pairwise _
    rw [hm]
    exact h.distinct.sublist (List.filter_sublist _)
  · intro i j hij
    show srcAt s1.insns (i, j) = srcAt bb (i, j)
    rw [hsrc (i, j) (fun hmem => hij (h.collected e he (i, j) hmem).1), h.unscanned i j hij]
  · intro i hi
    have hi' : i ∈ s1.erased := hi
    rw [her] at hi'
    rcases List.mem_cons.mp hi' with rfl | hi'
    · exact h.created e he
    · exact h.erasedCreated i hi'

theorem removeFromReplaceInfoMap_loop_tinv {T : Target} {liveout : List Nat}
    {bb : List SelectionInstruction} {pre : List Event} (var : GenRegister) :
    ∀ (l : List (Nat × ReplaceInfo)) (s s1 : SelBasicBlockOptimizer),
      (∀ e, e ∈ l → e ∈ s.replaceInfoMap) →
      TInv T liveout bb pre s → removeFromReplaceInfoMap.loop T var l s = .ok s1 →
      TInv T liveout bb pre s1 := by
  intro l
  induction l with
  | nil =>
    intro s s1 _ hinv h
    simp only [removeFromReplaceInfoMap.loop, Except.ok.injEq] at h
    exact h ▸ hinv
  | cons hd rest ih =>
    intro s s1 hl hinv h
    obtain ⟨key, info⟩ := hd
    have hmem := hl (key, info) (List.mem_cons_self _ _)
    unfold removeFromReplaceInfoMap.loop at h
    cases him : intermedia s.insns info with
    | error e => simp [him] at h
    | ok im =>
      simp only [him] at h
      by_cases h1 : im.reg = var.reg
      · rw [if_pos h1] at h
        by_cases h2 : im.quarter = var.quarter ∧ im.subnr = var.subnr
        · rw [if_pos h2] at h
          cases hd : doReplacement T s info with
          | error e => simp [hd] at h
          | ok s2 =>
            simp only [hd, Except.ok.injEq] at h
            subst h
            exact hinv.applied (key, info) hmem hd
        · rw [if_neg h2] at h
          simp only [Except.ok.injEq] at h
          subst h
          exact hinv.erase key
      · rw [if_neg h1] at h
        cases hr : replacement s.insns info with
        | error e => simp [hr] at h
        | ok repl =>
          simp only [hr] at h
          by_cases h3 : repl.reg = var.reg
          · rw [if_pos h3] at h
            simp only [Except.ok.injEq] at h
            subst h
            exact hinv.mark key
          · rw [if_neg h3] at h
            exact ih s s1 (fun e he => hl e (List.mem_cons_of_mem _ he)) hinv h


theorem pairwise_mapInsert {R : Nat × ReplaceInfo → Nat × ReplaceInfo → Prop}
    (hsymm : ∀ a b, R a b → R b a) (k : Nat) (info : ReplaceInfo) :
    ∀ {m : List (Nat × ReplaceInfo)}, m.Pairwise R → (∀ e, e ∈ m → R (k, info) e) →
      (mapInsert k info m).Pairwise R := by
  intro m
  induction m with
  | nil => intro _ _; simp [mapInsert]
  | cons hd tl ih =>
    intro h hnew
    obtain ⟨k0, i0⟩ := hd
    have htl := (List.pairwise_cons.mp h).2
    have hhd := (List.pairwise_cons.mp h).1
    unfold mapInsert
    by_cases h1 : k < k0
    · rw [if_pos h1]
      exact List.pairwise_cons.mpr ⟨hnew, h⟩
    · rw [if_neg h1]
      by_cases h2 : k = k0
      · rw [if_pos h2]
        exact List.pairwise_cons.mpr ⟨fun e he => hnew e (List.mem_cons_of_mem _ he), htl⟩
      · rw [if_neg h2]
        refine List.pairwise_cons.mpr ⟨?_, ih htl (fun e he => hnew e (List.mem_cons_of_mem _ he))⟩
        intro e he
        rcases mem_mapInsert he with rfl | he
        · exact hsymm _ _ (hnew _ (List.mem_cons_self _ _))
        · exact hhd e he

theorem mem_collect {p q : Nat × Nat} {info : ReplaceInfo}
    (h : q ∈ (collect p info).toBeReplaceds) : q ∈ info.toBeReplaceds ∨ q = p := by
  simp only [collect] at h
  by_cases hm : p ∈ info.toBeReplaceds
  · rw [if_pos hm] at h; exact Or.inl h
  · rw [if_neg hm] at h
    rcases List.mem_append.mp h with h | h
    · exact Or.inl h
    · exact Or.inr (List.mem_singleton.mp h)

theorem TInv_collect {T : Target} {liveout : List Nat} {bb : List SelectionInstruction}
    {pre : List Event} {s : SelBasicBlockOptimizer} (h : TInv T liveout bb pre s)
    (idx j : Nat) (var : GenRegister) (hfresh : Event.src idx j ∉ pre)
    (hvar : srcAt s.insns (idx, j) = some var)
    (hinv : Inv T liveout bb
      { s with replaceInfoMap := mapUpdate var.reg (collect (idx, j)) s.replaceInfoMap }) :
    TInv T liveout bb (pre ++ [Event.src idx j])
      { s with replaceInfoMap := mapUpdate var.reg (collect (idx, j)) s.replaceInfoMap } := by
  have hbb : srcAt bb (idx, j) = some var := by rw [← h.unscanned idx j hfresh, hvar]
  have hmem : ∀ e, e ∈ mapUpdate var.reg (collect (idx, j)) s.replaceInfoMap →
      ∃ e0, e0 ∈ s.replaceInfoMap ∧ e.1 = e0.1 ∧ e.2.insn = e0.2.insn ∧
        ∀ q, q ∈ e.2.toBeReplaceds → q ∈ e0.2.toBeReplaceds ∨ (q = (idx, j) ∧ e0.1 = var.reg) := by
    intro e he
    rcases mem_mapUpdate he with he | ⟨e0, he0, hk, rfl⟩
    · exact ⟨e, he, rfl, rfl, fun q hq => Or.inl hq⟩
    · refine ⟨e0, he0, rfl, rfl, fun q hq => ?_⟩
      rcases mem_collect hq with hq | hq
      · exact Or.inl hq
      · exact Or.inr ⟨hq, hk⟩
  have hnotin : ∀ e, e ∈ s.replaceInfoMap → ((idx, j) : Nat × Nat) ∉ e.2.toBeReplaceds :=
    fun e he hin => hfresh (h.collected e he (idx, j) hin).1
  refine ⟨hinv, sorted_mapUpdate _ _ h.sorted, ?_, ?_, ?_, ?_, ?_, ?_, ?_⟩
  · intro e he
    obtain ⟨e0, he0, h1, h2, _⟩ := hmem e he
    rw [h1, h2]
    exact h.key e0 he0
  · intro e he
    obtain ⟨e0, he0, _, h2, _⟩ := hmem e he
    rw [h2]
    exact List.mem_append_left _ (h.created e0 he0)
  · intro e he
    obtain ⟨e0, he0, _, h2, _⟩ := hmem e he
    rw [h2]
    exact h.alive e0 he0
  · intro e he q hq
    obtain ⟨e0, he0, h1, _, h3⟩ := hmem e he
    rcases h3 q hq with hq0 | ⟨rfl, hk⟩
    · obtain ⟨c1, c2, c3⟩ := h.collected e0 he0 q hq0
      rw [h1]
      exact ⟨List.mem_append_left _ c1, c2, c3⟩
    · refine ⟨List.mem_append_right _ (List.mem_singleton.mpr rfl), ?_, var, hbb, ?_⟩
      · show srcAt s.insns (idx, j) = srcAt bb (idx, j)
        rw [hvar, hbb]
      · rw [h1, hk]
  · have hcomb := List.Pairwise.and_mem.mp (h.sorted.and h.distinct)
    unfold mapUpdate
    refine List.Pairwise.map _ (fun a b hab => ?_) hcomb
    obtain ⟨ha, hb, hlt, hne, hdis⟩ := hab
    by_cases hka : a.1 = var.reg
    · have hkb : b.1 ≠ var.reg := by omega
      simp only [hka, hkb, if_true, if_false]
      refine ⟨hne, fun q hq => ?_⟩
      rcases mem_collect hq with hq | rfl
      · exact hdis q hq
      · exact hnotin b hb
    · by_cases hkb : b.1 = var.reg
      · simp only [hka, hkb, if_true, if_false]
        refine ⟨hne, fun q hq hq2 => ?_⟩
        rcases mem_collect hq2 with hq2 | rfl
        · exact hdis q hq hq2
        · exact hnotin a ha hq
      · simp only [hka, hkb, if_false]
        exact ⟨hne, hdis⟩
  · intro i k hik
    exact h.unscanned i k (fun hm => hik (List.mem_append_left _ hm))
  · intro i hi
    exact List.mem_append_left _ (h.erasedCreated i hi)

theorem TInv.lookedUp {T : Target} {features : Nat} {liveout : List Nat}
    {bb : List SelectionInstruction} {pre : List Event} {s s1 : SelBasicBlockOptimizer}
    {idx j : Nat} (h : TInv T liveout bb pre s) (hfresh : Event.src idx j ∉ pre)
    (hstep : changeInsideReplaceInfoMap T features s idx j = .ok s1) :
    TInv T liveout bb (pre ++ [Event.src idx j]) s1 := by
  have hinv1 := h.inv.changeInsideReplaceInfoMap hstep
  unfold gbe.changeInsideReplaceInfoMap at hstep
  cases hg : getInsn s.insns idx with
  | error e => simp [hg] at hstep
  | ok insn =>
    simp only [hg] at hstep
    cases hs : insn.src j with
    | error e => simp [hs] at hstep
    | ok var =>
      simp only [hs] at hstep
      cases hf : mapFind var.reg s.replaceInfoMap with
      | none =>
        simp only [hf, Except.ok.injEq] at hstep
        subst hstep
        exact h.mono _
      | some info =>
        simp only [hf] at hstep
        cases hc : CanBeReplaced T features s.insns info insn var with
        | error e => simp [hc] at hstep
        | ok b =>
          cases b with
          | false =>
            simp only [hc, Except.ok.injEq] at hstep
            subst hstep
            exact (h.erase var.reg).mono _
          | true =>
            simp only [hc, Except.ok.injEq] at hstep
            subst hstep
            exact TInv_collect h idx j var hfresh (srcAt_of_getInsn hg hs) hinv1

theorem TInv.entered {T : Target} {liveout : List Nat}
    {bb : List SelectionInstruction} {pre : List Event} {s s1 : SelBasicBlockOptimizer}
    {idx : Nat} (h : TInv T liveout bb pre s) (hfresh : Event.add idx ∉ pre)
    (hstep : addToReplaceInfoMap T liveout s idx = .ok s1) :
    TInv T liveout bb (pre ++ [Event.add idx]) s1 := by
  have hinv1 := h.inv.addToReplaceInfoMap hstep
  unfold gbe.addToReplaceInfoMap at hstep
  cases hg : getInsn s.insns idx with
  | error e => simp [hg] at hstep
  | ok insn =>
    simp only [hg] at hstep
    by_cases hop : insn.opcode ≠ T.SEL_OP_MOV
    · rw [if_pos hop] at hstep; cases hstep
    rw [if_neg hop] at hstep
    cases hs : insn.src 0 with
    | error e => simp [hs] at hstep
    | ok src =>
      cases hd : insn.dst 0 with
      | error e => simp [hs, hd] at hstep
      | ok dst =>
        simp only [hs, hd] at hstep
        by_cases h1 : src.type ≠ dst.type ∨ src.file ≠ dst.file
        · rw [if_pos h1] at hstep
          cases hstep; exact h.mono _
        rw [if_neg h1] at hstep
        by_cases h2 : dst.reg ∈ liveout
        · rw [if_pos h2] at hstep
          cases hstep; exact h.mono _
        rw [if_neg h2] at hstep
        cases hc : ReplaceInfo.create T idx insn dst with
        | error e => simp [hc] at hstep
        | ok info =>
          simp only [hc, Except.ok.injEq] at hstep
          subst hstep
          have hinfo : info.insn = idx ∧ info.toBeReplaceds = [] := by
            unfold ReplaceInfo.create at hc
            rw [if_neg hop] at hc
            cases hce : CalculateElements T dst insn.state.execWidth with
            | error e => simp [hce] at hc
            | ok el =>
              simp only [hce, Except.ok.injEq] at hc
              subst hc
              exact ⟨rfl, rfl⟩
          obtain ⟨b, hb, hfr⟩ := h.inv.getElem? (getInsn_eq_ok.mp hg)
          simp only [SelectionInstruction.frame, Prod.mk.injEq] at hfr
          have hbd : b.dst 0 = .ok dst := by
            rw [SelectionInstruction.dst_eq_ok, hfr.2.2.1]
            exact SelectionInstruction.dst_eq_ok.mp hd
          have hold : ∀ e, e ∈ s.replaceInfoMap → e.2.insn ≠ idx := by
            intro e he hc
            exact hfresh (hc ▸ h.created e he)
          refine ⟨hinv1, sorted_mapInsert _ _ h.sorted, ?_, ?_, ?_, ?_, ?_, ?_, ?_⟩
          · intro e he
            rcases mem_mapInsert he with rfl | he
            · exact ⟨b, dst, by rw [hinfo.1]; exact hb, hbd, rfl⟩
            · exact h.key e he
          · intro e he
            rcases mem_mapInsert he with rfl | he
            · rw [hinfo.1]
              exact List.mem_append_right _ (List.mem_singleton.mpr rfl)
            · exact List.mem_append_left _ (h.created e he)
          · intro e he
            rcases mem_mapInsert he with rfl | he
            · rw [hinfo.1]
              exact fun hi => hfresh (h.erasedCreated idx hi)
            · exact h.alive e he
          · intro e he p hp
            rcases mem_mapInsert he with rfl | he
            · rw [hinfo.2] at hp; cases hp
            · obtain ⟨c1, c2⟩ := h.collected e he p hp
              exact ⟨List.mem_append_left _ c1, c2⟩
          · refine pairwise_mapInsert ?_ _ _ h.distinct ?_
            · intro x y hxy
              exact ⟨fun hc => hxy.1 hc.symm, fun p hp hq => hxy.2 p hq hp⟩
            · intro e he
              refine ⟨?_, fun p hp => ?_⟩
              · rw [hinfo.1]
                exact fun hc => hold e he hc.symm
              · rw [hinfo.2] at hp; cases hp
          · intro i k hik
            exact h.unscanned i k (fun hm => hik (List.mem_append_left _ hm))
          · intro i hi
            exact List.mem_append_left _ (h.erasedCreated i hi)

/-- The invariant of the scan is kept by every event that did not occur yet. -/
theorem TInv.step {T : Target} {features : Nat} {liveout : List Nat}
    {bb : List SelectionInstruction} {pre : List Event} {s s1 : SelBasicBlockOptimizer}
    {ev : Event} (h : TInv T liveout bb pre s) (hfresh : ev ∉ pre)
    (hstep : step T features liveout s ev = .ok s1) : TInv T liveout bb (pre ++ [ev]) s1 := by
  cases ev with
  | src idx j => exact h.lookedUp hfresh hstep
  | dst idx j =>
    simp only [gbe.step] at hstep
    cases hg : getInsn s.insns idx with
    | error e => simp [hg] at hstep
    | ok insn =>
      simp only [hg] at hstep
      cases hd : insn.dst j with
      | error e => simp [hd] at hstep
      | ok var =>
        simp only [hd] at hstep
        exact (removeFromReplaceInfoMap_loop_tinv var _ _ _ (fun _ he => he) h hstep).mono _
  | add idx => exact h.entered hfresh hstep


/-- Induction along the events of a scan: a property that every event keeps, together with
the invariant of the scan, holds after the events. -/
theorem runEvents_induction {T : Target} {features : Nat} {liveout : List Nat}
    {bb : List SelectionInstruction} (all : List Event)
    (P : List Event → SelBasicBlockOptimizer → Prop)
    (hstep : ∀ pre ev rest s s1, all = pre ++ ev :: rest → TInv T liveout bb pre s → P pre s →
      ev ∉ pre → step T features liveout s ev = .ok s1 → P (pre ++ [ev]) s1) :
    ∀ (evs pre : List Event) (s s1 : SelBasicBlockOptimizer), all = pre ++ evs → all.Nodup →
      TInv T liveout bb pre s → P pre s → runEvents T features liveout evs s = .ok s1 →
      TInv T liveout bb all s1 ∧ P all s1 := by
  intro evs
  induction evs with
  | nil =>
    intro pre s s1 hall _ hinv hP h
    simp only [runEvents, Except.ok.injEq] at h
    subst h
    rw [hall, List.append_nil]
    exact ⟨hinv, hP⟩
  | cons ev rest ih =>
    intro pre s s1 hall hnd hinv hP h
    simp only [runEvents] at h
    cases hs : step T features liveout s ev with
    | error e => simp [hs] at h
    | ok s2 =>
      simp only [hs] at h
      have hfresh : ev ∉ pre := by
        rw [hall] at hnd
        intro hmem
        exact (List.nodup_append.mp hnd).2.2 hmem (List.mem_cons_self _ _)
      have hall2 : all = (pre ++ [ev]) ++ rest := by
        rw [hall, List.append_assoc]; rfl
      exact ih (pre ++ [ev]) s2 s1 hall2 hnd (hinv.step hfresh hs)
        (hstep pre ev rest s s2 hall hinv hP hfresh hs) h

/-- The invariant of the scan holds at every position of the scan. -/
theorem reach_tinv {T : Target} {features : Nat} {liveout : List Nat}
    {bb : List SelectionInstruction} {pre post : List Event} {s : SelBasicBlockOptimizer}
    (hpos : events T bb = pre ++ post)
    (hrun : runEvents T features liveout pre (initState bb) = .ok s) :
    TInv T liveout bb pre s := by
  have hnd : pre.Nodup := by
    have := nodup_events T bb
    rw [hpos] at this
    exact (List.nodup_append.mp this).1
  exact (runEvents_induction pre (fun _ _ => True) (fun _ _ _ _ _ _ _ _ _ _ => trivial)
    pre [] (initState bb) s rfl hnd (TInv.initial T liveout bb) trivial hrun).1

/-- The run of the events up to a position of the scan, when the whole scan succeeds. -/
theorem runEvents_split {T : Target} {features : Nat} {liveout : List Nat}
    {pre : List Event} {ev : Event} {post : List Event} {s0 s s2 : SelBasicBlockOptimizer}
    (hall : runEvents T features liveout (pre ++ ev :: post) s0 = .ok s2)
    (hpre : runEvents T features liveout pre s0 = .ok s) :
    ∃ s1, step T features liveout s ev = .ok s1 ∧
      runEvents T features liveout post s1 = .ok s2 := by
  obtain ⟨s', h1, h2⟩ := (runEvents_append T features liveout pre (ev :: post) s0 s2).mp hall
  rw [hpre] at h1
  cases h1
  simp only [runEvents] at h2
  cases hs : step T features liveout s ev with
  | error e => simp [hs] at h2
  | ok s1 =>
    simp only [hs] at h2
    exact ⟨s1, rfl, h2⟩

/-! ## What two candidates can share -/

/-- The state at the end of the scan of `MOV r2 <- r1; MOV r3 <- r2`. -/
theorem runEvents_chainUp :
    runEvents exampleTarget 0 [] (events exampleTarget chainUp) (initState chainUp) =
      .ok { insns := chainUp, erased := [],
            replaceInfoMap :=
              [(2, { insn := 0, elements := 255, toBeReplaceds := [(1, 0)],
                     replacementOverwritten := false }),
               (3, { insn := 1, elements := 255, toBeReplaceds := [],
                     replacementOverwritten := false })],
            optimized := false } :=
  rfl

/-- C17 (counterexample): after the scan of `MOV r2 <- r1; MOV r3 <- r2` the map holds the
candidates of both moves, and the source of the second move is at once a collected occurrence
of the candidate of `r2` and the replacement of the candidate of `r3`. -/
theorem candidates_share_occurrence :
    runEvents exampleTarget 0 [] (events exampleTarget chainUp) (initState chainUp) =
      .ok { insns := chainUp, erased := [],
            replaceInfoMap :=
              [(2, { insn := 0, elements := 255, toBeReplaceds := [(1, 0)],
                     replacementOverwritten := false }),
               (3, { insn := 1, elements := 255, toBeReplaceds := [],
                     replacementOverwritten := false })],
            optimized := false } ∧
    Occurrence.src 1 0 ∈ ReplaceInfo.references
      { insn := 0, elements := 255, toBeReplaceds := [(1, 0)], replacementOverwritten := false } ∧
    Occurrence.src 1 0 ∈ ReplaceInfo.references
      { insn := 1, elements := 255, toBeReplaceds := [], replacementOverwritten := false } ∧
    ¬ List.Pairwise (fun a b : Nat × ReplaceInfo =>
        ∀ o, o ∈ a.2.references → o ∉ b.2.references)
      [(2, { insn := 0, elements := 255, toBeReplaceds := [(1, 0)],
             replacementOverwritten := false }),
       (3, { insn := 1, elements := 255, toBeReplaceds := [],
             replacementOverwritten := false })] := by
  refine ⟨runEvents_chainUp, by decide, by decide, fun h => ?_⟩
  have h1 := (List.pairwise_cons.mp h).1 _ (List.mem_singleton.mpr rfl) (Occurrence.src 1 0)
    (by decide)
  exact h1 (by decide)

/-- Two candidates of the map share no occurrence but the replacement of one that the other
collected. -/
theorem references_of_distinct {a b : ReplaceInfo} (hne : a.insn ≠ b.insn)
    (hdis : ∀ p, p ∈ a.toBeReplaceds → p ∉ b.toBeReplaceds) (o : Occurrence)
    (ha : o ∈ a.references) (hb : o ∈ b.references) :
    (o = a.replacementOcc ∧ o ∈ b.collectedOccs) ∨
      (o = b.replacementOcc ∧ o ∈ a.collectedOccs) := by
  simp only [ReplaceInfo.references, ReplaceInfo.intermediaOcc, ReplaceInfo.replacementOcc,
    ReplaceInfo.collectedOccs, List.mem_cons, List.mem_map] at ha hb ⊢
  rcases ha with rfl | rfl | ⟨p, hp, rfl⟩
  · rcases hb with h | h | ⟨q, _, h⟩
    · exact absurd (Occurrence.dst.inj h).1 hne
    · cases h
    · cases h
  · rcases hb with h | h | ⟨q, hq, h⟩
    · cases h
    · exact absurd (Occurrence.src.inj h).1 hne
    · exact Or.inl ⟨rfl, q, hq, h⟩
  · rcases hb with h | h | ⟨q, hq, h⟩
    · cases h
    · exact Or.inr ⟨h, p, hp, rfl⟩
    · have hpq : q = p := by
        have := Occurrence.src.inj h
        exact Prod.ext this.1 this.2
      subst hpq
      exact absurd hq (hdis _ hp)

/-- C17 (amended): at every position of the scan, two candidates of the map have different
keys and different moves, no occurrence is collected by both, and an occurrence that both
refer to is the replacement of one of them and a collected occurrence of the other: no two
candidates share an intermediate, a replacement or a collected occurrence. -/
theorem candidates_share_only_replacement (T : Target) (features : Nat) (liveout : List Nat)
    (bb : List SelectionInstruction) (pre post : List Event) (s : SelBasicBlockOptimizer)
    (hpos : events T bb = pre ++ post)
    (hrun : runEvents T features liveout pre (initState bb) = .ok s) :
    s.replaceInfoMap.Pairwise (fun a b =>
      a.1 < b.1 ∧ a.2.insn ≠ b.2.insn ∧
      (∀ p, p ∈ a.2.toBeReplaceds → p ∉ b.2.toBeReplaceds) ∧
      ∀ o, o ∈ a.2.references → o ∈ b.2.references →
        (o = a.2.replacementOcc ∧ o ∈ b.2.collectedOccs) ∨
          (o = b.2.replacementOcc ∧ o ∈ a.2.collectedOccs)) := by
  have hinv := reach_tinv hpos hrun
  refine (hinv.sorted.and hinv.distinct).imp ?_
  intro a b hab
  exact ⟨hab.1, hab.2.1, hab.2.2, references_of_distinct hab.2.1 hab.2.2⟩

/-- The end of the scan of `MOV r2 <- r1; MOV r3 <- r2`. -/
theorem candidates_share_only_replacement_witness :
    events exampleTarget chainUp = events exampleTarget chainUp ++ [] ∧
    List.Pairwise (fun a b : Nat × ReplaceInfo =>
      a.1 < b.1 ∧ a.2.insn ≠ b.2.insn ∧
      (∀ p, p ∈ a.2.toBeReplaceds → p ∉ b.2.toBeReplaceds) ∧
      ∀ o, o ∈ a.2.references → o ∈ b.2.references →
        (o = a.2.replacementOcc ∧ o ∈ b.2.collectedOccs) ∨
          (o = b.2.replacementOcc ∧ o ∈ a.2.collectedOccs))
      [(2, { insn := 0, elements := 255, toBeReplaceds := [(1, 0)],
             replacementOverwritten := false }),
       (3, { insn := 1, elements := 255, toBeReplaceds := [],
             replacementOverwritten := false })] :=
  ⟨(List.append_nil _).symm,
    candidates_share_only_replacement exampleTarget 0 [] chainUp (events exampleTarget chainUp) []
      _ (List.append_nil _).symm runEvents_chainUp⟩

/-! ## A candidate that fails the eligibility check -/

theorem Discarded.ofMap {bb : List SelectionInstruction} {m : Nat} {ps : List (Nat × Nat)}
    {s : SelBasicBlockOptimizer} (h : Discarded bb m ps s) (mp : List (Nat × ReplaceInfo))
    (hmp : ∀ e, e ∈ mp → e.2.insn ≠ m ∧ ∀ p, p ∈ ps → p ∉ e.2.toBeReplaceds) :
    Discarded bb m ps { s with replaceInfoMap := mp } :=
  ⟨h.1, hmp, h.2.2⟩

theorem doReplacement_discarded {T : Target} {bb : List SelectionInstruction} {m : Nat}
    {ps : List (Nat × Nat)} {s s1 : SelBasicBlockOptimizer} (h1 : m ∉ s.erased)
    (h2 : ∀ p, p ∈ ps → srcAt s.insns p = srcAt bb p) (info : ReplaceInfo)
    (hinfo : info.insn ≠ m ∧ ∀ p, p ∈ ps → p ∉ info.toBeReplaceds)
    (hd : doReplacement T s info = .ok s1) :
    m ∉ s1.erased ∧ s1.replaceInfoMap = s.replaceInfoMap ∧
      ∀ p, p ∈ ps → srcAt s1.insns p = srcAt bb p := by
  obtain ⟨hm, her, _, _⟩ := doReplacement_spec T s s1 info hd
  have hsrc := doReplacement_srcAt T s s1 info hd
  refine ⟨?_, hm, fun p hp => ?_⟩
  · rw [her]
    intro hmem
    rcases List.mem_cons.mp hmem with hmem | hmem
    · exact hinfo.1 hmem.symm
    · exact h1 hmem
  · rw [hsrc p (hinfo.2 p hp), h2 p hp]

theorem removeFromReplaceInfoMap_loop_discarded {T : Target} {bb : List SelectionInstruction}
    {m : Nat} {ps : List (Nat × Nat)} (var : GenRegister) :
    ∀ (l : List (Nat × ReplaceInfo)) (s s1 : SelBasicBlockOptimizer),
      (∀ e, e ∈ l → e ∈ s.replaceInfoMap) →
      Discarded bb m ps s → removeFromReplaceInfoMap.loop T var l s = .ok s1 →
      Discarded bb m ps s1 := by
  intro l
  induction l with
  | nil =>
    intro s s1 _ hq h
    simp only [removeFromReplaceInfoMap.loop, Except.ok.injEq] at h
    exact h ▸ hq
  | cons hd rest ih =>
    intro s s1 hl hq h
    obtain ⟨key, info⟩ := hd
    have hmem := hl (key, info) (List.mem_cons_self _ _)
    unfold removeFromReplaceInfoMap.loop at h
    cases him : intermedia s.insns info with
    | error e => simp [him] at h
    | ok im =>
      simp only [him] at h
      by_cases h1 : im.reg = var.reg
      · rw [if_pos h1] at h
        by_cases h2 : im.quarter = var.quarter ∧ im.subnr = var.subnr
        · rw [if_pos h2] at h
          cases hd : doReplacement T s info with
          | error e => simp [hd] at h
          | ok s2 =>
            simp only [hd, Except.ok.injEq] at h
            subst h
            obtain ⟨d1, d2, d3⟩ := doReplacement_discarded hq.1 hq.2.2 info (hq.2.1 _ hmem) hd
            refine ⟨d1, fun e he => ?_, d3⟩
            have he' := mem_mapErase he
            rw [d2] at he'
            exact hq.2.1 e he'
        · rw [if_neg h2] at h
          simp only [Except.ok.injEq] at h
          subst h
          exact hq.ofMap _ (fun e he => hq.2.1 e (mem_mapErase he))
      · rw [if_neg h1] at h
        cases hr : replacement s.insns info with
        | error e => simp [hr] at h
        | ok repl =>
          simp only [hr] at h
          by_cases h3 : repl.reg = var.reg
          · rw [if_pos h3] at h
            simp only [Except.ok.injEq] at h
            subst h
            refine hq.ofMap _ (fun e he => ?_)
            rcases mem_mapUpdate he with he | ⟨e0, he0, _, rfl⟩
            · exact hq.2.1 e he
            · exact hq.2.1 e0 he0
          · rw [if_neg h3] at h
            exact ih s s1 (fun e he => hl e (List.mem_cons_of_mem _ he)) hq h

/-- A candidate that is out of the map for good stays so at every later event. -/
theorem Discarded.next {T : Target} {features : Nat} {liveout : List Nat}
    {bb : List SelectionInstruction} {m : Nat} {ps : List (Nat × Nat)} {pre : List Event}
    {s s1 : SelBasicBlockOptimizer} {ev : Event} (h : Discarded bb m ps s)
    (hm : Event.add m ∈ pre) (hps : ∀ p, p ∈ ps → Event.src p.1 p.2 ∈ pre)
    (hfresh : ev ∉ pre) (hstep : step T features liveout s ev = .ok s1) :
    Discarded bb m ps s1 := by
  cases ev with
  | src idx j =>
    simp only [gbe.step] at hstep
    unfold changeInsideReplaceInfoMap at hstep
    cases hg : getInsn s.insns idx with
    | error e => simp [hg] at hstep
    | ok insn =>
      simp only [hg] at hstep
      cases hs : insn.src j with
      | error e => simp [hs] at hstep
      | ok var =>
        simp only [hs] at hstep
        cases hf : mapFind var.reg s.replaceInfoMap with
        | none =>
          simp only [hf, Except.ok.injEq] at hstep
          exact hstep ▸ h
        | some info =>
          simp only [hf] at hstep
          cases hc : CanBeReplaced T features s.insns info insn var with
          | error e => simp [hc] at hstep
          | ok b =>
            cases b with
            | false =>
              simp only [hc, Except.ok.injEq] at hstep
              subst hstep
              exact h.ofMap _ (fun e he => h.2.1 e (mem_mapErase he))
            | true =>
              simp only [hc, Except.ok.injEq] at hstep
              subst hstep
              refine h.ofMap _ (fun e he => ?_)
              rcases mem_mapUpdate he with he | ⟨e0, he0, _, rfl⟩
              · exact h.2.1 e he
              · refine ⟨(h.2.1 e0 he0).1, fun p hp hin => ?_⟩
                rcases mem_collect hin with hin | rfl
                · exact (h.2.1 e0 he0).2 p hp hin
                · exact hfresh (hps _ hp)
  | dst idx j =>
    simp only [gbe.step] at hstep
    cases hg : getInsn s.insns idx with
    | error e => simp [hg] at hstep
    | ok insn =>
      simp only [hg] at hstep
      cases hd : insn.dst j with
      | error e => simp [hd] at hstep
      | ok var =>
        simp only [hd] at hstep
        exact removeFromReplaceInfoMap_loop_discarded var _ _ _ (fun _ he => he) h hstep
  | add idx =>
    simp only [gbe.step] at hstep
    unfold addToReplaceInfoMap at hstep
    cases hg : getInsn s.insns idx with
    | error e => simp [hg] at hstep
    | ok insn =>
      simp only [hg] at hstep
      by_cases hop : insn.opcode ≠ T.SEL_OP_MOV
      · rw [if_pos hop] at hstep; cases hstep
      rw [if_neg hop] at hstep
      cases hs : insn.src 0 with
      | error e => simp [hs] at hstep
      | ok src =>
        cases hd : insn.dst 0 with
        | error e => simp [hs, hd] at hstep
        | ok dst =>
          simp only [hs, hd] at hstep
          by_cases h1 : src.type ≠ dst.type ∨ src.file ≠ dst.file
          · rw [if_pos h1] at hstep
            cases hstep; exact h
          rw [if_neg h1] at hstep
          by_cases h2 : dst.reg ∈ liveout
          · rw [if_pos h2] at hstep
            cases hstep; exact h
          rw [if_neg h2] at hstep
          cases hc : ReplaceInfo.create T idx insn dst with
          | error e => simp [hc] at hstep
          | ok info =>
            simp only [hc, Except.ok.injEq] at hstep
            subst hstep
            have hinfo : info.insn = idx ∧ info.toBeReplaceds = [] := by
              unfold ReplaceInfo.create at hc
              rw [if_neg hop] at hc
              cases hce : CalculateElements T dst insn.state.execWidth with
              | error e => simp [hce] at hc
              | ok el =>
                simp only [hce, Except.ok.injEq] at hc
                subst hc
                exact ⟨rfl, rfl⟩
            refine h.ofMap _ (fun e he => ?_)
            rcases mem_mapInsert he with rfl | he
            · refine ⟨?_, fun p _ hin => ?_⟩
              · show info.insn ≠ m
                rw [hinfo.1]
                intro hc2
                exact hfresh (hc2 ▸ hm)
              · have hin' : p ∈ info.toBeReplaceds := hin
                rw [hinfo.2] at hin'
                cases hin'
            · exact h.2.1 e he

theorem cleanReplaceInfoMap_loop_discarded {T : Target} {bb : List SelectionInstruction}
    {m : Nat} {ps : List (Nat × Nat)} :
    ∀ (l : List (Nat × ReplaceInfo)) (s s1 : SelBasicBlockOptimizer),
      (∀ e, e ∈ l → e.2.insn ≠ m ∧ ∀ p, p ∈ ps → p ∉ e.2.toBeReplaceds) →
      m ∉ s.erased → (∀ p, p ∈ ps → srcAt s.insns p = srcAt bb p) →
      cleanReplaceInfoMap.loop T l s = .ok s1 →
      m ∉ s1.erased ∧ ∀ p, p ∈ ps → srcAt s1.insns p = srcAt bb p := by
  intro l
  induction l with
  | nil =>
    intro s s1 _ h1 h2 h
    simp only [cleanReplaceInfoMap.loop, Except.ok.injEq] at h
    subst h
    exact ⟨h1, h2⟩
  | cons pair rest ih =>
    intro s s1 hl h1 h2 h
    unfold cleanReplaceInfoMap.loop at h
    cases hd : doReplacement T s pair.2 with
    | error e => simp [hd] at h
    | ok s2 =>
      simp only [hd] at h
      obtain ⟨d1, _, d3⟩ := doReplacement_discarded h1 h2 pair.2
        (hl pair (List.mem_cons_self _ _)) hd
      exact ih s2 s1 (fun e he => hl e (List.mem_cons_of_mem _ he)) d1 d3 h


theorem mapFind_mapErase (k : Nat) :
    ∀ (m : List (Nat × ReplaceInfo)), mapFind k (mapErase k m) = none := by
  intro m
  induction m with
  | nil => rfl
  | cons hd tl ih =>
    obtain ⟨k0, i0⟩ := hd
    unfold mapErase at ih ⊢
    by_cases h : k0 = k
    · simp only [List.filter_cons, h, ne_eq, not_true_eq_false, decide_False]
      exact ih
    · simp only [List.filter_cons, h, ne_eq, not_false_eq_true, decide_True, if_true, mapFind,
        if_false]
      exact ih

theorem cleanReplaceInfoMap_eq_ok {T : Target} {s sfin : SelBasicBlockOptimizer}
    (h : cleanReplaceInfoMap T s = .ok sfin) :
    ∃ s2, cleanReplaceInfoMap.loop T s.replaceInfoMap s = .ok s2 ∧
      sfin = { s2 with replaceInfoMap := [] } := by
  unfold cleanReplaceInfoMap at h
  cases hl : cleanReplaceInfoMap.loop T s.replaceInfoMap s with
  | error e => simp [hl] at h
  | ok s2 =>
    simp only [hl, Except.ok.injEq] at h
    exact ⟨s2, rfl, h.symm⟩

/-- C15: when, at a position of the scan, the source `j` of the instruction `idx` reads the
register of a candidate of the map and `CanBeReplaced` returns `false`, the candidate is
removed from the map by that step, its move is not erased and is in the block that `run`
leaves, and every occurrence that the candidate had collected is, in that block, as it was
in the input. -/
theorem failed_read_discards_candidate (T : Target) (features : Nat) (liveout : List Nat)
    (bb : List SelectionInstruction) (pre post : List Event) (idx j : Nat)
    (s sfin : SelBasicBlockOptimizer) (insn : SelectionInstruction) (var : GenRegister)
    (info : ReplaceInfo)
    (hpos : events T bb = pre ++ Event.src idx j :: post)
    (hpre : runEvents T features liveout pre (initState bb) = .ok s)
    (hinsn : getInsn s.insns idx = .ok insn) (hvar : insn.src j = .ok var)
    (hfind : mapFind var.reg s.replaceInfoMap = some info)
    (hfail : CanBeReplaced T features s.insns info insn var = .ok false)
    (hrun : runState T features liveout bb = .ok sfin) :
    (∃ mov d, bb[info.insn]? = some mov ∧ mov.opcode = T.SEL_OP_MOV ∧ mov.dst 0 = .ok d ∧
      d.reg = var.reg) ∧
    (∃ s1, changeInsideReplaceInfoMap T features s idx j = .ok s1 ∧
      mapFind var.reg s1.replaceInfoMap = none) ∧
    info.insn ∉ sfin.erased ∧
    (∃ mov, sfin.insns[info.insn]? = some mov ∧ mov.opcode = T.SEL_OP_MOV ∧
      mov ∈ insnList sfin.insns sfin.erased) ∧
    ∀ p, p ∈ info.toBeReplaceds → srcAt sfin.insns p = srcAt bb p := by
  have hinv : TInv T liveout bb pre s := reach_tinv hpos hpre
  have hmem := mapFind_mem hfind
  -- the step
  have hstep : changeInsideReplaceInfoMap T features s idx j
      = .ok { s with replaceInfoMap := mapErase var.reg s.replaceInfoMap } := by
    unfold changeInsideReplaceInfoMap
    simp only [hinsn, hvar, hfind, hfail]
  -- the candidate is out of the map for good
  have hq1 : Discarded bb info.insn info.toBeReplaceds
      { s with replaceInfoMap := mapErase var.reg s.replaceInfoMap } := by
    refine ⟨hinv.alive _ hmem, fun e he => ?_, fun p hp => (hinv.collected _ hmem p hp).2.1⟩
    obtain ⟨he1, he2⟩ := mem_mapErase_iff.mp he
    have hne : ((var.reg, info) : Nat × ReplaceInfo) ≠ e := by
      intro hc
      exact he2 (by rw [← hc])
    have hd := distinct_of_mem hinv.distinct hmem he1 hne
    exact ⟨fun hc => hd.1 hc.symm, hd.2⟩
  -- the rest of the scan
  obtain ⟨send, hend, hclean⟩ := (runState_eq_ok_iff T features liveout bb sfin).mp hrun
  rw [hpos] at hend
  obtain ⟨s1, hs1, hpost⟩ := runEvents_split hend hpre
  have hs1' : s1 = { s with replaceInfoMap := mapErase var.reg s.replaceInfoMap } := by
    have : step T features liveout s (Event.src idx j)
        = changeInsideReplaceInfoMap T features s idx j := rfl
    rw [this, hstep] at hs1
    exact (Except.ok.inj hs1).symm
  subst hs1'
  have hfresh : Event.src idx j ∉ pre := by
    have hnd := nodup_events T bb
    rw [hpos] at hnd
    exact fun hm => (List.nodup_append.mp hnd).2.2 hm (List.mem_cons_self _ _)
  have hall : events T bb = (pre ++ [Event.src idx j]) ++ post := by
    rw [hpos, List.append_assoc]; rfl
  have hfin := (runEvents_induction (events T bb)
    (fun pre1 st => Discarded bb info.insn info.toBeReplaceds st ∧
      Event.add info.insn ∈ pre1 ∧ ∀ p, p ∈ info.toBeReplaceds → Event.src p.1 p.2 ∈ pre1)
    (fun pre1 ev rest st st1 _ _ hP hfr hst =>
      ⟨hP.1.next hP.2.1 hP.2.2 hfr hst, List.mem_append_left _ hP.2.1,
        fun p hp => List.mem_append_left _ (hP.2.2 p hp)⟩)
    post (pre ++ [Event.src idx j]) _ send hall (nodup_events T bb)
    (hinv.step hfresh hs1)
    ⟨hq1, List.mem_append_left _ (hinv.created _ hmem),
      fun p hp => List.mem_append_left _ (hinv.collected _ hmem p hp).1⟩ hpost).2.1
  -- the flush
  obtain ⟨s2, hloop, hsfin⟩ := cleanReplaceInfoMap_eq_ok hclean
  obtain ⟨f1, f2⟩ := cleanReplaceInfoMap_loop_discarded _ _ _ hfin.2.1 hfin.1 hfin.2.2 hloop
  have hne : info.insn ∉ sfin.erased := by rw [hsfin]; exact f1
  obtain ⟨mov, d, hb, hop, hd, _⟩ := (hinv.inv.cands _ hmem).1
  obtain ⟨mov0, d0, hb0, hd0, hk0⟩ := hinv.key _ hmem
  have hmov0 : mov0 = mov := by
    rw [hb] at hb0
    exact (Option.some.inj hb0).symm
  subst hmov0
  obtain ⟨mov1, hm1, hfr⟩ := (runState_inv hrun).getElem?_store hb
  refine ⟨⟨mov0, d0, hb, hop, hd0, hk0⟩, ⟨_, hstep, mapFind_mapErase _ _⟩, hne,
    ⟨mov1, hm1, ?_, mem_insnList hm1 hne⟩, fun p hp => ?_⟩
  · simp only [SelectionInstruction.frame, Prod.mk.injEq] at hfr
    rw [hfr.1]
    exact hop
  · rw [hsfin]
    exact f2 p hp

/-- Scenario D of the specification: the mask-ignoring ADD reads `r2`, rule 6 rejects, the
candidate of `MOV r2 <- r1` is removed and the move stays. -/
theorem failed_read_discards_candidate_witness :
    events exampleTarget scenarioD =
      [Event.src 0 0, Event.dst 0 0, Event.add 0] ++
        Event.src 1 0 :: [Event.src 1 1, Event.dst 1 0] ∧
    runEvents exampleTarget 0 [3] [Event.src 0 0, Event.dst 0 0, Event.add 0]
      (initState scenarioD)
      = .ok (pairState (mkInsn 0 [2] [1]) (withNoMask (mkInsn 3 [3] [2, 4])) 2 255 [] false) ∧
    CanBeReplaced exampleTarget 0 scenarioD
      { insn := 0, elements := 255, toBeReplaceds := [], replacementOverwritten := false }
      (withNoMask (mkInsn 3 [3] [2, 4])) (vreg 2) = .ok false ∧
    runState exampleTarget 0 [3] scenarioD = .ok (initState scenarioD) ∧
    ((∃ mov d, scenarioD[0]? = some mov ∧ mov.opcode = exampleTarget.SEL_OP_MOV ∧
        mov.dst 0 = .ok d ∧ d.reg = (vreg 2).reg) ∧
      (∃ s1, changeInsideReplaceInfoMap exampleTarget 0
          (pairState (mkInsn 0 [2] [1]) (withNoMask (mkInsn 3 [3] [2, 4])) 2 255 [] false) 1 0
          = .ok s1 ∧ mapFind (vreg 2).reg s1.replaceInfoMap = none) ∧
      0 ∉ (initState scenarioD).erased ∧
      (∃ mov, (initState scenarioD).insns[0]? = some mov ∧
        mov.opcode = exampleTarget.SEL_OP_MOV ∧
        mov ∈ insnList (initState scenarioD).insns (initState scenarioD).erased) ∧
      ∀ p, p ∈ ([] : List (Nat × Nat)) →
        srcAt (initState scenarioD).insns p = srcAt scenarioD p) :=
  ⟨rfl, rfl, rfl, rfl,
    failed_read_discards_candidate exampleTarget 0 [3] scenarioD
      [Event.src 0 0, Event.dst 0 0, Event.add 0] [Event.src 1 1, Event.dst 1 0] 1 0
      (pairState (mkInsn 0 [2] [1]) (withNoMask (mkInsn 3 [3] [2, 4])) 2 255 [] false)
      (initState scenarioD) (withNoMask (mkInsn 3 [3] [2, 4])) (vreg 2)
      { insn := 0, elements := 255, toBeReplaceds := [], replacementOverwritten := false }
      rfl rfl rfl rfl rfl rfl rfl⟩


/-! ## What an event does to the state -/

/-- What a call of `changeInsideReplaceInfoMap` does to the state. -/
theorem changeInsideReplaceInfoMap_effect {T : Target} {features : Nat}
    {s s1 : SelBasicBlockOptimizer} {idx j : Nat}
    (h : changeInsideReplaceInfoMap T features s idx j = .ok s1) :
    ∃ var, srcAt s.insns (idx, j) = some var ∧
      (s1 = s ∨ s1 = { s with replaceInfoMap := mapErase var.reg s.replaceInfoMap } ∨
        s1 = { s with replaceInfoMap := (mapUpdate var.reg (collect (idx, j)) s.replaceInfoMap) }) := by
  unfold changeInsideReplaceInfoMap at h
  cases hg : getInsn s.insns idx with
  | error e => simp [hg] at h
  | ok insn =>
    simp only [hg] at h
    cases hs : insn.src j with
    | error e => simp [hs] at h
    | ok var =>
      simp only [hs] at h
      refine ⟨var, srcAt_of_getInsn hg hs, ?_⟩
      cases hf : mapFind var.reg s.replaceInfoMap with
      | none =>
        simp only [hf, Except.ok.injEq] at h
        exact Or.inl h.symm
      | some info =>
        simp only [hf] at h
        cases hc : CanBeReplaced T features s.insns info insn var with
        | error e => simp [hc] at h
        | ok b =>
          cases b with
          | false =>
            simp only [hc, Except.ok.injEq] at h
            exact Or.inr (Or.inl h.symm)
          | true =>
            simp only [hc, Except.ok.injEq] at h
            exact Or.inr (Or.inr h.symm)

/-- What a call of `addToReplaceInfoMap` does to the state. -/
theorem addToReplaceInfoMap_effect {T : Target} {liveout : List Nat}
    {s s1 : SelBasicBlockOptimizer} {idx : Nat}
    (h : addToReplaceInfoMap T liveout s idx = .ok s1) :
    s1 = s ∨ ∃ insn src dst info, getInsn s.insns idx = .ok insn ∧
      insn.opcode = T.SEL_OP_MOV ∧ insn.src 0 = .ok src ∧ insn.dst 0 = .ok dst ∧
      src.type = dst.type ∧ src.file = dst.file ∧ dst.reg ∉ liveout ∧
      info.insn = idx ∧ info.toBeReplaceds = [] ∧
      s1 = { s with replaceInfoMap := mapInsert dst.reg info s.replaceInfoMap } := by
  unfold addToReplaceInfoMap at h
  cases hg : getInsn s.insns idx with
  | error e => simp [hg] at h
  | ok insn =>
    simp only [hg] at h
    by_cases hop : insn.opcode ≠ T.SEL_OP_MOV
    · rw [if_pos hop] at h; cases h
    rw [if_neg hop] at h
    cases hs : insn.src 0 with
    | error e => simp [hs] at h
    | ok src =>
      cases hd : insn.dst 0 with
      | error e => simp [hs, hd] at h
      | ok dst =>
        simp only [hs, hd] at h
        by_cases h1 : src.type ≠ dst.type ∨ src.file ≠ dst.file
        · rw [if_pos h1] at h
          cases h; exact Or.inl rfl
        rw [if_neg h1] at h
        by_cases h2 : dst.reg ∈ liveout
        · rw [if_pos h2] at h
          cases h; exact Or.inl rfl
        rw [if_neg h2] at h
        cases hc : ReplaceInfo.create T idx insn dst with
        | error e => simp [hc] at h
        | ok info =>
          simp only [hc, Except.ok.injEq] at h
          have hinfo : info.insn = idx ∧ info.toBeReplaceds = [] := by
            unfold ReplaceInfo.create at hc
            rw [if_neg hop] at hc
            cases hce : CalculateElements T dst insn.state.execWidth with
            | error e => simp [hce] at hc
            | ok el =>
              simp only [hce, Except.ok.injEq] at hc
              subst hc
              exact ⟨rfl, rfl⟩
          have h1' : src.type = dst.type ∧ src.file = dst.file := by
            constructor
            · by_contra hc2; exact h1 (Or.inl hc2)
            · by_contra hc2; exact h1 (Or.inr hc2)
          exact Or.inr ⟨insn, src, dst, info, rfl, not_not.mp hop, hs, hd, h1'.1, h1'.2, h2,
            hinfo.1, hinfo.2, h.symm⟩

/-- What the loop of `removeFromReplaceInfoMap` does to the state. -/
theorem removeFromReplaceInfoMap_loop_effect {T : Target} (var : GenRegister) :
    ∀ (l : List (Nat × ReplaceInfo)) (s s1 : SelBasicBlockOptimizer),
      removeFromReplaceInfoMap.loop T var l s = .ok s1 →
      s1 = s ∨
      (∃ e im, e ∈ l ∧ intermedia s.insns e.2 = .ok im ∧ im.reg = var.reg ∧
        ((∃ s2, doReplacement T s e.2 = .ok s2 ∧
            s1 = { s2 with replaceInfoMap := mapErase e.1 s2.replaceInfoMap }) ∨
          s1 = { s with replaceInfoMap := mapErase e.1 s.replaceInfoMap })) ∨
      (∃ e, e ∈ l ∧
        s1 = { s with replaceInfoMap := mapUpdate e.1 markOverwritten s.replaceInfoMap }) := by
  intro l
  induction l with
  | nil =>
    intro s s1 h
    simp only [removeFromReplaceInfoMap.loop, Except.ok.injEq] at h
    exact Or.inl h.symm
  | cons hd rest ih =>
    intro s s1 h
    obtain ⟨key, info⟩ := hd
    unfold removeFromReplaceInfoMap.loop at h
    cases him : intermedia s.insns info with
    | error e => simp [him] at h
    | ok im =>
      simp only [him] at h
      by_cases h1 : im.reg = var.reg
      · rw [if_pos h1] at h
        right; left
        refine ⟨(key, info), im, List.mem_cons_self _ _, him, h1, ?_⟩
        by_cases h2 : im.quarter = var.quarter ∧ im.subnr = var.subnr
        · rw [if_pos h2] at h
          cases hd : doReplacement T s info with
          | error e => simp [hd] at h
          | ok s2 =>
            simp only [hd, Except.ok.injEq] at h
            exact Or.inl ⟨s2, rfl, h.symm⟩
        · rw [if_neg h2] at h
          simp only [Except.ok.injEq] at h
          exact Or.inr h.symm
      · rw [if_neg h1] at h
        cases hr : replacement s.insns info with
        | error e => simp [hr] at h
        | ok repl =>
          simp only [hr] at h
          by_cases h3 : repl.reg = var.reg
          · rw [if_pos h3] at h
            simp only [Except.ok.injEq] at h
            exact Or.inr (Or.inr ⟨(key, info), List.mem_cons_self _ _, h.symm⟩)
          · rw [if_neg h3] at h
            rcases ih s s1 h with h | ⟨e, im2, he, h⟩ | ⟨e, he, h⟩
            · exact Or.inl h
            · exact Or.inr (Or.inl ⟨e, im2, List.mem_cons_of_mem _ he, h⟩)
            · exact Or.inr (Or.inr ⟨e, List.mem_cons_of_mem _ he, h⟩)

/-- What the event of a destination does to the state. -/
theorem step_dst_effect {T : Target} {features : Nat} {liveout : List Nat}
    {s s1 : SelBasicBlockOptimizer} {idx j : Nat}
    (h : step T features liveout s (Event.dst idx j) = .ok s1) :
    ∃ insn var, s.insns[idx]? = some insn ∧ insn.dst j = .ok var ∧
      (s1 = s ∨
      (∃ e im, e ∈ s.replaceInfoMap ∧ intermedia s.insns e.2 = .ok im ∧ im.reg = var.reg ∧
        ((∃ s2, doReplacement T s e.2 = .ok s2 ∧
            s1 = { s2 with replaceInfoMap := mapErase e.1 s2.replaceInfoMap }) ∨
          s1 = { s with replaceInfoMap := mapErase e.1 s.replaceInfoMap })) ∨
      (∃ e, e ∈ s.replaceInfoMap ∧
        s1 = { s with replaceInfoMap := mapUpdate e.1 markOverwritten s.replaceInfoMap })) := by
  simp only [step] at h
  cases hg : getInsn s.insns idx with
  | error e => simp [hg] at h
  | ok insn =>
    simp only [hg] at h
    cases hd : insn.dst j with
    | error e => simp [hd] at h
    | ok var =>
      simp only [hd] at h
      exact ⟨insn, var, getInsn_eq_ok.mp hg, hd,
        removeFromReplaceInfoMap_loop_effect var _ _ _ h⟩


/-! ## The history of the store and of the candidates -/

theorem pairwise_idx_eventsFrom (T : Target) :
    ∀ (l : List SelectionInstruction) (k : Nat),
      (eventsFrom T k l).Pairwise (fun a b => a.idx ≤ b.idx) := by
  intro l
  induction l with
  | nil => intro k; exact List.Pairwise.nil
  | cons insn rest ih =>
    intro k
    simp only [eventsFrom]
    rw [List.pairwise_append]
    refine ⟨?_, ih (k + 1), ?_⟩
    · rw [List.pairwise_iff_forall_sublist]
      intro a b hab
      have ha := idx_of_mem_eventsOf (hab.subset (List.mem_cons_self _ _))
      have hb := idx_of_mem_eventsOf
        (hab.subset (List.mem_cons_of_mem _ (List.mem_singleton.mpr rfl)))
      omega
    · intro a ha b hb
      have h1 := idx_of_mem_eventsOf ha
      have h2 := le_idx_of_mem_eventsFrom _ _ hb
      omega

/-- The events of a scan come in the order of the instructions. -/
theorem idx_le_of_events {T : Target} {bb : List SelectionInstruction} {pre rest : List Event}
    {ev a : Event} (h : events T bb = pre ++ ev :: rest) (ha : a ∈ pre) : a.idx ≤ ev.idx := by
  have hp := pairwise_idx_eventsFrom T bb 0
  unfold events at h
  rw [h, List.pairwise_append] at hp
  exact hp.2.2 a ha ev (List.mem_cons_self _ _)

theorem frame_dst {a b : SelectionInstruction} (h : a.frame = b.frame) (j : Nat) :
    a.dst j = b.dst j := by
  simp only [SelectionInstruction.frame, Prod.mk.injEq] at h
  unfold SelectionInstruction.dst
  rw [h.2.2.1]

theorem frame_opcode {a b : SelectionInstruction} (h : a.frame = b.frame) :
    a.opcode = b.opcode := by
  simp only [SelectionInstruction.frame, Prod.mk.injEq] at h
  exact h.1

theorem Touched.prolong {bb : List SelectionInstruction} {pre : List Event}
    {s s1 : SelBasicBlockOptimizer} (h : Touched bb pre s) (ev : Event)
    (hs : ∀ p, srcAt s1.insns p = srcAt s.insns p) : Touched bb (pre ++ [ev]) s1 := by
  intro p hne
  rw [hs p] at hne
  obtain ⟨i, j, b, dv, r, h1, h2⟩ := h p hne
  exact ⟨i, j, b, dv, r, List.mem_append_left _ h1, h2⟩

/-- The intermediate of a candidate holds the register of its key. -/
theorem TInv.intermedia_reg {T : Target} {liveout : List Nat} {bb : List SelectionInstruction}
    {pre : List Event} {s : SelBasicBlockOptimizer} (h : TInv T liveout bb pre s)
    {e : Nat × ReplaceInfo} (he : e ∈ s.replaceInfoMap) {im : GenRegister}
    (him : intermedia s.insns e.2 = .ok im) : im.reg = e.1 := by
  obtain ⟨mov, d, hmov, hd, hk⟩ := h.key e he
  unfold intermedia at him
  cases hg : getInsn s.insns e.2.insn with
  | error x => simp [hg] at him
  | ok a =>
    simp only [hg] at him
    obtain ⟨b, hb, hfr⟩ := h.inv.getElem? (getInsn_eq_ok.mp hg)
    rw [hmov] at hb
    cases hb
    rw [frame_dst hfr 0, him] at hd
    cases hd
    exact hk

theorem Hist.advance {T : Target} {features : Nat} {liveout : List Nat}
    {bb : List SelectionInstruction} {pre rest : List Event} {ev : Event}
    {s s1 : SelBasicBlockOptimizer} (hall : events T bb = pre ++ ev :: rest)
    (ht : TInv T liveout bb pre s) (hh : Hist T features liveout bb pre s)
    (hstep : step T features liveout s ev = .ok s1) :
    Hist T features liveout bb (pre ++ [ev]) s1 := by
  obtain ⟨hreach, htouch, hmap, her⟩ := hh
  have hreach1 : runEvents T features liveout (pre ++ [ev]) (initState bb) = .ok s1 :=
    (runEvents_append T features liveout _ _ _ _).mpr
      ⟨s, hreach, by rw [runEvents_singleton]; exact hstep⟩
  refine ⟨hreach1, ?_⟩
  cases ev with
  | src idx j =>
    simp only [gbe.step] at hstep
    obtain ⟨var, _, h | h | h⟩ := changeInsideReplaceInfoMap_effect hstep
    · subst h
      exact ⟨htouch.prolong _ (fun _ => rfl), hmap, her⟩
    · subst h
      exact ⟨htouch.prolong _ (fun _ => rfl), fun e he => hmap e (mem_mapErase he), her⟩
    · subst h
      refine ⟨htouch.prolong _ (fun _ => rfl), fun e he => ?_, her⟩
      rcases mem_mapUpdate he with he | ⟨e0, he0, _, rfl⟩
      · exact hmap e he
      · exact hmap e0 he0
  | add idx =>
    simp only [gbe.step] at hstep
    rcases addToReplaceInfoMap_effect hstep with h | ⟨insn, src, dst, info, hg, hop, hs, hd,
      hty, hfi, hlo, hi1, hi2, h⟩
    · subst h
      exact ⟨htouch.prolong _ (fun _ => rfl), hmap, her⟩
    · subst h
      refine ⟨htouch.prolong _ (fun _ => rfl), fun e he => ?_, her⟩
      rcases mem_mapInsert he with rfl | he
      · obtain ⟨b, hb, hfr⟩ := ht.inv.getElem? (getInsn_eq_ok.mp hg)
        have hbd : b.dst 0 = .ok dst := by rw [frame_dst hfr 0]; exact hd
        have hsrc : srcAt s.insns (idx, 0) = some src := srcAt_of_getInsn hg hs
        show Created T features liveout bb info.insn
        rw [hi1]
        exact ⟨pre, rest, s, b, src, dst, hall, hreach, hb, hsrc, hbd, hty, hfi⟩
      · exact hmap e he
  | dst idx j =>
    obtain ⟨insn, var, hinsn, hvar, h | ⟨e, im, he, him, hreg, h | h⟩ | ⟨e, he, h⟩⟩ :=
      step_dst_effect hstep
    · subst h
      exact ⟨htouch.prolong _ (fun _ => rfl), hmap, her⟩
    · obtain ⟨s2, hdo, h⟩ := h
      subst h
      obtain ⟨hm2, he2, _, _⟩ := doReplacement_spec T s s2 e.2 hdo
      have hsrc := doReplacement_srcAt T s s2 e.2 hdo
      refine ⟨?_, ?_, ?_⟩
      · intro p hne
        by_cases hp : p ∈ e.2.toBeReplaceds
        · obtain ⟨hpe, _, r, hr, hrk⟩ := ht.collected e he p hp
          obtain ⟨b, hb, hfr⟩ := ht.inv.getElem? hinsn
          have hle := idx_le_of_events hall hpe
          simp only [Event.idx] at hle
          refine ⟨idx, j, b, var, r, List.mem_append_right _ (List.mem_singleton.mpr rfl), hle,
            hb, by rw [frame_dst hfr j]; exact hvar, hr, ?_⟩
          rw [← hreg, ht.intermedia_reg he him, hrk]
        · have hq : srcAt s2.insns p = srcAt s.insns p := hsrc p hp
          have hne2 : srcAt s.insns p ≠ srcAt bb p := by rw [← hq]; exact hne
          obtain ⟨i, k, b, dv, r, h1, h2⟩ := htouch p hne2
          exact ⟨i, k, b, dv, r, List.mem_append_left _ h1, h2⟩
      · intro e1 he1
        have he1' := mem_mapErase he1
        rw [hm2] at he1'
        exact hmap e1 he1'
      · intro i hi
        have hi' : i ∈ e.2.insn :: s.erased := he2 ▸ hi
        rcases List.mem_cons.mp hi' with rfl | hi'
        · exact hmap e he
        · exact her i hi'
    · subst h
      exact ⟨htouch.prolong _ (fun _ => rfl), fun e1 he1 => hmap e1 (mem_mapErase he1), her⟩
    · subst h
      refine ⟨htouch.prolong _ (fun _ => rfl), fun e1 he1 => ?_, her⟩
      rcases mem_mapUpdate he1 with he1 | ⟨e0, he0, _, rfl⟩
      · exact hmap e1 he1
      · exact hmap e0 he0

/-- The invariants of the scan hold after the prefix `pre` of the events of the block. -/
theorem reach_hist {T : Target} {features : Nat} {liveout : List Nat}
    {bb : List SelectionInstruction} {pre post : List Event} {s : SelBasicBlockOptimizer}
    (hpos : events T bb = pre ++ post)
    (hrun : runEvents T features liveout pre (initState bb) = .ok s) :
    TInv T liveout bb pre s ∧ Hist T features liveout bb pre s := by
  have hnd : pre.Nodup := by
    have := nodup_events T bb
    rw [hpos] at this
    exact (List.nodup_append.mp this).1
  refine @runEvents_induction T features liveout bb pre
    (fun p st => Hist T features liveout bb p st) ?_ pre [] (initState bb) s rfl hnd
    (TInv.initial T liveout bb) ?_ hrun
  · intro p ev rest st st1 hsplit ht hh _ hst
    have hall : events T bb = p ++ ev :: (rest ++ post) := by
      rw [hpos, hsplit]; simp
    exact Hist.advance hall ht hh hst
  · refine ⟨rfl, ?_, ?_, ?_⟩
    · intro p hne; exact absurd rfl hne
    · intro e he; cases he
    · intro i hi; cases hi

/-- A source that is rewritten before the end of its own instruction belongs to an
instruction that writes the register that the source reads. -/
theorem Touched.own_source {T : Target} {bb : List SelectionInstruction}
    {pre post : List Event} {s : SelBasicBlockOptimizer} {m : Nat} {mov : SelectionInstruction}
    (hall : events T bb = pre ++ Event.add m :: post) (ht : Touched bb pre s)
    (hmov : bb[m]? = some mov) (hself : ¬ WritesOwnSource mov) :
    srcAt s.insns (m, 0) = srcAt bb (m, 0) := by
  by_contra hne
  obtain ⟨i, k, b2, dv, r, hmem, hle, hb2, hdv, hr, hreg⟩ := ht (m, 0) hne
  have hle2 := idx_le_of_events hall hmem
  simp only [Event.idx] at hle2
  simp only at hle
  have hii : i = m := Nat.le_antisymm hle2 hle
  subst hii
  rw [hmov] at hb2
  cases hb2
  obtain ⟨b3, hb3, hr3⟩ := srcAt_eq_some_iff.mp hr
  simp only at hb3 hr3
  rw [hmov] at hb3
  cases hb3
  exact hself ⟨r, dv, SelectionInstruction.src_eq_ok.mpr hr3,
    List.mem_iff_getElem?.mpr ⟨k, SelectionInstruction.dst_eq_ok.mp hdv⟩, hreg⟩

theorem srcAt_setSrc_self (insns : List SelectionInstruction) (p : Nat × Nat)
    (r r0 : GenRegister) (h : srcAt insns p = some r0) : srcAt (setSrc insns p r) p = some r := by
  obtain ⟨insn, hi, hr⟩ := srcAt_eq_some_iff.mp h
  unfold srcAt
  rw [getElem?_setSrc, hi]
  simp only [Option.map_some', if_true]
  have hlt : p.2 < insn.srcRegs.length := by
    by_contra hc
    rw [List.getElem?_eq_none (Nat.le_of_not_lt hc)] at hr
    cases hr
  simp [List.getElem?_set, hlt]

theorem doReplacement_loop_kept {T : Target} (hk : KeepsTypeAndFile T) (info : ReplaceInfo) :
    ∀ (ps : List (Nat × Nat)) (insns insns1 : List SelectionInstruction),
      doReplacement.loop T info ps insns = .ok insns1 →
      ∀ q r, srcAt insns q = some r →
        ∃ r1, srcAt insns1 q = some r1 ∧ r1.type = r.type ∧ r1.file = r.file := by
  intro ps
  induction ps with
  | nil =>
    intro insns insns1 h q r hq
    simp only [doReplacement.loop, Except.ok.injEq] at h
    subst h
    exact ⟨r, hq, rfl, rfl⟩
  | cons p rest ih =>
    intro insns insns1 h q r hq
    unfold doReplacement.loop at h
    cases hg : getInsn insns p.1 with
    | error e => simp [hg] at h
    | ok insn =>
      simp only [hg] at h
      cases hs : insn.src p.2 with
      | error e => simp [hs] at h
      | ok reg =>
        cases hr : replacement insns info with
        | error e => simp [hs, hr] at h
        | ok repl =>
          simp only [hs, hr] at h
          have hp : srcAt insns p = some reg := srcAt_of_getInsn hg hs
          by_cases hqp : q = p
          · subst hqp
            rw [hp] at hq
            cases hq
            obtain ⟨r1, h1, h2, h3⟩ := ih _ _ h q (T.propagateRegister r repl)
              (srcAt_setSrc_self insns q _ r hp)
            exact ⟨r1, h1, by rw [h2, (hk r repl).1], by rw [h3, (hk r repl).2]⟩
          · exact ih _ _ h q r (by rw [srcAt_setSrc_of_ne insns p q _ hqp]; exact hq)

theorem step_kept {T : Target} {features : Nat} {liveout : List Nat} (hk : KeepsTypeAndFile T)
    {s s1 : SelBasicBlockOptimizer} {ev : Event} (h : step T features liveout s ev = .ok s1) :
    ∀ q r, srcAt s.insns q = some r →
      ∃ r1, srcAt s1.insns q = some r1 ∧ r1.type = r.type ∧ r1.file = r.file := by
  intro q r hq
  cases ev with
  | src idx j =>
    simp only [gbe.step] at h
    obtain ⟨var, _, h | h | h⟩ := changeInsideReplaceInfoMap_effect h <;> subst h <;>
      exact ⟨r, hq, rfl, rfl⟩
  | add idx =>
    simp only [gbe.step] at h
    rcases addToReplaceInfoMap_effect h with h | ⟨_, _, _, _, _, _, _, _, _, _, _, _, _, h⟩ <;>
      subst h <;> exact ⟨r, hq, rfl, rfl⟩
  | dst idx j =>
    obtain ⟨insn, var, _, _, h | ⟨e, im, _, _, _, h | h⟩ | ⟨e, _, h⟩⟩ := step_dst_effect h
    · subst h; exact ⟨r, hq, rfl, rfl⟩
    · obtain ⟨s2, hdo, h⟩ := h
      subst h
      unfold doReplacement at hdo
      cases hl : doReplacement.loop T e.2 e.2.toBeReplaceds s.insns with
      | error x => simp [hl] at hdo
      | ok insns1 =>
        simp only [hl, Except.ok.injEq] at hdo
        subst hdo
        exact doReplacement_loop_kept hk e.2 _ _ _ hl q r hq
    · subst h; exact ⟨r, hq, rfl, rfl⟩
    · subst h; exact ⟨r, hq, rfl, rfl⟩

theorem runEvents_kept {T : Target} {features : Nat} {liveout : List Nat}
    (hk : KeepsTypeAndFile T) :
    ∀ (evs : List Event) (s s1 : SelBasicBlockOptimizer),
      runEvents T features liveout evs s = .ok s1 →
      ∀ q r, srcAt s.insns q = some r →
        ∃ r1, srcAt s1.insns q = some r1 ∧ r1.type = r.type ∧ r1.file = r.file := by
  intro evs
  induction evs with
  | nil =>
    intro s s1 h q r hq
    simp only [runEvents, Except.ok.injEq] at h
    subst h
    exact ⟨r, hq, rfl, rfl⟩
  | cons ev rest ih =>
    intro s s1 h q r hq
    have h2 : runEvents T features liveout ([ev] ++ rest) s = .ok s1 := h
    rw [runEvents_append] at h2
    obtain ⟨s2, hs2, hrest⟩ := h2
    rw [runEvents_singleton] at hs2
    obtain ⟨r1, h1, h2, h3⟩ := step_kept hk hs2 q r hq
    obtain ⟨r2, g1, g2, g3⟩ := ih s2 s1 hrest q r1 h1
    exact ⟨r2, g1, by rw [g2, h2], by rw [g3, h3]⟩

/-- The source 0 that the store holds when the scan reaches the end of the instruction `m` has
the type and the register file of the source 0 of the block, when redirections keep both or
the instruction does not write the register that its source reads. -/
theorem source_at_creation {T : Target} {features : Nat} {liveout : List Nat}
    {bb : List SelectionInstruction} {pre post : List Event} {s : SelBasicBlockOptimizer}
    {m : Nat} {mov : SelectionInstruction} {src : GenRegister}
    (hall : events T bb = pre ++ Event.add m :: post)
    (hrun : runEvents T features liveout pre (initState bb) = .ok s)
    (hmov : bb[m]? = some mov) (hsrc : mov.src 0 = .ok src)
    (hprop : KeepsTypeAndFile T ∨ ¬ WritesOwnSource mov) :
    ∃ src1, srcAt s.insns (m, 0) = some src1 ∧ src1.type = src.type ∧ src1.file = src.file := by
  have hbb : srcAt bb (m, 0) = some src :=
    srcAt_eq_some_iff.mpr ⟨mov, hmov, SelectionInstruction.src_eq_ok.mp hsrc⟩
  rcases hprop with hk | hself
  · exact runEvents_kept hk pre (initState bb) s hrun (m, 0) src hbb
  · obtain ⟨_, hh⟩ := @reach_hist T features liveout bb pre (Event.add m :: post) s hall hrun
    refine ⟨src, ?_, rfl, rfl⟩
    rw [Touched.own_source hall hh.2.1 hmov hself, hbb]

/-- The flush erases the moves of the candidates left, and nothing else. -/
theorem cleanReplaceInfoMap_loop_erased {T : Target} :
    ∀ (l : List (Nat × ReplaceInfo)) (s s1 : SelBasicBlockOptimizer),
      cleanReplaceInfoMap.loop T l s = .ok s1 →
      ∀ i, i ∈ s1.erased ↔ i ∈ s.erased ∨ ∃ e, e ∈ l ∧ e.2.insn = i := by
  intro l
  induction l with
  | nil =>
    intro s s1 h i
    simp only [cleanReplaceInfoMap.loop, Except.ok.injEq] at h
    subst h
    simp
  | cons pair rest ih =>
    intro s s1 h i
    unfold cleanReplaceInfoMap.loop at h
    cases hd : doReplacement T s pair.2 with
    | error e => simp [hd] at h
    | ok s2 =>
      simp only [hd] at h
      obtain ⟨_, he2, _, _⟩ := doReplacement_spec T s s2 pair.2 hd
      rw [ih s2 s1 h i, he2]
      simp only [List.mem_cons]
      constructor
      · rintro ((rfl | h1) | ⟨e, he, rfl⟩)
        · exact Or.inr ⟨pair, Or.inl rfl, rfl⟩
        · exact Or.inl h1
        · exact Or.inr ⟨e, Or.inr he, rfl⟩
      · rintro (h1 | ⟨e, rfl | he, rfl⟩)
        · exact Or.inl (Or.inr h1)
        · exact Or.inl (Or.inl rfl)
        · exact Or.inr ⟨e, he, rfl⟩


/-! ## What the pass removes -/

theorem frame_src_isSome {a b : SelectionInstruction} (h : a.frame = b.frame) {j : Nat}
    {r : GenRegister} (hr : a.srcRegs[j]? = some r) : ∃ r1, b.src j = .ok r1 := by
  simp only [SelectionInstruction.frame, Prod.mk.injEq, SelectionInstruction.srcNum] at h
  have hlt : j < b.srcRegs.length := by
    rw [← h.2.2.2.1]
    by_contra hc
    rw [List.getElem?_eq_none (Nat.le_of_not_lt hc)] at hr
    cases hr
  exact ⟨b.srcRegs[j], SelectionInstruction.src_eq_ok.mpr (List.getElem?_eq_getElem hlt)⟩

/-- Every erased instruction of a run was entered as a candidate. -/
theorem runState_created {T : Target} {features : Nat} {liveout : List Nat}
    {bb : List SelectionInstruction} {sfin : SelBasicBlockOptimizer}
    (hrun : runState T features liveout bb = .ok sfin) :
    ∀ i, i ∈ sfin.erased → Created T features liveout bb i := by
  obtain ⟨s1, hev, hclean⟩ := (runState_eq_ok_iff T features liveout bb sfin).mp hrun
  obtain ⟨_, hh⟩ := @reach_hist T features liveout bb (events T bb) [] s1 (by simp) hev
  obtain ⟨s2, hloop, hfin⟩ := cleanReplaceInfoMap_eq_ok hclean
  intro i hi
  have hi2 : i ∈ s2.erased := by rw [hfin] at hi; exact hi
  rcases (cleanReplaceInfoMap_loop_erased _ _ _ hloop i).mp hi2 with h | ⟨e, he, rfl⟩
  · exact hh.2.2.2 i h
  · exact hh.2.2.1 e he

/-- C18: every instruction that a run erases from the block `bb` is a MOV of `bb` (no
instruction of another opcode is erased) whose destination is not live out and whose source 0
and destination 0 had the same type and the same register file when the scan entered it as a
candidate; the source 0 of `bb` itself has the type and the register file of the destination
when redirections keep the type and the register file of an occurrence, or when the MOV does
not write the register that it reads. -/
theorem run_erases_typed_moves (T : Target) (features : Nat) (liveout : List Nat)
    (bb : List SelectionInstruction) (sfin : SelBasicBlockOptimizer) (i : Nat)
    (hrun : runState T features liveout bb = .ok sfin) (hi : i ∈ sfin.erased) :
    ∃ mov src dst, bb[i]? = some mov ∧ mov.opcode = T.SEL_OP_MOV ∧ mov.src 0 = .ok src ∧
      mov.dst 0 = .ok dst ∧ dst.reg ∉ liveout ∧
      (∃ pre post s src1, events T bb = pre ++ Event.add i :: post ∧
        runEvents T features liveout pre (initState bb) = .ok s ∧
        srcAt s.insns (i, 0) = some src1 ∧ src1.type = dst.type ∧ src1.file = dst.file) ∧
      (KeepsTypeAndFile T ∨ ¬ WritesOwnSource mov →
        src.type = dst.type ∧ src.file = dst.file) := by
  obtain ⟨pre, post, s, mov, src1, dst, hall, hpre, hmov, hs1, hdst, hty, hfi⟩ :=
    runState_created hrun i hi
  obtain ⟨mov2, d2, hmov2, hop, hd2, hlo⟩ := (runState_inv hrun).erased i hi
  rw [hmov] at hmov2
  cases hmov2
  rw [hdst] at hd2
  cases hd2
  have ht := @reach_tinv T features liveout bb pre (Event.add i :: post) s hall hpre
  obtain ⟨a, ha, hra⟩ := srcAt_eq_some_iff.mp hs1
  simp only at ha hra
  obtain ⟨b, hb, hfr⟩ := ht.inv.getElem? ha
  rw [hmov] at hb
  cases hb
  obtain ⟨src, hsrc⟩ := frame_src_isSome hfr.symm hra
  refine ⟨mov, src, dst, hmov, hop, hsrc, hdst, hlo,
    ⟨pre, post, s, src1, hall, hpre, hs1, hty, hfi⟩, fun hprop => ?_⟩
  obtain ⟨src2, h1, h2, h3⟩ := source_at_creation hall hpre hmov hsrc hprop
  rw [hs1] at h1
  cases h1
  exact ⟨by rw [← h2, hty], by rw [← h3, hfi]⟩

/-- Scenario A of the specification: the erased instruction is the move `MOV r2 <- r1`. -/
theorem run_erases_typed_moves_witness :
    runState exampleTarget 0 [3] scenarioA
      = .ok { insns := [mkInsn 0 [2] [1], mkInsn 3 [3] [1, 4]], erased := [0],
              replaceInfoMap := [], optimized := true } ∧
    ∃ mov src dst, scenarioA[0]? = some mov ∧ mov.opcode = exampleTarget.SEL_OP_MOV ∧
      mov.src 0 = .ok src ∧ mov.dst 0 = .ok dst ∧ dst.reg ∉ [3] ∧
      (∃ pre post s src1, events exampleTarget scenarioA = pre ++ Event.add 0 :: post ∧
        runEvents exampleTarget 0 [3] pre (initState scenarioA) = .ok s ∧
        srcAt s.insns (0, 0) = some src1 ∧ src1.type = dst.type ∧ src1.file = dst.file) ∧
      (KeepsTypeAndFile exampleTarget ∨ ¬ WritesOwnSource mov →
        src.type = dst.type ∧ src.file = dst.file) :=
  ⟨rfl, run_erases_typed_moves exampleTarget 0 [3] scenarioA
    { insns := [mkInsn 0 [2] [1], mkInsn 3 [3] [1, 4]], erased := [0],
      replaceInfoMap := [], optimized := true } 0 rfl (List.mem_singleton.mpr rfl)⟩


/-! ## Dead moves -/

theorem mem_mapInsert_self (k : Nat) (info : ReplaceInfo) :
    ∀ (m : List (Nat × ReplaceInfo)), (k, info) ∈ mapInsert k info m := by
  intro m
  induction m with
  | nil => simp [mapInsert]
  | cons hd tl ih =>
    obtain ⟨k1, i1⟩ := hd
    simp only [mapInsert]
    by_cases h1 : k < k1
    · rw [if_pos h1]; exact List.mem_cons_self _ _
    · rw [if_neg h1]
      by_cases h2 : k = k1
      · rw [if_pos h2]; exact List.mem_cons_self _ _
      · rw [if_neg h2]; exact List.mem_cons_of_mem _ ih

theorem mem_mapInsert_of_ne {e : Nat × ReplaceInfo} {k : Nat} (info : ReplaceInfo)
    (hne : e.1 ≠ k) : ∀ {m : List (Nat × ReplaceInfo)}, e ∈ m → e ∈ mapInsert k info m := by
  intro m
  induction m with
  | nil => intro h; cases h
  | cons hd tl ih =>
    intro h
    obtain ⟨k1, i1⟩ := hd
    simp only [mapInsert]
    by_cases h1 : k < k1
    · rw [if_pos h1]; exact List.mem_cons_of_mem _ h
    · rw [if_neg h1]
      by_cases h2 : k = k1
      · rw [if_pos h2]
        rcases List.mem_cons.mp h with rfl | h
        · exact absurd h2.symm hne
        · exact List.mem_cons_of_mem _ h
      · rw [if_neg h2]
        rcases List.mem_cons.mp h with rfl | h
        · exact List.mem_cons_self _ _
        · exact List.mem_cons_of_mem _ (ih h)

theorem mem_mapUpdate_of_mem {k key : Nat} {info : ReplaceInfo} (f : ReplaceInfo → ReplaceInfo)
    {m : List (Nat × ReplaceInfo)} (h : (k, info) ∈ m) :
    (k, info) ∈ mapUpdate key f m ∨ (k, f info) ∈ mapUpdate key f m := by
  unfold mapUpdate
  by_cases hk : k = key
  · right
    exact List.mem_map.mpr ⟨(k, info), h, by simp [hk]⟩
  · left
    exact List.mem_map.mpr ⟨(k, info), h, by simp [hk]⟩

theorem mem_mapUpdate_of_ne {k key : Nat} {info : ReplaceInfo} (f : ReplaceInfo → ReplaceInfo)
    {m : List (Nat × ReplaceInfo)} (h : (k, info) ∈ m) (hk : k ≠ key) :
    (k, info) ∈ mapUpdate key f m := by
  unfold mapUpdate
  exact List.mem_map.mpr ⟨(k, info), h, by simp [hk]⟩

/-- A move whose source and destination agree and whose destination is not live out is entered
into the map. -/
theorem addToReplaceInfoMap_creates {T : Target} {liveout : List Nat}
    {s s1 : SelBasicBlockOptimizer} {idx : Nat} {insn : SelectionInstruction}
    {src dst : GenRegister} (hg : getInsn s.insns idx = .ok insn)
    (hop : insn.opcode = T.SEL_OP_MOV) (hs : insn.src 0 = .ok src) (hd : insn.dst 0 = .ok dst)
    (hty : src.type = dst.type) (hfi : src.file = dst.file) (hlo : dst.reg ∉ liveout)
    (h : addToReplaceInfoMap T liveout s idx = .ok s1) : Pending dst.reg idx s1 := by
  unfold addToReplaceInfoMap at h
  simp only [hg] at h
  rw [if_neg (not_not.mpr hop)] at h
  simp only [hs, hd] at h
  rw [if_neg (by rw [hty, hfi]; simp), if_neg hlo] at h
  cases hc : ReplaceInfo.create T idx insn dst with
  | error e => simp [hc] at h
  | ok info =>
    simp only [hc, Except.ok.injEq] at h
    subst h
    unfold ReplaceInfo.create at hc
    rw [if_neg (not_not.mpr hop)] at hc
    cases hce : CalculateElements T dst insn.state.execWidth with
    | error e => simp [hce] at hc
    | ok el =>
      simp only [hce, Except.ok.injEq] at hc
      subst hc
      exact ⟨_, mem_mapInsert_self _ _ _, rfl, rfl⟩

/-- A candidate that collected nothing stays in the map, with nothing collected, through an
event that neither reads nor writes its key. -/
theorem Pending.persist {T : Target} {features : Nat} {liveout : List Nat}
    {bb : List SelectionInstruction} {pre : List Event} {s s1 : SelBasicBlockOptimizer}
    {ev : Event} {key m : Nat} {insn : SelectionInstruction}
    (ht : TInv T liveout bb pre s) (hfresh : ev ∉ pre) (hp : Pending key m s)
    (hinsn : bb[ev.idx]? = some insn)
    (hsrcs : ∀ r, r ∈ insn.srcRegs → r.reg ≠ key) (hdsts : ∀ r, r ∈ insn.dstRegs → r.reg ≠ key)
    (hstep : step T features liveout s ev = .ok s1) : Pending key m s1 := by
  obtain ⟨info, hmem, hi1, hi2⟩ := hp
  cases ev with
  | src idx j =>
    simp only [Event.idx] at hinsn
    simp only [gbe.step] at hstep
    obtain ⟨var, hvar, h⟩ := changeInsideReplaceInfoMap_effect hstep
    rw [ht.unscanned idx j hfresh] at hvar
    obtain ⟨b, hb, hr⟩ := srcAt_eq_some_iff.mp hvar
    simp only at hb hr
    rw [hinsn] at hb
    cases hb
    have hne : key ≠ var.reg := fun hc =>
      hsrcs var (List.mem_iff_getElem?.mpr ⟨j, hr⟩) hc.symm
    rcases h with h | h | h
    · subst h; exact ⟨info, hmem, hi1, hi2⟩
    · subst h; exact ⟨info, mem_mapErase_iff.mpr ⟨hmem, hne⟩, hi1, hi2⟩
    · subst h; exact ⟨info, mem_mapUpdate_of_ne _ hmem hne, hi1, hi2⟩
  | add idx =>
    simp only [Event.idx] at hinsn
    simp only [gbe.step] at hstep
    rcases addToReplaceInfoMap_effect hstep with h | ⟨a, src, dst, info2, hg, _, _, hd,
      _, _, _, _, _, h⟩
    · subst h; exact ⟨info, hmem, hi1, hi2⟩
    · subst h
      obtain ⟨b, hb, hfr⟩ := ht.inv.getElem? (getInsn_eq_ok.mp hg)
      rw [hinsn] at hb
      cases hb
      have hbd : insn.dst 0 = .ok dst := by rw [frame_dst hfr 0]; exact hd
      have hne : key ≠ dst.reg := fun hc =>
        hdsts dst (List.mem_iff_getElem?.mpr ⟨0, SelectionInstruction.dst_eq_ok.mp hbd⟩) hc.symm
      exact ⟨info, mem_mapInsert_of_ne info2 hne hmem, hi1, hi2⟩
  | dst idx j =>
    simp only [Event.idx] at hinsn
    obtain ⟨a, var, ha, hvar, h⟩ := step_dst_effect hstep
    obtain ⟨b, hb, hfr⟩ := ht.inv.getElem? ha
    rw [hinsn] at hb
    cases hb
    have hbd : insn.dst j = .ok var := by rw [frame_dst hfr j]; exact hvar
    have hne : key ≠ var.reg := fun hc =>
      hdsts var (List.mem_iff_getElem?.mpr ⟨j, SelectionInstruction.dst_eq_ok.mp hbd⟩) hc.symm
    rcases h with h | ⟨e, im, he, him, hreg, h | h⟩ | ⟨e, he, h⟩
    · subst h; exact ⟨info, hmem, hi1, hi2⟩
    · obtain ⟨s2, hdo, h⟩ := h
      subst h
      obtain ⟨hm2, _, _, _⟩ := doReplacement_spec T s s2 e.2 hdo
      have hk : key ≠ e.1 := by rw [← ht.intermedia_reg he him, hreg]; exact hne
      exact ⟨info, mem_mapErase_iff.mpr ⟨by rw [hm2]; exact hmem, hk⟩, hi1, hi2⟩
    · subst h
      have hk : key ≠ e.1 := by rw [← ht.intermedia_reg he him, hreg]; exact hne
      exact ⟨info, mem_mapErase_iff.mpr ⟨hmem, hk⟩, hi1, hi2⟩
    · subst h
      rcases mem_mapUpdate_of_mem markOverwritten hmem with h | h
      · exact ⟨info, h, hi1, hi2⟩
      · exact ⟨markOverwritten info, h, hi1, hi2⟩

theorem mem_eventsFrom {T : Target} {ev : Event} :
    ∀ (l : List SelectionInstruction) (k : Nat), ev ∈ eventsFrom T k l →
      ∃ i insn, l[i]? = some insn ∧ ev.idx = k + i := by
  intro l
  induction l with
  | nil => intro k h; cases h
  | cons insn rest ih =>
    intro k h
    simp only [eventsFrom, List.mem_append] at h
    rcases h with h | h
    · exact ⟨0, insn, by simp, idx_of_mem_eventsOf h⟩
    · obtain ⟨i, a, ha, hi⟩ := ih (k + 1) h
      exact ⟨i + 1, a, by simpa using ha, by omega⟩

/-- The events of a block around the entry of the move at position `m`. -/
theorem events_at_move {T : Target} {bb : List SelectionInstruction} {m : Nat}
    {mov : SelectionInstruction} (hmov : bb[m]? = some mov) (hop : mov.opcode = T.SEL_OP_MOV) :
    ∃ A B, events T bb = A ++ Event.add m :: B ∧
      ∀ ev, ev ∈ B → m < ev.idx ∧ ∃ insn, bb[ev.idx]? = some insn := by
  refine ⟨eventsFrom T 0 (bb.take m) ++ ((List.range mov.srcNum).map (Event.src m) ++
      (List.range mov.dstNum).map (Event.dst m)),
    eventsFrom T (m + 1) (bb.drop (m + 1)), ?_, ?_⟩
  · rw [events_split T bb m mov hmov]
    unfold eventsOf
    rw [if_pos hop]
    simp only [List.append_assoc, List.singleton_append]
  · intro ev hev
    obtain ⟨i, insn, hi, hidx⟩ := mem_eventsFrom _ _ hev
    rw [List.getElem?_drop] at hi
    exact ⟨by omega, insn, by rw [hidx]; exact hi⟩

/-- C19 (counterexample): with a redirection that hands over the register file of the
replacement, in `MOV r2 <- r1; MOV r2 <- r2` the second move has a source and a destination of
the same type and register file, its destination is not live out and no instruction follows
it.  Its read of `r2` is collected by the candidate of the first move, its write of `r2`
applies that candidate, and its source is then `r1` in the other register file: it is not
entered into the map, the flush finds nothing and the move stays. -/
theorem run_erases_dead_move_counterexample :
    (∃ mov src dst, selfMove[1]? = some mov ∧ mov.opcode = fileTarget.SEL_OP_MOV ∧
      mov.src 0 = .ok src ∧ mov.dst 0 = .ok dst ∧ src.type = dst.type ∧
      src.file = dst.file ∧ dst.reg ∉ ([] : List Nat) ∧
      ∀ k insn, 1 < k → selfMove[k]? = some insn →
        ∀ r, r ∈ insn.srcRegs ++ insn.dstRegs → r.reg ≠ dst.reg) ∧
    runState fileTarget 0 [] selfMove
      = .ok { insns := [mkInsn 0 [2] [1],
                        { mkInsn 0 [] [1] with dstRegs := [{ vreg 2 with file := 1 }] }],
              erased := [0], replaceInfoMap := [], optimized := true } ∧
    run fileTarget 0 [] selfMove
      = .ok [{ mkInsn 0 [] [1] with dstRegs := [{ vreg 2 with file := 1 }] }] ∧
    ¬ (∀ sfin, runState fileTarget 0 [] selfMove = .ok sfin → 1 ∈ sfin.erased) := by
  refine ⟨⟨_, _, _, rfl, rfl, rfl, rfl, rfl, rfl, by decide, ?_⟩, rfl, rfl, fun h => ?_⟩
  · intro k insn hk hins
    rcases k with _ | _ | k
    · omega
    · omega
    · simp [selfMove] at hins
  · have h1 : 1 ∈ [0] := h
      { insns := [mkInsn 0 [2] [1],
                  { mkInsn 0 [] [1] with dstRegs := [{ vreg 2 with file := 1 }] }],
        erased := [0], replaceInfoMap := [], optimized := true } rfl
    simp at h1

/-- C19 (amended): a MOV of the block `bb` whose source 0 and destination 0 have the same
type and register file, whose destination register is not live out and is neither read nor
written by a later instruction of `bb`, and which does not write the register that it reads
(or in a target whose redirections keep the type and the register file of an occurrence), is
erased by the run, at the flush that ends the scan: when the scan is over the move is not
erased yet and its candidate, which collected no occurrence, is in the map, overwritten
replacement or not; the flush erases it. -/
theorem run_erases_dead_move (T : Target) (features : Nat) (liveout : List Nat)
    (bb : List SelectionInstruction) (sfin : SelBasicBlockOptimizer) (m : Nat)
    (mov : SelectionInstruction) (src dst : GenRegister)
    (hmov : bb[m]? = some mov) (hop : mov.opcode = T.SEL_OP_MOV)
    (hsrc : mov.src 0 = .ok src) (hdst : mov.dst 0 = .ok dst)
    (hty : src.type = dst.type) (hfi : src.file = dst.file) (hlo : dst.reg ∉ liveout)
    (hlater : ∀ k insn, m < k → bb[k]? = some insn →
      ∀ r, r ∈ insn.srcRegs ++ insn.dstRegs → r.reg ≠ dst.reg)
    (hprop : KeepsTypeAndFile T ∨ ¬ WritesOwnSource mov)
    (hrun : runState T features liveout bb = .ok sfin) :
    m ∈ sfin.erased ∧
    ∃ s1, runEvents T features liveout (events T bb) (initState bb) = .ok s1 ∧
      cleanReplaceInfoMap T s1 = .ok sfin ∧ m ∉ s1.erased ∧
      ∃ info, (dst.reg, info) ∈ s1.replaceInfoMap ∧ info.insn = m ∧
        info.toBeReplaceds = [] := by
  obtain ⟨s1, hev, hclean⟩ := (runState_eq_ok_iff T features liveout bb sfin).mp hrun
  obtain ⟨A, B, hall, hB⟩ := @events_at_move T bb m mov hmov hop
  have hev2 := hev
  rw [hall, runEvents_append] at hev2
  obtain ⟨sA, hA, hrest⟩ := hev2
  have hrest2 : runEvents T features liveout ([Event.add m] ++ B) sA = .ok s1 := hrest
  rw [runEvents_append] at hrest2
  obtain ⟨sC, hC, hBrun⟩ := hrest2
  rw [runEvents_singleton] at hC
  have htA := @reach_tinv T features liveout bb A (Event.add m :: B) sA hall hA
  have hnd := nodup_events T bb
  have hfreshA : Event.add m ∉ A := by
    intro hc
    rw [hall] at hnd
    exact (List.nodup_append.mp hnd).2.2 hc (List.mem_cons_self _ _)
  have htC := htA.step hfreshA hC
  -- the candidate is created
  obtain ⟨src1, hs1, h1t, h1f⟩ := source_at_creation hall hA hmov hsrc hprop
  obtain ⟨a, ha, hra⟩ := srcAt_eq_some_iff.mp hs1
  simp only at ha hra
  obtain ⟨b, hb, hfr⟩ := htA.inv.getElem? ha
  rw [hmov] at hb
  cases hb
  have hpC : Pending dst.reg m sC := by
    simp only [gbe.step] at hC
    exact addToReplaceInfoMap_creates (getInsn_eq_ok.mpr ha)
      (by rw [← frame_opcode hfr]; exact hop) (SelectionInstruction.src_eq_ok.mpr hra)
      (by rw [← frame_dst hfr 0]; exact hdst) (by rw [h1t, hty]) (by rw [h1f, hfi]) hlo hC
  -- it stays to the end of the scan
  have hallC : events T bb = (A ++ [Event.add m]) ++ B := by rw [hall]; simp
  obtain ⟨ht1, _, hp1⟩ := @runEvents_induction T features liveout bb (events T bb)
    (fun p st => (∃ q, p = A ++ Event.add m :: q) ∧ Pending dst.reg m st)
    (fun p ev rest st st1 hsplit ht hP hfresh hst => by
      obtain ⟨⟨q, hq⟩, hp⟩ := hP
      have hBq : B = q ++ ev :: rest := by
        have h2 : A ++ Event.add m :: B = A ++ Event.add m :: (q ++ ev :: rest) := by
          rw [← hall, hsplit, hq]; simp
        exact List.cons_injective (List.append_cancel_left h2)
      obtain ⟨hlt, insn, hinsn⟩ := hB ev (by rw [hBq]; simp)
      refine ⟨⟨q ++ [ev], by rw [hq]; simp⟩, ?_⟩
      exact Pending.persist ht hfresh hp hinsn
        (fun r hr => hlater _ insn hlt hinsn r (List.mem_append_left _ hr))
        (fun r hr => hlater _ insn hlt hinsn r (List.mem_append_right _ hr)) hst)
    B (A ++ [Event.add m]) sC s1 hallC hnd htC ⟨⟨[], rfl⟩, hpC⟩ hBrun
  obtain ⟨info, hmem, hi1, hi2⟩ := hp1
  obtain ⟨s2, hloop, hfin⟩ := cleanReplaceInfoMap_eq_ok hclean
  have halive : m ∉ s1.erased := by
    have := ht1.alive _ hmem
    rw [hi1] at this
    exact this
  refine ⟨?_, s1, hev, hclean, halive, info, hmem, hi1, hi2⟩
  rw [hfin]
  exact (cleanReplaceInfoMap_loop_erased _ _ _ hloop m).mpr (Or.inr ⟨_, hmem, hi1⟩)

/-- Scenario C of the specification with `r1` not live out: the move `MOV r1 <- r5`, whose
destination no later instruction reads or writes, is erased at the flush. -/
theorem run_erases_dead_move_witness :
    runState exampleTarget 0 [3] scenarioC
      = .ok { insns := scenarioC, erased := [1], replaceInfoMap := [], optimized := true } ∧
    (1 ∈ [1] ∧
      ∃ s1, runEvents exampleTarget 0 [3] (events exampleTarget scenarioC) (initState scenarioC)
          = .ok s1 ∧
        cleanReplaceInfoMap exampleTarget s1
          = .ok { insns := scenarioC, erased := [1], replaceInfoMap := [], optimized := true } ∧
        1 ∉ s1.erased ∧
        ∃ info, ((vreg 1).reg, info) ∈ s1.replaceInfoMap ∧ info.insn = 1 ∧
          info.toBeReplaceds = []) :=
  ⟨rfl, run_erases_dead_move exampleTarget 0 [3] scenarioC
    { insns := scenarioC, erased := [1], replaceInfoMap := [], optimized := true } 1
    (mkInsn 0 [1] [5]) (vreg 5) (vreg 1) rfl rfl rfl rfl rfl rfl (by decide)
    (by
      intro k insn hk h r hr
      rcases k with _ | _ | _ | k
      · omega
      · omega
      · simp only [scenarioC, zero_add, List.getElem?_cons_succ, List.getElem?_cons_zero,
          Option.some.injEq] at h
        subst h
        simp only [mkInsn, List.map_cons, List.map_nil, List.cons_append, List.nil_append,
          List.mem_cons, List.mem_singleton, List.not_mem_nil, or_false] at hr
        rcases hr with rfl | rfl | rfl <;> simp [vreg]
      · simp [scenarioC] at h)
    (Or.inl (fun _ _ => ⟨rfl, rfl⟩)) rfl⟩


/-! ## Writes that meet several candidates -/

/-- C13 (failing input): after the two moves of `MOV r2 <- r1; MOV r3 <- r1; ADD r1 <- r7, r8;
ADD r9 <- r3, r4` the map holds the candidates of `r2` and of `r3`, both with the replacement
`r1`.  The call of `removeFromReplaceInfoMap` for the destination `r1` of the first ADD marks
the candidate of `r2` and returns: the candidate of `r3` stays in the map, its replacement is
`r1` and its flag is still `false`.  The run then redirects the second ADD to `r1`: with
register `r` holding the value `r` at entry, the block ends with 5 in `r9` and the block left
by `run` ends with 19. -/
theorem removeFromReplaceInfoMap_marks_first_only :
    runEvents exampleTarget 0 [9]
        [Event.src 0 0, Event.dst 0 0, Event.add 0, Event.src 1 0, Event.dst 1 0, Event.add 1]
        (initState twoCopies) = .ok (twoCopiesState false) ∧
    removeFromReplaceInfoMap exampleTarget (twoCopiesState false) (vreg 1)
      = .ok (twoCopiesState true) ∧
    (∃ info, (3, info) ∈ (twoCopiesState true).replaceInfoMap ∧
      replacement (twoCopiesState true).insns info = .ok (vreg 1) ∧
      info.replacementOverwritten = false) ∧
    run exampleTarget 0 [9] twoCopies = .ok [mkInsn 3 [1] [7, 8], mkInsn 3 [9] [1, 4]] ∧
    execBlock exampleSem (fun r => (r : Int)) twoCopies 9 = 5 ∧
    execBlock exampleSem (fun r => (r : Int)) [mkInsn 3 [1] [7, 8], mkInsn 3 [9] [1, 4]] 9
      = 19 := by
  refine ⟨rfl, rfl, ⟨_, List.mem_cons_of_mem _ (List.mem_singleton.mpr rfl), rfl, rfl⟩, rfl,
    ?_, ?_⟩ <;> decide

/-- C14 (failing input): after the two moves of `MOV r5 <- r1; MOV r2 <- r5; ADD r5 <- r7, r8;
ADD r9 <- r5, r4` the map holds the candidate of `r2`, whose replacement is `r5`, and the
candidate of `r5`.  The call of `removeFromReplaceInfoMap` for the destination `r5` of the
first ADD meets the candidate of `r2` first, marks it and returns: the candidate whose
intermediate is `r5` is still in the map, neither applied nor discarded.  The run then
redirects the second ADD, which reads the new value of `r5`, to `r1`: with register `r`
holding the value `r` at entry, the block ends with 19 in `r9` and the block left by `run`
ends with 5. -/
theorem removeFromReplaceInfoMap_keeps_overwritten_intermediate :
    runEvents exampleTarget 0 [9]
        [Event.src 0 0, Event.dst 0 0, Event.add 0, Event.src 1 0, Event.dst 1 0, Event.add 1]
        (initState staleKey) = .ok (staleKeyState false) ∧
    removeFromReplaceInfoMap exampleTarget (staleKeyState false) (vreg 5)
      = .ok (staleKeyState true) ∧
    (∃ info, mapFind (vreg 5).reg (staleKeyState true).replaceInfoMap = some info ∧
      intermedia (staleKeyState true).insns info = .ok (vreg 5) ∧
      (staleKeyState true).erased = [] ∧ (staleKeyState true).insns = staleKey) ∧
    run exampleTarget 0 [9] staleKey = .ok [mkInsn 3 [5] [7, 8], mkInsn 3 [9] [1, 4]] ∧
    execBlock exampleSem (fun r => (r : Int)) staleKey 9 = 19 ∧
    execBlock exampleSem (fun r => (r : Int)) [mkInsn 3 [5] [7, 8], mkInsn 3 [9] [1, 4]] 9
      = 5 := by
  refine ⟨rfl, rfl, ⟨_, rfl, rfl, rfl, rfl⟩, rfl, ?_, ?_⟩ <;> decide


/-! ## The assertion of the footprint calculator -/

/-- C20 (failing input): in `MOV(16) r2 <- r1; MOV(8) r6:Q <- r2` every occurrence has a
non-zero element size and a row width that is at most the execution width of its own
instruction.  With the feature "restriction on moves of long registers", rule 4 of
`CanBeReplaced` computes the footprint of the replacement `r1`, whose rows have 16 elements,
at the execution width 8 of the second move: the assertion of `CalculateElements` fails, and
so does the run. -/
theorem run_assertion_fails :
    (∀ insn, insn ∈ wideThenLong → ∀ r, r ∈ insn.srcRegs ++ insn.dstRegs →
      exampleTarget.typeSize r.type ≠ 0 ∧ exampleTarget.width_size r ≤ insn.state.execWidth) ∧
    runEvents exampleTarget exampleTarget.SIOF_OP_MOV_LONG_REG_RESTRICT [6]
        [Event.src 0 0, Event.dst 0 0, Event.add 0] (initState wideThenLong)
      = .ok { insns := wideThenLong, erased := [],
              replaceInfoMap := [(2, { insn := 0, elements := 65535, toBeReplaceds := [],
                                       replacementOverwritten := false })],
              optimized := false } ∧
    CalculateElements exampleTarget (wideReg 1) 8 = .error .assertExecWidth ∧
    CanBeReplaced exampleTarget exampleTarget.SIOF_OP_MOV_LONG_REG_RESTRICT wideThenLong
        { insn := 0, elements := 65535, toBeReplaceds := [], replacementOverwritten := false }
        { opcode := 0, state := { execWidth := 8, noMask := 0, predicate := 0 },
          dstRegs := [{ vreg 6 with type := 8 }], srcRegs := [vreg 2], isWrite := false,
          isRead := false } (vreg 2)
      = .error .assertExecWidth ∧
    run exampleTarget exampleTarget.SIOF_OP_MOV_LONG_REG_RESTRICT [6] wideThenLong
      = .error .assertExecWidth := by
  refine ⟨?_, rfl, rfl, rfl, rfl⟩
  decide


/-! ## The bits of a footprint -/

/-- C16 (counterexample): for byte elements in the region `<32;8,4>` at execution width 16 the
second row starts at the element index 32; the computation shifts by 32 and returns no
footprint, so no bit below 32 is characterised.  For elements of `2 ^ 31` bytes in a row of 4
at execution width 4 every element index of the claim is below 32, the index 2 is one of them
and the bit 2 of the footprint 3 is not set: the 32-bit byte offset wrapped. -/
theorem CalculateElements_bits_counterexample :
    (exampleTarget.typeSize byteRows.type ≠ 0 ∧ 1 ≤ exampleTarget.width_size byteRows ∧
      exampleTarget.width_size byteRows ≤ 16 ∧
      CalculateElements exampleTarget byteRows 16 = .error .shiftCount ∧
      ¬ ∃ e, CalculateElements exampleTarget byteRows 16 = .ok e ∧
        ∀ k, k < 32 → (e.testBit k = true ↔
          ∃ i j, i < 16 / exampleTarget.width_size byteRows ∧
            j < exampleTarget.width_size byteRows ∧
            k = (byteRows.subnr
              + i * exampleTarget.vstride_size byteRows * exampleTarget.typeSize byteRows.type
              + j * exampleTarget.hstride_size byteRows * exampleTarget.typeSize byteRows.type)
              / exampleTarget.typeSize byteRows.type)) ∧
    (exampleTarget.typeSize hugeElems.type ≠ 0 ∧ 1 ≤ exampleTarget.width_size hugeElems ∧
      exampleTarget.width_size hugeElems ≤ 4 ∧
      (∀ i j, i < 4 / exampleTarget.width_size hugeElems →
        j < exampleTarget.width_size hugeElems →
        (hugeElems.subnr
          + i * exampleTarget.vstride_size hugeElems * exampleTarget.typeSize hugeElems.type
          + j * exampleTarget.hstride_size hugeElems * exampleTarget.typeSize hugeElems.type)
          / exampleTarget.typeSize hugeElems.type < 32) ∧
      CalculateElements exampleTarget hugeElems 4 = .ok 3 ∧
      Nat.testBit 3 2 = false ∧
      ∃ i j, i < 4 / exampleTarget.width_size hugeElems ∧
        j < exampleTarget.width_size hugeElems ∧
        2 = (hugeElems.subnr
          + i * exampleTarget.vstride_size hugeElems * exampleTarget.typeSize hugeElems.type
          + j * exampleTarget.hstride_size hugeElems * exampleTarget.typeSize hugeElems.type)
          / exampleTarget.typeSize hugeElems.type) := by
  refine ⟨⟨by decide, by decide, by decide, rfl, ?_⟩,
    ⟨by decide, by decide, by decide, ?_, rfl, by decide, 0, 2, by decide, by decide,
      by decide⟩⟩
  · rintro ⟨e, he, _⟩
    have h : CalculateElements exampleTarget byteRows 16 = .error .shiftCount := rfl
    rw [h] at he
    cases he
  · intro i j hi hj
    simp only [exampleTarget, hugeElems, vreg] at hi hj ⊢
    have hi0 : i = 0 := by omega
    subst hi0
    simp only [Nat.zero_mul, Nat.add_zero, Nat.zero_add, Nat.one_mul] at hj ⊢
    rw [Nat.mul_div_cancel _ (by decide)]
    omega

/-- C16 (amended): for an occurrence with non-zero element size `es` and row width `w >= 1`
(32-bit values) and an execution width `n >= w`, when every element index
`(subnr + i * vstride * es + j * hstride * es) / es` with `i < n / w` and `j < w` is below 32
and `subnr + (n / w) * vstride * es + w * hstride * es` is below `2 ^ 32`, `CalculateElements`
returns a footprint whose bit `k` is set if and only if `k` is one of these indices. -/
theorem CalculateElements_bits (T : Target) (reg : GenRegister) (n : Nat)
    (hes : T.typeSize reg.type ≠ 0) (hes32 : T.typeSize reg.type < 2 ^ 32)
    (hw : 1 ≤ T.width_size reg) (hw32 : T.width_size reg < 2 ^ 32) (hn : T.width_size reg ≤ n)
    (hfit : ∀ i j, i < n / T.width_size reg → j < T.width_size reg →
      (reg.subnr + i * T.vstride_size reg * T.typeSize reg.type
        + j * T.hstride_size reg * T.typeSize reg.type) / T.typeSize reg.type < 32)
    (hwrap : reg.subnr + n / T.width_size reg * T.vstride_size reg * T.typeSize reg.type
      + T.width_size reg * T.hstride_size reg * T.typeSize reg.type < 2 ^ 32) :
    ∃ e, CalculateElements T reg n = .ok e ∧
      ∀ k, e.testBit k = true ↔
        ∃ i j, i < n / T.width_size reg ∧ j < T.width_size reg ∧
          k = (reg.subnr + i * T.vstride_size reg * T.typeSize reg.type
            + j * T.hstride_size reg * T.typeSize reg.type) / T.typeSize reg.type := by
  simp only [Nat.mul_assoc] at hfit hwrap ⊢
  exact CalculateElements_spec T reg n (Nat.pos_of_ne_zero hes) hes32 hw hw32 hn hfit hwrap

/-- The footprint of a whole register of 4-byte elements at execution width 8. -/
theorem CalculateElements_bits_witness :
    ∃ e, CalculateElements exampleTarget (vreg 1) 8 = .ok e ∧
      ∀ k, e.testBit k = true ↔
        ∃ i j, i < 8 / exampleTarget.width_size (vreg 1) ∧ j < exampleTarget.width_size (vreg 1) ∧
          k = ((vreg 1).subnr
            + i * exampleTarget.vstride_size (vreg 1) * exampleTarget.typeSize (vreg 1).type
            + j * exampleTarget.hstride_size (vreg 1) * exampleTarget.typeSize (vreg 1).type)
            / exampleTarget.typeSize (vreg 1).type :=
  CalculateElements_bits exampleTarget (vreg 1) 8 (by decide) (by decide) (by decide)
    (by decide) (by decide)
    (by
      intro i j hi hj
      simp only [exampleTarget, vreg] at hi hj ⊢
      omega)
    (by decide)


/-! ## A move of a move -/

/-- The scan of a first instruction `MOV d <- s` that qualifies enters its candidate. -/
theorem runEvents_first_move {T : Target} {features : Nat} {liveout : List Nat}
    {mov : SelectionInstruction} {rest : List SelectionInstruction} {s d : GenRegister}
    {el : Nat} (hs : mov.srcRegs = [s]) (hd : mov.dstRegs = [d])
    (hop : mov.opcode = T.SEL_OP_MOV) (hty : s.type = d.type) (hfile : s.file = d.file)
    (hlive : d.reg ∉ liveout) (hfoot : CalculateElements T d mov.state.execWidth = .ok el) :
    runEvents T features liveout [Event.src 0 0, Event.dst 0 0, Event.add 0]
      (initState (mov :: rest)) = .ok (headState (mov :: rest) d.reg el [] false) := by
  have hg : getInsn (mov :: rest) 0 = .ok mov := rfl
  have hsrc : mov.src 0 = .ok s := by
    unfold SelectionInstruction.src; rw [hs]; rfl
  have hdst : mov.dst 0 = .ok d := by
    unfold SelectionInstruction.dst; rw [hd]; rfl
  simp only [runEvents, step, changeInsideReplaceInfoMap, initState, hg, hsrc, hdst, mapFind,
    removeFromReplaceInfoMap, removeFromReplaceInfoMap.loop, addToReplaceInfoMap, hop, ne_eq,
    not_true_eq_false, if_false, hty, hfile, or_self, if_neg hlive, ReplaceInfo.create, hfoot,
    mapInsert, headState]

/-- C12 (counterexample): on `MOV r2 <- r1; MOV r6 <- r2` with no register live out, `r6`
differs from `r2` and `r1`, `r2` is not live out and the read of `r2` by the second move
passes the eligibility check, yet `run` returns the empty block: the second move is a
candidate too and the flush erases it. -/
theorem run_move_chain_counterexample :
    (vreg 6).reg ≠ (vreg 2).reg ∧ (vreg 6).reg ≠ (vreg 1).reg ∧ (vreg 2).reg ∉ ([] : List Nat) ∧
    CanBeReplaced exampleTarget 0 scenarioE
      { insn := 0, elements := 255, toBeReplaceds := [], replacementOverwritten := false }
      (mkInsn 0 [6] [2]) (vreg 2) = .ok true ∧
    run exampleTarget 0 [] scenarioE = .ok [] ∧
    run exampleTarget 0 [] scenarioE ≠ .ok [mkInsn 0 [6] [1]] := by
  refine ⟨by decide, by decide, by decide, rfl, rfl, ?_⟩
  have h : run exampleTarget 0 [] scenarioE = .ok [] := rfl
  rw [h]
  intro hc
  cases hc

/-- The run of a block `[MOV d <- s; MOV e <- d]` whose second move stays. -/
theorem run_chain_of_kept {T : Target} {features : Nat} {liveout : List Nat}
    {mov1 mov2 : SelectionInstruction} {s d d2 e : GenRegister} {el : Nat}
    (h1s : mov1.srcRegs = [s]) (h1d : mov1.dstRegs = [d]) (h1op : mov1.opcode = T.SEL_OP_MOV)
    (h2s : mov2.srcRegs = [d2]) (h2d : mov2.dstRegs = [e]) (h2op : mov2.opcode = T.SEL_OP_MOV)
    (hreg : d2.reg = d.reg) (hty : s.type = d.type) (hfile : s.file = d.file)
    (hlive : d.reg ∉ liveout) (hed : e.reg ≠ d.reg) (hes : e.reg ≠ s.reg)
    (hfoot : CalculateElements T d mov1.state.execWidth = .ok el)
    (hpass : CanBeReplaced T features [mov1, mov2]
      { insn := 0, elements := el, toBeReplaceds := [], replacementOverwritten := false }
      mov2 d2 = .ok true)
    (hkeep : e.reg ∈ liveout ∨ d2.type ≠ e.type ∨ d2.file ≠ e.file) :
    run T features liveout [mov1, mov2]
      = .ok [{ mov2 with srcRegs := [T.propagateRegister d2 s] }] := by
  have hev : events T [mov1, mov2] = [Event.src 0 0, Event.dst 0 0, Event.add 0] ++
      [Event.src 1 0, Event.dst 1 0, Event.add 1] := by
    simp only [events, eventsFrom, eventsOf, SelectionInstruction.srcNum,
      SelectionInstruction.dstNum, h1s, h1d, h2s, h2d, h1op, h2op, if_true]
    rfl
  have hA := @runEvents_first_move T features liveout mov1 [mov2] s d el h1s h1d h1op hty hfile
    hlive hfoot
  have hg0 : getInsn [mov1, mov2] 0 = .ok mov1 := rfl
  have hg1 : getInsn [mov1, mov2] 1 = .ok mov2 := rfl
  have hsrc1 : mov1.src 0 = .ok s := by
    unfold SelectionInstruction.src; rw [h1s]; rfl
  have hdst1 : mov1.dst 0 = .ok d := by
    unfold SelectionInstruction.dst; rw [h1d]; rfl
  have hsrc2 : mov2.src 0 = .ok d2 := by
    unfold SelectionInstruction.src; rw [h2s]; rfl
  have hdst2 : mov2.dst 0 = .ok e := by
    unfold SelectionInstruction.dst; rw [h2d]; rfl
  -- the read of `d` is collected
  have hB1 : step T features liveout (headState [mov1, mov2] d.reg el [] false) (Event.src 1 0)
      = .ok (headState [mov1, mov2] d.reg el [(1, 0)] false) := by
    simp only [step, changeInsideReplaceInfoMap, headState, hg1, hsrc2, mapFind, hreg, if_true,
      hpass, mapUpdate, List.map_cons, List.map_nil, collect, List.not_mem_nil, if_false,
      List.nil_append]
  -- the write of `e` touches no candidate
  have hB2 : step T features liveout (headState [mov1, mov2] d.reg el [(1, 0)] false)
      (Event.dst 1 0) = .ok (headState [mov1, mov2] d.reg el [(1, 0)] false) := by
    simp only [step, headState, hg1, hdst2, removeFromReplaceInfoMap,
      removeFromReplaceInfoMap.loop, intermedia, replacement, hg0, hdst1, hsrc1,
      if_neg (Ne.symm hed), if_neg (Ne.symm hes)]
  -- the second move is no candidate
  have hB3 : step T features liveout (headState [mov1, mov2] d.reg el [(1, 0)] false)
      (Event.add 1) = .ok (headState [mov1, mov2] d.reg el [(1, 0)] false) := by
    simp only [step, addToReplaceInfoMap, headState, hg1, h2op, ne_eq, not_true_eq_false,
      if_false, hsrc2, hdst2]
    by_cases htf : d2.type ≠ e.type ∨ d2.file ≠ e.file
    · rw [if_pos htf]
    · rw [if_neg htf]
      rcases hkeep with hk | hk | hk
      · rw [if_pos hk]
      · exact absurd (Or.inl hk) htf
      · exact absurd (Or.inr hk) htf
  have hscan : runEvents T features liveout (events T [mov1, mov2]) (initState [mov1, mov2])
      = .ok (headState [mov1, mov2] d.reg el [(1, 0)] false) := by
    rw [hev, runEvents_append]
    refine ⟨_, hA, ?_⟩
    simp only [runEvents, hB1, hB2, hB3]
  -- the flush
  have hC : cleanReplaceInfoMap T (headState [mov1, mov2] d.reg el [(1, 0)] false)
      = .ok { insns := [mov1, { mov2 with srcRegs := [T.propagateRegister d2 s] }],
              erased := [0], replaceInfoMap := [], optimized := true } := by
    simp only [cleanReplaceInfoMap, cleanReplaceInfoMap.loop, headState, doReplacement,
      doReplacement.loop, hg1, hsrc2, replacement, hg0, hsrc1, setSrc, List.modify,
      List.modifyTailIdx, List.modifyHead, h2s, List.set]
  have hrun := (runState_eq_ok_iff T features liveout [mov1, mov2] _).mpr ⟨_, hscan, hC⟩
  unfold gbe.run
  rw [hrun]
  simp [insnList, List.enum, List.enumFrom]

/-- C12 (amended): for a block `[MOV d <- s; MOV e <- d]` in which `s` and `d` share type and
register file, `e` differs from `d` and `s`, `d` is not live out, the read of `d` by the
second move passes the eligibility check and the second move is itself no candidate (`e` is
live out, or `e` and `d` differ in type or register file), `run` returns the one-instruction
block `[MOV e <- s]`: the first move is gone and the second is kept with its source redirected
to `s`; when the redirected source has the register of `s` and `s` is not `d`, no operand left
has the register of `d`. -/
theorem run_move_chain (T : Target) (features : Nat) (liveout : List Nat)
    (mov1 mov2 : SelectionInstruction) (s d d2 e : GenRegister) (el : Nat)
    (h1s : mov1.srcRegs = [s]) (h1d : mov1.dstRegs = [d]) (h1op : mov1.opcode = T.SEL_OP_MOV)
    (h2s : mov2.srcRegs = [d2]) (h2d : mov2.dstRegs = [e]) (h2op : mov2.opcode = T.SEL_OP_MOV)
    (hreg : d2.reg = d.reg) (hty : s.type = d.type) (hfile : s.file = d.file)
    (hlive : d.reg ∉ liveout) (hed : e.reg ≠ d.reg) (hes : e.reg ≠ s.reg)
    (hfoot : CalculateElements T d mov1.state.execWidth = .ok el)
    (hpass : CanBeReplaced T features [mov1, mov2]
      { insn := 0, elements := el, toBeReplaceds := [], replacementOverwritten := false }
      mov2 d2 = .ok true)
    (hkeep : e.reg ∈ liveout ∨ d2.type ≠ e.type ∨ d2.file ≠ e.file) :
    run T features liveout [mov1, mov2]
      = .ok [{ mov2 with srcRegs := [T.propagateRegister d2 s] }] ∧
    ((T.propagateRegister d2 s).reg = s.reg → s.reg ≠ d.reg →
      ∀ r, r ∈ [T.propagateRegister d2 s] ++ mov2.dstRegs → r.reg ≠ d.reg) := by
  refine ⟨run_chain_of_kept h1s h1d h1op h2s h2d h2op hreg hty hfile hlive hed hes hfoot hpass
    hkeep, fun hp hsd r hr => ?_⟩
  rw [h2d] at hr
  simp only [List.singleton_append, List.mem_cons, List.mem_singleton, List.not_mem_nil,
    or_false] at hr
  rcases hr with rfl | rfl
  · rw [hp]; exact hsd
  · exact hed

/-- Scenario E of the specification with `r6` live out: `run` leaves `MOV r6 <- r1`. -/
theorem run_move_chain_witness :
    run exampleTarget 0 [6] scenarioE = .ok [mkInsn 0 [6] [1]] ∧
    ((exampleTarget.propagateRegister (vreg 2) (vreg 1)).reg = (vreg 1).reg →
      (vreg 1).reg ≠ (vreg 2).reg →
      ∀ r, r ∈ [exampleTarget.propagateRegister (vreg 2) (vreg 1)] ++ (mkInsn 0 [6] [2]).dstRegs →
        r.reg ≠ (vreg 2).reg) :=
  run_move_chain exampleTarget 0 [6] (mkInsn 0 [2] [1]) (mkInsn 0 [6] [2]) (vreg 1) (vreg 2)
    (vreg 2) (vreg 6) 255 rfl rfl rfl rfl rfl rfl rfl rfl rfl (by decide) (by decide)
    (by decide) rfl rfl (Or.inl (by decide))


/-! ## A move whose source is overwritten -/

/-- A candidate whose replacement was overwritten fails the eligibility check of every read by
an instruction that is not a move. -/
theorem CanBeReplaced_of_overwritten {T : Target} {features : Nat}
    {insns : List SelectionInstruction} {info : ReplaceInfo} {mov insn : SelectionInstruction}
    {im repl : GenRegister} (var : GenRegister)
    (hmov : getInsn insns info.insn = .ok mov) (him : intermedia insns info = .ok im)
    (hrepl : replacement insns info = .ok repl) (hop : insn.opcode ≠ T.SEL_OP_MOV)
    (hov : info.replacementOverwritten = true) :
    CanBeReplaced T features insns info insn var = .ok false := by
  unfold CanBeReplaced
  simp only [hmov, him, hrepl]
  have hl : CanBeReplaced.longRegRestrict T features info repl insn = .ok false := by
    unfold CanBeReplaced.longRegRestrict
    rw [if_neg (fun h => hop h.2)]
  rw [hl]
  simp only [hov, if_true]
  split_ifs <;> rfl

/-- The reads of an instruction that is not a move, against the single candidate of the first
instruction whose replacement was overwritten: the first read of the key removes the
candidate. -/
theorem runEvents_reads_overwritten {T : Target} {features : Nat} {liveout : List Nat}
    {bb : List SelectionInstruction} {mov I : SelectionInstruction} {s d : GenRegister}
    {el idx : Nat} (hmov : bb[0]? = some mov) (hs : mov.src 0 = .ok s)
    (hd : mov.dst 0 = .ok d) (hI : bb[idx]? = some I) (hop : I.opcode ≠ T.SEL_OP_MOV) :
    ∀ (js : List Nat), (∀ j, j ∈ js → j < I.srcNum) →
      ((∃ j r, j ∈ js ∧ I.srcRegs[j]? = some r ∧ r.reg = d.reg) →
        runEvents T features liveout (js.map (Event.src idx)) (headState bb d.reg el [] true)
          = .ok (initState bb)) ∧
      ((∀ j r, j ∈ js → I.srcRegs[j]? = some r → r.reg ≠ d.reg) →
        runEvents T features liveout (js.map (Event.src idx)) (headState bb d.reg el [] true)
          = .ok (headState bb d.reg el [] true)) := by
  have hg0 : getInsn bb 0 = .ok mov := getInsn_eq_ok.mpr hmov
  have hgI : getInsn bb idx = .ok I := getInsn_eq_ok.mpr hI
  intro js
  induction js with
  | nil =>
    intro _
    refine ⟨?_, fun _ => rfl⟩
    rintro ⟨j, r, hj, _⟩
    cases hj
  | cons j rest ih =>
    intro hjs
    have hj : j < I.srcRegs.length := hjs j (List.mem_cons_self _ _)
    have hr : I.srcRegs[j]? = some I.srcRegs[j] := List.getElem?_eq_getElem hj
    have hsrc : I.src j = .ok I.srcRegs[j] := SelectionInstruction.src_eq_ok.mpr hr
    obtain ⟨ih1, ih2⟩ := ih (fun k hk => hjs k (List.mem_cons_of_mem _ hk))
    by_cases hreg : d.reg = I.srcRegs[j].reg
    · have hcan := @CanBeReplaced_of_overwritten T features bb
        { insn := 0, elements := el, toBeReplaceds := [], replacementOverwritten := true }
        mov I d s I.srcRegs[j] hg0 (by simp only [intermedia, hg0, hd])
        (by simp only [replacement, hg0, hs]) hop rfl
      have hstep : step T features liveout (headState bb d.reg el [] true) (Event.src idx j)
          = .ok (initState bb) := by
        simp only [step, changeInsideReplaceInfoMap, headState, hgI, hsrc, mapFind, hreg,
          if_true, hcan, mapErase, List.filter, ne_eq, not_true_eq_false, decide_False,
          initState]
      have hempty := @scanSrcs_of_empty T features (initState bb) idx I rfl hI rest
        (fun k hk => hjs k (List.mem_cons_of_mem _ hk))
      rw [scanSrcs_eq_runEvents T features liveout] at hempty
      refine ⟨fun _ => ?_, fun hno => absurd hreg.symm (hno j _ (List.mem_cons_self _ _) hr)⟩
      simp only [List.map_cons, runEvents, hstep]
      exact hempty
    · have hstep : step T features liveout (headState bb d.reg el [] true) (Event.src idx j)
          = .ok (headState bb d.reg el [] true) := by
        simp only [step, changeInsideReplaceInfoMap, headState, hgI, hsrc, mapFind, if_neg hreg]
      refine ⟨fun hex => ?_, fun hno => ?_⟩
      · simp only [List.map_cons, runEvents, hstep]
        apply ih1
        obtain ⟨k, r, hk, hkr, hrr⟩ := hex
        rcases List.mem_cons.mp hk with rfl | hk
        · rw [hr] at hkr
          cases hkr
          exact absurd hrr.symm hreg
        · exact ⟨k, r, hk, hkr, hrr⟩
      · simp only [List.map_cons, runEvents, hstep]
        exact ih2 (fun k r hk => hno k r (List.mem_cons_of_mem _ hk))

/-- C11 (counterexample): on scenario C with only `r3` live out all occurrences share type,
register file and layout and `r2` is not live out, and `run` returns
`MOV r2 <- r1; ADD r3 <- r2, r4`: the second move `MOV r1 <- r5` is a candidate that nothing
reads, and the flush erases it. -/
theorem run_overwritten_source_counterexample :
    (vreg 2).reg ∉ [3] ∧
    run exampleTarget 0 [3] scenarioC = .ok [mkInsn 0 [2] [1], mkInsn 3 [3] [2, 4]] ∧
    run exampleTarget 0 [3] scenarioC ≠ .ok scenarioC := by
  refine ⟨by decide, rfl, ?_⟩
  have h : run exampleTarget 0 [3] scenarioC = .ok [mkInsn 0 [2] [1], mkInsn 3 [3] [2, 4]] :=
    rfl
  rw [h]
  intro hc
  have hlen := congrArg (fun r => match r with
    | Except.ok l => List.length l
    | Except.error _ => 0) hc
  simp [scenarioC] at hlen

/-- The scan and the run of a block `[MOV d <- s; MOV s <- t; I]` whose second move is no
candidate. -/
theorem run_of_overwritten_source {T : Target} {features : Nat} {liveout : List Nat}
    {mov1 mov2 I : SelectionInstruction} {s d t s2 : GenRegister} {el : Nat}
    (h1s : mov1.srcRegs = [s]) (h1d : mov1.dstRegs = [d]) (h1op : mov1.opcode = T.SEL_OP_MOV)
    (h2s : mov2.srcRegs = [t]) (h2d : mov2.dstRegs = [s2]) (h2op : mov2.opcode = T.SEL_OP_MOV)
    (hs2 : s2.reg = s.reg) (hty : s.type = d.type) (hfile : s.file = d.file)
    (hlive : d.reg ∉ liveout) (hsd : s.reg ≠ d.reg) (htd : t.reg ≠ d.reg)
    (hfoot : CalculateElements T d mov1.state.execWidth = .ok el)
    (hkeep : s2.reg ∈ liveout ∨ t.type ≠ s2.type ∨ t.file ≠ s2.file)
    (hI : I.opcode ≠ T.SEL_OP_MOV) (hread : ∃ r, r ∈ I.srcRegs ∧ r.reg = d.reg) :
    runEvents T features liveout
        [Event.src 0 0, Event.dst 0 0, Event.add 0, Event.src 1 0, Event.dst 1 0, Event.add 1]
        (initState [mov1, mov2, I]) = .ok (headState [mov1, mov2, I] d.reg el [] true) ∧
    run T features liveout [mov1, mov2, I] = .ok [mov1, mov2, I] := by
  have hg0 : getInsn [mov1, mov2, I] 0 = .ok mov1 := rfl
  have hg1 : getInsn [mov1, mov2, I] 1 = .ok mov2 := rfl
  have hsrc1 : mov1.src 0 = .ok s := by
    unfold SelectionInstruction.src; rw [h1s]; rfl
  have hdst1 : mov1.dst 0 = .ok d := by
    unfold SelectionInstruction.dst; rw [h1d]; rfl
  have hsrc2 : mov2.src 0 = .ok t := by
    unfold SelectionInstruction.src; rw [h2s]; rfl
  have hdst2 : mov2.dst 0 = .ok s2 := by
    unfold SelectionInstruction.dst; rw [h2d]; rfl
  have hA := @runEvents_first_move T features liveout mov1 [mov2, I] s d el h1s h1d h1op hty
    hfile hlive hfoot
  -- the second move reads `t`, marks the candidate and is no candidate
  have hB1 : step T features liveout (headState [mov1, mov2, I] d.reg el [] false)
      (Event.src 1 0) = .ok (headState [mov1, mov2, I] d.reg el [] false) := by
    simp only [step, changeInsideReplaceInfoMap, headState, hg1, hsrc2, mapFind,
      if_neg (Ne.symm htd)]
  have hB2 : step T features liveout (headState [mov1, mov2, I] d.reg el [] false)
      (Event.dst 1 0) = .ok (headState [mov1, mov2, I] d.reg el [] true) := by
    simp only [step, headState, hg1, hdst2, removeFromReplaceInfoMap,
      removeFromReplaceInfoMap.loop, intermedia, replacement, hg0, hdst1, hsrc1, hs2,
      if_neg (Ne.symm hsd), if_true, mapUpdate, List.map_cons, List.map_nil, markOverwritten]
  have hB3 : step T features liveout (headState [mov1, mov2, I] d.reg el [] true)
      (Event.add 1) = .ok (headState [mov1, mov2, I] d.reg el [] true) := by
    simp only [step, addToReplaceInfoMap, headState, hg1, h2op, ne_eq, not_true_eq_false,
      if_false, hsrc2, hdst2]
    by_cases htf : t.type ≠ s2.type ∨ t.file ≠ s2.file
    · rw [if_pos htf]
    · rw [if_neg htf]
      rcases hkeep with hk | hk | hk
      · rw [if_pos hk]
      · exact absurd (Or.inl hk) htf
      · exact absurd (Or.inr hk) htf
  have hAB : runEvents T features liveout
      [Event.src 0 0, Event.dst 0 0, Event.add 0, Event.src 1 0, Event.dst 1 0, Event.add 1]
      (initState [mov1, mov2, I]) = .ok (headState [mov1, mov2, I] d.reg el [] true) := by
    have hsplit : [Event.src 0 0, Event.dst 0 0, Event.add 0, Event.src 1 0, Event.dst 1 0,
        Event.add 1] = [Event.src 0 0, Event.dst 0 0, Event.add 0] ++
          [Event.src 1 0, Event.dst 1 0, Event.add 1] := rfl
    rw [hsplit, runEvents_append]
    refine ⟨_, hA, ?_⟩
    simp only [runEvents, hB1, hB2, hB3]
  refine ⟨hAB, ?_⟩
  -- the reads of `I` remove the candidate
  obtain ⟨r, hr, hrd⟩ := hread
  obtain ⟨j, hj⟩ := List.mem_iff_getElem?.mp hr
  have hjlt : j < I.srcRegs.length := by
    by_contra hc
    rw [List.getElem?_eq_none (Nat.le_of_not_lt hc)] at hj
    cases hj
  have hC := (@runEvents_reads_overwritten T features liveout [mov1, mov2, I] mov1 I s d el 2
    rfl hsrc1 hdst1 rfl hI (List.range I.srcNum) (fun k hk => List.mem_range.mp hk)).1
    ⟨j, r, List.mem_range.mpr hjlt, hj, hrd⟩
  have hD := @scanDsts_of_empty T (initState [mov1, mov2, I]) 2 I rfl rfl
    (List.range I.dstNum) (fun k hk => List.mem_range.mp hk)
  rw [scanDsts_eq_runEvents T features liveout] at hD
  have hev : events T [mov1, mov2, I] =
      [Event.src 0 0, Event.dst 0 0, Event.add 0, Event.src 1 0, Event.dst 1 0, Event.add 1] ++
        ((List.range I.srcNum).map (Event.src 2) ++ (List.range I.dstNum).map (Event.dst 2)) := by
    simp only [events, eventsFrom, eventsOf, SelectionInstruction.srcNum,
      SelectionInstruction.dstNum, h1s, h1d, h2s, h2d, h1op, h2op, if_true, if_neg hI,
      List.append_nil]
    rfl
  have hscan : runEvents T features liveout (events T [mov1, mov2, I])
      (initState [mov1, mov2, I]) = .ok (initState [mov1, mov2, I]) := by
    rw [hev, runEvents_append]
    refine ⟨_, hAB, ?_⟩
    rw [runEvents_append]
    exact ⟨_, hC, hD⟩
  have hclean : cleanReplaceInfoMap T (initState [mov1, mov2, I])
      = .ok (initState [mov1, mov2, I]) := rfl
  have hrun := (runState_eq_ok_iff T features liveout [mov1, mov2, I] _).mpr
    ⟨_, hscan, hclean⟩
  unfold gbe.run
  rw [hrun]
  simp only [initState, insnList_nil]

/-- C11 (amended): for a block `[MOV d <- s; MOV s <- t; I]` in which `s` and `d` share type
and register file and are different registers, `t` is not `d`, `d` is not live out, the
second move is itself no candidate (`s` is live out, or `t` and `s` differ in type or register
file) and `I` is not a move and reads `d`: the second move marks the candidate of the first
as overwritten, every read by `I` fails the eligibility check against it, and `run` returns
the block unchanged. -/
theorem run_overwritten_source (T : Target) (features : Nat) (liveout : List Nat)
    (mov1 mov2 I : SelectionInstruction) (s d t s2 : GenRegister) (el : Nat)
    (h1s : mov1.srcRegs = [s]) (h1d : mov1.dstRegs = [d]) (h1op : mov1.opcode = T.SEL_OP_MOV)
    (h2s : mov2.srcRegs = [t]) (h2d : mov2.dstRegs = [s2]) (h2op : mov2.opcode = T.SEL_OP_MOV)
    (hs2 : s2.reg = s.reg) (hty : s.type = d.type) (hfile : s.file = d.file)
    (hlive : d.reg ∉ liveout) (hsd : s.reg ≠ d.reg) (htd : t.reg ≠ d.reg)
    (hfoot : CalculateElements T d mov1.state.execWidth = .ok el)
    (hkeep : s2.reg ∈ liveout ∨ t.type ≠ s2.type ∨ t.file ≠ s2.file)
    (hI : I.opcode ≠ T.SEL_OP_MOV) (hread : ∃ r, r ∈ I.srcRegs ∧ r.reg = d.reg) :
    runEvents T features liveout
        [Event.src 0 0, Event.dst 0 0, Event.add 0, Event.src 1 0, Event.dst 1 0, Event.add 1]
        (initState [mov1, mov2, I]) = .ok (headState [mov1, mov2, I] d.reg el [] true) ∧
    (∀ var, CanBeReplaced T features [mov1, mov2, I]
      { insn := 0, elements := el, toBeReplaceds := [], replacementOverwritten := true } I var
        = .ok false) ∧
    run T features liveout [mov1, mov2, I] = .ok [mov1, mov2, I] := by
  obtain ⟨h1, h2⟩ := run_of_overwritten_source h1s h1d h1op h2s h2d h2op hs2 hty hfile hlive hsd
    htd hfoot hkeep hI hread
  refine ⟨h1, fun var => ?_, h2⟩
  have hg0 : getInsn [mov1, mov2, I] 0 = .ok mov1 := rfl
  have hsrc1 : mov1.src 0 = .ok s := by
    unfold SelectionInstruction.src; rw [h1s]; rfl
  have hdst1 : mov1.dst 0 = .ok d := by
    unfold SelectionInstruction.dst; rw [h1d]; rfl
  exact @CanBeReplaced_of_overwritten T features [mov1, mov2, I]
    { insn := 0, elements := el, toBeReplaceds := [], replacementOverwritten := true }
    mov1 I d s var hg0 (by simp only [intermedia, hg0, hdst1])
    (by simp only [replacement, hg0, hsrc1]) hI rfl

/-- Scenario C of the specification with `r1` and `r3` live out: the block is unchanged. -/
theorem run_overwritten_source_witness :
    runEvents exampleTarget 0 [1, 3]
        [Event.src 0 0, Event.dst 0 0, Event.add 0, Event.src 1 0, Event.dst 1 0, Event.add 1]
        (initState scenarioC) = .ok (headState scenarioC 2 255 [] true) ∧
    (∀ var, CanBeReplaced exampleTarget 0 scenarioC
      { insn := 0, elements := 255, toBeReplaceds := [], replacementOverwritten := true }
      (mkInsn 3 [3] [2, 4]) var = .ok false) ∧
    run exampleTarget 0 [1, 3] scenarioC = .ok scenarioC :=
  run_overwritten_source exampleTarget 0 [1, 3] (mkInsn 0 [2] [1]) (mkInsn 0 [1] [5])
    (mkInsn 3 [3] [2, 4]) (vreg 1) (vreg 2) (vreg 5) (vreg 1) 255 rfl rfl rfl rfl rfl rfl rfl
    rfl rfl (by decide) (by decide) (by decide) rfl (Or.inl (by decide)) (by decide)
    ⟨vreg 2, List.mem_cons_self _ _, rfl⟩


/-! ## Running the pass twice -/

/-- An event that leaves nothing erased leaves the store as it is. -/
theorem step_unerased {T : Target} {features : Nat} {liveout : List Nat}
    {s s1 : SelBasicBlockOptimizer} {ev : Event} (h : step T features liveout s ev = .ok s1)
    (he : s1.erased = []) : s1.insns = s.insns ∧ s.erased = [] := by
  cases ev with
  | src idx j =>
    simp only [gbe.step] at h
    obtain ⟨var, _, h | h | h⟩ := changeInsideReplaceInfoMap_effect h <;> subst h <;>
      exact ⟨rfl, he⟩
  | add idx =>
    simp only [gbe.step] at h
    rcases addToReplaceInfoMap_effect h with h | ⟨_, _, _, _, _, _, _, _, _, _, _, _, _, h⟩ <;>
      subst h <;> exact ⟨rfl, he⟩
  | dst idx j =>
    obtain ⟨insn, var, _, _, h | ⟨e, im, _, _, _, h | h⟩ | ⟨e, _, h⟩⟩ := step_dst_effect h
    · subst h; exact ⟨rfl, he⟩
    · obtain ⟨s2, hdo, h⟩ := h
      subst h
      obtain ⟨_, he2, _, _⟩ := doReplacement_spec T s s2 e.2 hdo
      have hc : s2.erased = [] := he
      rw [he2] at hc
      cases hc
    · subst h; exact ⟨rfl, he⟩
    · subst h; exact ⟨rfl, he⟩

theorem runEvents_unerased {T : Target} {features : Nat} {liveout : List Nat} :
    ∀ (evs : List Event) (s s1 : SelBasicBlockOptimizer),
      runEvents T features liveout evs s = .ok s1 → s1.erased = [] →
      s1.insns = s.insns ∧ s.erased = [] := by
  intro evs
  induction evs with
  | nil =>
    intro s s1 h he
    simp only [runEvents, Except.ok.injEq] at h
    subst h
    exact ⟨rfl, he⟩
  | cons ev rest ih =>
    intro s s1 h he
    have h2 : runEvents T features liveout ([ev] ++ rest) s = .ok s1 := h
    rw [runEvents_append] at h2
    obtain ⟨s2, hs2, hrest⟩ := h2
    rw [runEvents_singleton] at hs2
    obtain ⟨h1, h3⟩ := ih s2 s1 hrest he
    obtain ⟨h4, h5⟩ := step_unerased hs2 h3
    exact ⟨h1.trans h4, h5⟩

/-- A flush that leaves nothing erased found the map empty. -/
theorem cleanReplaceInfoMap_unerased {T : Target} {s sfin : SelBasicBlockOptimizer}
    (h : cleanReplaceInfoMap T s = .ok sfin) (he : sfin.erased = []) :
    sfin.insns = s.insns ∧ s.erased = [] ∧ s.replaceInfoMap = [] := by
  obtain ⟨s2, hloop, hfin⟩ := cleanReplaceInfoMap_eq_ok h
  have he2 : s2.erased = [] := by rw [hfin] at he; exact he
  have hmem := cleanReplaceInfoMap_loop_erased _ _ _ hloop
  have hmap : s.replaceInfoMap = [] := by
    cases hm : s.replaceInfoMap with
    | nil => rfl
    | cons e rest =>
      have : e.2.insn ∈ s2.erased :=
        (hmem e.2.insn).mpr (Or.inr ⟨e, by rw [hm]; exact List.mem_cons_self _ _, rfl⟩)
      rw [he2] at this
      cases this
  have hs : s.erased = [] := by
    cases hs : s.erased with
    | nil => rfl
    | cons i rest =>
      have : i ∈ s2.erased := (hmem i).mpr (Or.inl (by rw [hs]; exact List.mem_cons_self _ _))
      rw [he2] at this
      cases this
  rw [hmap] at hloop
  simp only [cleanReplaceInfoMap.loop, Except.ok.injEq] at hloop
  subst hloop
  subst hfin
  exact ⟨rfl, hs, hmap⟩

/-- A run that erases nothing leaves the store as the block was. -/
theorem runState_unerased {T : Target} {features : Nat} {liveout : List Nat}
    {bb : List SelectionInstruction} {s : SelBasicBlockOptimizer}
    (h : runState T features liveout bb = .ok s) (he : s.erased = []) : s.insns = bb := by
  obtain ⟨s1, hev, hclean⟩ := (runState_eq_ok_iff T features liveout bb s).mp h
  obtain ⟨h1, h2, _⟩ := cleanReplaceInfoMap_unerased hclean he
  obtain ⟨h3, _⟩ := runEvents_unerased _ _ _ hev h2
  rw [h1, h3]
  rfl

/-- A run that erases something returns a shorter block. -/
theorem length_insnList_lt {T : Target} {features : Nat} {liveout : List Nat}
    {bb : List SelectionInstruction} {s : SelBasicBlockOptimizer}
    (h : runState T features liveout bb = .ok s) (he : s.erased ≠ []) :
    (insnList s.insns s.erased).length < bb.length := by
  have hinv := runState_inv h
  have hlen : s.insns.length = bb.length := by
    have := congrArg List.length hinv.frame
    simpa using this
  obtain ⟨i, hi⟩ := List.exists_mem_of_ne_nil _ he
  obtain ⟨mov, _, hmov, _⟩ := hinv.erased i hi
  obtain ⟨a, ha, _⟩ := hinv.getElem?_store hmov
  unfold insnList
  rw [List.length_map, ← hlen]
  have hlt : (s.insns.enum.filter (fun p => decide (p.1 ∉ s.erased))).length
      < s.insns.enum.length := by
    rw [List.length_filter_lt_length_iff_exists]
    exact ⟨(i, a), List.mk_mem_enum_iff_getElem?.mpr ha, by simpa using hi⟩
  simpa using hlt

/-- A run returns the block it was given exactly when it erases nothing. -/
theorem run_eq_self_iff {T : Target} {features : Nat} {liveout : List Nat}
    {bb : List SelectionInstruction} :
    run T features liveout bb = .ok bb ↔
      ∃ s, runState T features liveout bb = .ok s ∧ s.erased = [] ∧ s.insns = bb := by
  constructor
  · intro h
    obtain ⟨s, hs, hout⟩ := run_eq_ok h
    have he : s.erased = [] := by
      by_contra hne
      have := length_insnList_lt hs hne
      rw [← hout] at this
      exact Nat.lt_irrefl _ this
    exact ⟨s, hs, he, runState_unerased hs he⟩
  · rintro ⟨s, hs, he, hi⟩
    unfold gbe.run
    rw [hs]
    simp only [he, hi, insnList_nil]

/-- C5 (amended): for a block `out` that a first run returned, a second run returns `out`
again if and only if it erases no instruction, and then its store is `out`, no occurrence
redirected.  That is the case when the first run erased nothing, and when no move of `out`
qualifies for a candidate.  A second run that does not return `out` returns a shorter
block. -/
theorem run_twice_identity_iff (T : Target) (features : Nat) (liveout : List Nat)
    (bb out : List SelectionInstruction) (hrun : run T features liveout bb = .ok out) :
    (run T features liveout out = .ok out ↔
      ∃ s2, runState T features liveout out = .ok s2 ∧ s2.erased = [] ∧ s2.insns = out) ∧
    ((∃ s1, runState T features liveout bb = .ok s1 ∧ s1.erased = []) →
      run T features liveout out = .ok out) ∧
    (NoCandidate T liveout out → run T features liveout out = .ok out) ∧
    (∀ out2, run T features liveout out = .ok out2 → out2 ≠ out →
      out2.length < out.length) := by
  refine ⟨run_eq_self_iff, ?_, fun h => run_of_noCandidate h, ?_⟩
  · rintro ⟨s1, hs1, he1⟩
    have hbb : run T features liveout bb = .ok bb :=
      run_eq_self_iff.mpr ⟨s1, hs1, he1, runState_unerased hs1 he1⟩
    rw [hbb] at hrun
    cases hrun
    exact hbb
  · intro out2 h2 hne
    obtain ⟨s2, hs2, hout2⟩ := run_eq_ok h2
    rw [hout2]
    refine length_insnList_lt hs2 (fun he => hne ?_)
    rw [hout2, he, runState_unerased hs2 he, insnList_nil]

/-- Scenario D of the specification: the first run erases nothing and returns the block, and
so does the second. -/
theorem run_twice_identity_iff_witness :
    run exampleTarget 0 [3] scenarioD = .ok scenarioD ∧
    ((run exampleTarget 0 [3] scenarioD = .ok scenarioD ↔
      ∃ s2, runState exampleTarget 0 [3] scenarioD = .ok s2 ∧ s2.erased = [] ∧
        s2.insns = scenarioD) ∧
    ((∃ s1, runState exampleTarget 0 [3] scenarioD = .ok s1 ∧ s1.erased = []) →
      run exampleTarget 0 [3] scenarioD = .ok scenarioD) ∧
    (NoCandidate exampleTarget [3] scenarioD →
      run exampleTarget 0 [3] scenarioD = .ok scenarioD) ∧
    (∀ out2, run exampleTarget 0 [3] scenarioD = .ok out2 → out2 ≠ scenarioD →
      out2.length < scenarioD.length)) :=
  ⟨rfl, run_twice_identity_iff exampleTarget 0 [3] scenarioD scenarioD rfl⟩

end gbe
